import Mathlib

/-!
Vorpal: autocomplete matching, the command registry and the execution engine

Shallow embedding of `lib/autocomplete.js` (`autocomplete.match`), of the registry part of
`lib/vorpal.js` and `lib/command.js` (`command`, `mode`, `catch`, `find`, `Command.remove`,
`Command.alias`, `_parseExpectedArgs`), of `lib/session.js` (`execCommandSet`,
`registerCommand`, `completeCommand`, `cancelCommands`) and of the queueing part of
`lib/vorpal.js` (`exec`, `execSync`, `_queueHandler`, `_execQueueItem`, `_exec` and its
completion `callback`).
-/

namespace Vorpal

/-! ## JavaScript strings -/

/-- A JavaScript string, as its sequence of UTF-16 code units. -/
abbrev JSString := List Nat

/-- Code units of a Lean string literal (used for readable examples; every character of
the examples is in the Basic Multilingual Plane, so code points are code units). -/
def ofString (s : String) : JSString := s.toList.map Char.toNat

/-- The code unit of `'/'`. -/
def slash : Nat := 47

/-- The code unit of `' '`. -/
def space : Nat := 32

/-- The comparison used by `Array.prototype.sort()` when no comparator is given: strings are
compared code unit by code unit, and a proper prefix sorts before its extensions.
`strLe a b` is `a <= b` in that order. -/
def strLe : JSString → JSString → Bool
  | [], _ => true
  | _ :: _, [] => false
  | a :: as, b :: bs => if a < b then true else if b < a then false else strLe as bs

/-- `arr.sort()`: the elements in ascending `strLe` order.  The order is total and
antisymmetric on strings, so every sorting algorithm returns this same list. -/
def jsSort (arr : List JSString) : List JSString :=
  arr.insertionSort (fun a b => strLe a b = true)

/-- `str.split(sep)` for a one-code-unit separator: never empty, `''.split(sep)` is `['']`. -/
def split (sep : Nat) : JSString → List JSString
  | [] => [[]]
  | c :: cs =>
    if c = sep then [] :: split sep cs
    else
      match split sep cs with
      | [] => [[c]]
      | p :: ps => (c :: p) :: ps

/-- `parts.join(sep)` for a one-code-unit separator. -/
def join (sep : Nat) : List JSString → JSString
  | [] => []
  | [p] => p
  | p :: q :: ps => p ++ sep :: join sep (q :: ps)

/-- `str.slice(start)` with a possibly negative start index. -/
def sliceFrom (s : JSString) (start : Int) : JSString :=
  let len : Int := s.length
  let k : Int := if start < 0 then max (len + start) 0 else min start len
  s.drop k.toNat

/-! ## `autocomplete.match` (lib/autocomplete.js, lines 70-117) -/

/-- What `autocomplete.match` returns: `undefined`, a string, or an array of strings. -/
inductive MatchResult where
  | undefined : MatchResult
  | str : JSString → MatchResult
  | list : List JSString → MatchResult
  deriving DecidableEq, Repr

namespace autocomplete

/-- The callback given to `matches.reduce` (lines 101-108): scan `current` from the left;
at the first index `i` where `previous[i]` is truthy (it exists) and differs from
`current[i]`, return `current.substr(0, i)`; when the loop finds none, return `previous`. -/
def reducer (previous current : JSString) : JSString :=
  match (List.range current.length).find?
      (fun i => (previous[i]?).isSome && (current[i]? != previous[i]?)) with
  | some i => current.take i
  | none => previous

/-- `matches.reduce(reducer)` without an initial value: the first element seeds the
accumulator.  (On an empty array JavaScript throws; `match_` only reduces a list of at least
two elements.) -/
def reduce : List JSString → JSString
  | [] => []
  | m :: ms => ms.foldl reducer m

/-- The path prefix and the remaining search string computed on lines 78-83
(`strX.split('/')`, `parts.pop()`, `parts.join('/')`, and the re-attached `'/'`). -/
def holdOutPrefix (strX : JSString) : JSString × JSString :=
  let parts := split slash strX
  let last := parts.getLast?.getD []
  let rest := parts.dropLast
  let joined := join slash rest
  (if rest.length > 0 then joined ++ [slash] else joined, last)

/-- `autocomplete.match(str, arr, options)`; `strip` is the `strip-ansi` function and
`ignoreSlashes` is `options.ignoreSlashes === true`. -/
def match_ (strip : JSString → JSString) (str : JSString) (arr : List JSString)
    (ignoreSlashes : Bool) : MatchResult :=
  let arrX := jsSort arr
  let ps : JSString × JSString := if ignoreSlashes then ([], str) else holdOutPrefix str
  let prefix_ := ps.1
  let strX := ps.2
  let matches_ := arrX.filter (fun x => (strip x).take strX.length == strX)
  match matches_ with
  | [] => MatchResult.undefined
  | [m] =>
    let space_ : JSString :=
      if sliceFrom (strip m) ((strip m).length - 1 : Int) == [slash] then [] else [space]
    MatchResult.str (prefix_ ++ m ++ space_)
  | m :: _ :: _ =>
    if strX.length = 0 then MatchResult.list matches_
    else
      let longestMatchLength := (reduce matches_).length
      if longestMatchLength = strX.length then MatchResult.list matches_
      else MatchResult.str (prefix_ ++ m.take longestMatchLength)

end autocomplete


/-! ## Command registry (lib/vorpal.js `command`, `mode`, `catch`, `find`; lib/command.js
`alias`, `remove`, `_parseExpectedArgs`) -/

/-- The code units `String.prototype.trim` removes (WhiteSpace and LineTerminator). -/
def isWhiteSpace (c : Nat) : Bool :=
  c == 9 || c == 10 || c == 11 || c == 12 || c == 13 || c == 32 || c == 160 || c == 5760 ||
    (8192 ≤ c && c ≤ 8202) || c == 8232 || c == 8233 || c == 8239 || c == 8287 ||
    c == 12288 || c == 65279

/-- `str.trim()`. -/
def trim (s : JSString) : JSString :=
  ((s.dropWhile isWhiteSpace).reverse.dropWhile isWhiteSpace).reverse

/-- One positional slot, the `argDetails` object of `_parseExpectedArgs`. -/
structure ArgSpec where
  required : Bool
  name : JSString
  variadic : Bool
  deriving DecidableEq, Repr

/-- The fields of a `Command` object the registry operations read or write. -/
structure Command where
  _name : JSString
  _args : List ArgSpec
  _aliases : List JSString
  _mode : Bool
  _catch : Bool
  _noHelp : Bool
  deriving DecidableEq, Repr

/-- The `opts` object of `vorpal.command(name, desc, opts)`. -/
structure CommandOpts where
  noHelp : Bool
  mode : Bool
  catch_ : Bool
  deriving DecidableEq, Repr

/-- `cmdNameRegExp.exec(name)[0].trim()` with `cmdNameRegExp = /^([^\[\<]*)/`: the text
before the first `'['` (91) or `'<'` (60), trimmed. -/
def commandName (name : JSString) : JSString :=
  trim (name.takeWhile (fun c => c != 91 && c != 60))

/-- The scan of `argsRegExp = /(\[[^\]]*\]|\<[^\>]*\>)/g` over the template: outside a
token, a `'['` that has a `']'` after it (or a `'<'` that has a `'>'` after it) opens a
token, which runs up to the first such closing character; the first component of the state
is the awaited closing character with the token read so far. -/
def argTokensFrom : Option (Nat × JSString) → JSString → List JSString
  | _, [] => []
  | some (close, acc), c :: cs =>
    if c = close then (acc ++ [c]) :: argTokensFrom none cs
    else argTokensFrom (some (close, acc ++ [c])) cs
  | none, c :: cs =>
    if c = 91 ∧ 93 ∈ cs then argTokensFrom (some (93, [c])) cs
    else if c = 60 ∧ 62 ∈ cs then argTokensFrom (some (62, [c])) cs
    else argTokensFrom none cs

/-- The `args` array built by the `while ((arg = argsRegExp.exec(name)) !== null)` loop. -/
def argTokens (name : JSString) : List JSString :=
  argTokensFrom none name

/-- The `argDetails` computed for one token by the `forEach` body of `_parseExpectedArgs`
(before the `if (argDetails.name)` test). -/
def argDetails (arg : JSString) : ArgSpec :=
  let inner : JSString := (arg.drop 1).dropLast
  let base : ArgSpec :=
    match arg.head? with
    | some 60 => { required := true, name := inner, variadic := false }
    | some 91 => { required := false, name := inner, variadic := false }
    | _ => { required := false, name := [], variadic := false }
  if base.name.length > 3 ∧ base.name.drop (base.name.length - 3) = [46, 46, 46] then
    { base with variadic := true, name := base.name.take (base.name.length - 3) }
  else base

/-- The comparator given to `this._args.sort` (lines 530-541). -/
def argCompare (argu1 argu2 : ArgSpec) : Int :=
  if argu1.required && !argu2.required then -1
  else if argu2.required && !argu1.required then 1
  else if argu1.variadic && !argu2.variadic then 1
  else if argu2.variadic && !argu1.variadic then -1
  else 0

/-- `_parseExpectedArgs(args)` on a fresh command: the specs with a non-empty name, sorted
with the comparator when there is more than one (`Array.prototype.sort` is stable, and
inserting each element before the first one it does not sort after is a stable sort). -/
def parseExpectedArgs (args : List JSString) : List ArgSpec :=
  let specs := (args.map argDetails).filter (fun a => !a.name.isEmpty)
  if specs.length > 1 then specs.insertionSort (fun a b => argCompare a b ≤ 0) else specs

/-- The `Command` built by `vorpal.command(name, desc, opts)` before it is stored. -/
def newCommand (name : JSString) (opts : CommandOpts) : Command :=
  { _name := commandName name
    _args := parseExpectedArgs (argTokens name)
    _aliases := []
    _mode := opts.mode
    _catch := opts.catch_
    _noHelp := opts.noHelp }

/-- The loop of lines 295-301: overwrite the first entry that has the new command's name;
`none` when no entry has it (`exists` stays false). -/
def replaceFirst (cmd : Command) : List Command → Option (List Command)
  | [] => none
  | c :: cs =>
    if c._name = cmd._name then some (cmd :: cs)
    else (replaceFirst cmd cs).map (fun r => c :: r)

/-- `vorpal.command(name, desc, opts)` as a function of the command list. -/
def command (commands : List Command) (name : JSString) (opts : CommandOpts) : List Command :=
  match replaceFirst (newCommand name opts) commands with
  | some cs => cs
  | none => commands ++ [newCommand name opts]

/-- `vorpal.mode(name, desc, opts)`: `command` with `mode: true`. -/
def mode (commands : List Command) (name : JSString) (opts : CommandOpts) : List Command :=
  command commands name { opts with mode := true }

/-- `vorpal.catch(name, desc, opts)` and its alias `vorpal.default`: `command` with
`catch: true`. -/
def catch_ (commands : List Command) (name : JSString) (opts : CommandOpts) : List Command :=
  command commands name { opts with catch_ := true }

/-- `Command.remove()` for a command object whose `_name` is `name`: every entry with that
name is rejected from the list. -/
def remove (commands : List Command) (name : JSString) : List Command :=
  commands.filter (fun c => !(c._name == name))

/-- `vorpal.find(name)`: the first entry with that `_name`. -/
def find (commands : List Command) (name : JSString) : Option Command :=
  commands.find? (fun c => c._name == name)

/-- One argument of `cmd.alias(...args)`: a string or an array of strings. -/
inductive AliasArg where
  | str : JSString → AliasArg
  | arr : List JSString → AliasArg
  deriving DecidableEq, Repr

/-- Lines 263-270 for one string `alias`, `this` being the entry at index `i`: throw
(`none`) when a command of the registry with a non-empty alias list includes the alias,
else push it on `this._aliases`. -/
def aliasOne (commands : List Command) (i : Nat) (alias_ : JSString) : Option (List Command) :=
  if commands.any (fun c => !c._aliases.isEmpty && c._aliases.contains alias_) then none
  else some (commands.modify (fun c => { c with _aliases := c._aliases ++ [alias_] }) i)

/-- The inner loop `for (j ...) this.alias(alias[j])` over an array argument; the boolean
tells whether a call threw (the aliases pushed before it stay). -/
def aliasEach (commands : List Command) (i : Nat) : List JSString → List Command × Bool
  | [] => (commands, false)
  | a :: as =>
    match aliasOne commands i a with
    | none => (commands, true)
    | some cs => aliasEach cs i as

/-- `cmd.alias(...args)` for the entry at index `i`: the registry afterwards and whether
the call threw.  An array argument is handled by the inner loop and is followed by
`return this`, which ends the call. -/
def alias_ (commands : List Command) (i : Nat) : List AliasArg → List Command × Bool
  | [] => (commands, false)
  | AliasArg.arr l :: _ => aliasEach commands i l
  | AliasArg.str a :: rest =>
    match aliasOne commands i a with
    | none => (commands, true)
    | some cs => alias_ cs i rest

/-- An `opts` object without flags. -/
def noOpts : CommandOpts := { noHelp := false, mode := false, catch_ := false }

/-- The command list of a freshly constructed engine: `lib/vorpal-commons.js` registers
`help [command...]` and `exit` with the alias `quit`. -/
def initialCommands : List Command :=
  (alias_ (command (command [] (ofString "help [command...]") noOpts) (ofString "exit") noOpts)
    1 [AliasArg.str (ofString "quit")]).1

/-- A registry operation of the public API; `remove` carries the `_name` of the command
object it is called on. -/
inductive RegistryOp where
  | command : JSString → CommandOpts → RegistryOp
  | mode : JSString → CommandOpts → RegistryOp
  | catch_ : JSString → CommandOpts → RegistryOp
  | remove : JSString → RegistryOp
  deriving DecidableEq, Repr

/-- The command list after one registry operation. -/
def applyOp (commands : List Command) : RegistryOp → List Command
  | RegistryOp.command name opts => command commands name opts
  | RegistryOp.mode name opts => mode commands name opts
  | RegistryOp.catch_ name opts => catch_ commands name opts
  | RegistryOp.remove name => remove commands name

/-- The command list after a sequence of registry operations on a fresh engine. -/
def applyOps (ops : List RegistryOp) : List Command :=
  ops.foldl applyOp initialCommands


/-! ## Execution engine (lib/vorpal.js `exec`, `execSync`, `_queueHandler`, `_execQueueItem`,
`_exec`, `_exitMode`; lib/session.js `execCommandSet`, `registerCommand`, `completeCommand`)

One engine with its local session.  User code (actions, hooks, caller callbacks) is not
executed; what it is given is recorded as an `Output`, and what it does to the engine is
either part of the command's description (`Action`, `ValidateHook`) or a later `Event`:
hooks and caller callbacks do not call into the engine while they run and do not throw, and
an action called with a completion callback does not throw.  The parser (`lib/util.js`) is a
parameter of the model (`Config.parseCommand`). -/

/-- The JavaScript values the engine inspects: only truthiness and identity matter.
`newError v` is the object made by `new Error(v)`: a new object, not `v` (the objects made
from the same `v` are not told apart). -/
inductive Val where
  | undefined : Val
  | null : Val
  | bool : Bool → Val
  | num : Int → Val
  | str : JSString → Val
  | obj : Nat → Val
  | newError : Val → Val
  deriving DecidableEq, Repr

/-- JavaScript truthiness. -/
def Val.truthy : Val → Bool
  | Val.undefined => false
  | Val.null => false
  | Val.bool b => b
  | Val.num n => n != 0
  | Val.str s => !s.isEmpty
  | Val.obj _ => true
  | Val.newError _ => true

/-- How the request was issued: `exec(cmd, cb)`, `exec(cmd)` returning a promise, or
`execSync(cmd, options)` with `options.fatal === true` or not. -/
inductive Style where
  | callback : Style
  | promise : Style
  | sync : Bool → Style
  deriving DecidableEq, Repr

/-- The `command` object of `exec`/`execSync`: a queue entry and later the wrapper of the
invocation.  `id` is the identity of the object. -/
structure Item where
  id : Nat
  command : JSString
  style : Style
  deriving DecidableEq, Repr

/-- What an action does to the session while it runs: call its completion callback with
`args`, `session.registerCommand()`, `session.completeCommand()`, or cancel (`this.cancel()`,
`session.cancelCommands()`). -/
inductive Op where
  | callback : List Val → Op
  | registerCommand : Op
  | completeCommand : Op
  | cancel : Op
  deriving DecidableEq, Repr

/-- What an action called by `execCommandSet` returns: a value that is not thenable, or a
thenable, with a `cancel` method or without. -/
inductive Ret where
  | value : Val → Ret
  | promise : Bool → Ret
  deriving DecidableEq, Repr

/-- What an action does when the synchronous path calls it (no completion callback). -/
inductive SyncResult where
  | returns : Val → SyncResult
  | throws : Val → SyncResult
  deriving DecidableEq, Repr

/-- The behaviour of an action function (`_fn`, `_init`, `_help`): called with a completion
callback it performs `ops` and returns `ret` (it does not throw); called by the synchronous
path it returns or throws `sync`. -/
structure Action where
  ops : List Op
  ret : Ret
  sync : SyncResult
  deriving DecidableEq, Repr

/-- The behaviour of a validate hook. -/
inductive ValidateHook where
  | throws : Val → ValidateHook
  | returns : Val → ValidateHook
  deriving DecidableEq, Repr

/-- The hooks of a resolved command as `_exec` and `execCommandSet` read them; `_cancel` and
`_done` tell whether the hook is a function. -/
structure CommandObject where
  _mode : Bool
  _validate : Option ValidateHook
  _fn : Action
  _init : Option Action
  _help : Option Action
  _cancel : Bool
  _done : Bool
  _delimiter : Option JSString
  deriving DecidableEq, Repr

/-- The closure data of one `execCommandSet` call: the wrapper and the chain of command
instances, the root first, each followed by its `downstream`. -/
structure CommandSet where
  wrapper : Item
  chain : List CommandObject
  deriving DecidableEq, Repr

/-- What `util.parseCommand`, `util.buildCommandArgs` and `util.matchCommand` (not in the
sources at hand) yield for a line: no command; a command whose arguments do not build (the
message); a piped command that does not resolve (`undefined`) or whose arguments do not
build (the message); or the command's name, the command, whether `args.options.help` is
set, and the piped commands. -/
inductive ParseOutcome where
  | noMatch : ParseOutcome
  | argsError : Val → ParseOutcome
  | pipeError : Val → ParseOutcome
  | ok : JSString → CommandObject → Bool → List CommandObject → ParseOutcome
  deriving DecidableEq, Repr

/-- The parts of the engine the model takes as given: the parser over the registry, the
engine-wide `_fatal` flag and the base delimiter of the session. -/
structure Config where
  parseCommand : JSString → ParseOutcome
  _fatal : Bool
  delimiter : JSString

/-- The closure variable `response` of `execCommandSet`. -/
structure Response where
  error : Val
  data : Val
  args : Option (List Val)
  deriving DecidableEq, Repr

/-- Which function of the command is called as the action. -/
inductive Fn where
  | action : Fn
  | init : Fn
  | help : Fn
  deriving DecidableEq, Repr

/-- The argument given to validate and to the action: the parsed args object, or the raw
text while in a mode. -/
inductive Args where
  | parsed : Args
  | raw : JSString → Args
  deriving DecidableEq, Repr

/-- The engine events emitted on the paths modelled. -/
inductive Emitted where
  | client_command_error : Emitted
  | client_command_executed : Emitted
  | client_command_cancelled : Emitted
  | mode_exit : Emitted
  deriving DecidableEq, Repr

/-- What the engine does to the outside, in order; the number is the `id` of the request
(the validate hook is recorded with the wrapper it is called for and with what it did;
`stackLogged` is the log of the error's stack in `_commandSetCallback`). -/
inductive Output where
  | helpLogged : Nat → Output
  | logged : Nat → Val → Output
  | stackLogged : Nat → Output
  | validateCalled : Item → Args → ValidateHook → Output
  | fnCalled : Nat → Fn → Args → Output
  | callerCallback : Nat → List Val → Output
  | resolved : Nat → Val → Output
  | rejected : Nat → Val → Output
  | returned : Nat → Val → Output
  | threw : Nat → Val → Output
  | cancelCalled : Nat → Nat → Output
  | doneCalled : Nat → Nat → Output
  | promiseCancelled : Nat → Output
  | emitted : Emitted → Nat → Output
  deriving DecidableEq, Repr

/-- The request an output belongs to. -/
def Output.id : Output → Nat
  | Output.helpLogged i => i
  | Output.logged i _ => i
  | Output.stackLogged i => i
  | Output.validateCalled item _ _ => item.id
  | Output.fnCalled i _ _ => i
  | Output.callerCallback i _ => i
  | Output.resolved i _ => i
  | Output.rejected i _ => i
  | Output.returned i _ => i
  | Output.threw i _ => i
  | Output.cancelCalled i _ => i
  | Output.doneCalled i _ => i
  | Output.promiseCancelled i => i
  | Output.emitted _ i => i

/-- The engine and its session.  `response`, `res` are the closure variables of the
`execCommandSet` call of each request; `started` tells whether the action of a request was
called with a completion callback, `settled` whether its returned promise has settled. -/
structure State where
  _queue : List Item
  _command : Option Item
  _mode : Option JSString
  _delimiter : JSString
  _modeDelimiter : Option JSString
  _registeredCommands : Nat
  _completedCommands : Nat
  _commandSetCallback : Option CommandSet
  cancelCommands : Option CommandSet
  response : Nat → Response
  res : Nat → Option Bool
  started : Nat → Bool
  settled : Nat → Bool
  outputs : List Output
  nextId : Nat

/-- A freshly constructed engine. -/
def State.init (cfg : Config) : State :=
  { _queue := []
    _command := none
    _mode := none
    _delimiter := cfg.delimiter
    _modeDelimiter := none
    _registeredCommands := 0
    _completedCommands := 0
    _commandSetCallback := none
    cancelCommands := none
    response := fun _ => { error := Val.undefined, data := Val.undefined, args := none }
    res := fun _ => none
    started := fun _ => false
    settled := fun _ => false
    outputs := []
    nextId := 0 }

/-- Record an output. -/
def State.out (st : State) (o : Output) : State :=
  { st with outputs := st.outputs ++ [o] }

/-- `session.fullDelimiter()`. -/
def fullDelimiter (st : State) : JSString :=
  st._delimiter ++ (match st._modeDelimiter with
    | some d => d
    | none => [])

/-- `session._mode`, when it is truthy. -/
def activeMode (st : State) : Option JSString :=
  match st._mode with
  | some m => if m.isEmpty then none else some m
  | none => none

/-- `session.modeDelimiter(str)` for a string on the local session. -/
def modeDelimiter (str : JSString) (st : State) : State :=
  if str = ofString "false" then { st with _modeDelimiter := none }
  else { st with _modeDelimiter := some (trim str ++ [space]) }

/-- `vorpal._exitMode`: `_mode = false`, `modeDelimiter(false)`, emit `mode_exit`. -/
def _exitMode (id : Nat) (st : State) : State :=
  { st with _mode := none, _modeDelimiter := none }.out (Output.emitted Emitted.mode_exit id)

/-- The calls made by `callCancel` / `sendDones` walking the chain through `downstream`:
one per instance whose command has the hook, numbered by position in the chain. -/
def hookCalls (mk : Nat → Output) (has : CommandObject → Bool) :
    List CommandObject → Nat → List Output
  | [], _ => []
  | c :: cs, n => (if has c then [mk n] else []) ++ hookCalls mk has cs (n + 1)

/-- The completion `callback(cmd, err, msg, argus)` of `_exec` (lines 766-798); `k` is the
final `this._queueHandler()`.  The prompt is not modelled (`promptCancelled` is false). -/
def callback (cfg : Config) (k : State → State) (cmd : Item) (err msg : Val)
    (argus : Option (List Val)) (st : State) : State :=
  match cmd.style with
  | Style.sync fatal =>
    let st1 := { st with _command := none }
    if err.truthy then
      if fatal || cfg._fatal then st1.out (Output.threw cmd.id (Val.newError err))
      else st1.out (Output.returned cmd.id err)
    else st1.out (Output.returned cmd.id msg)
  | Style.callback =>
    let st1 := st.out (Output.callerCallback cmd.id
      (match argus with
        | some a => a
        | none => [err, msg]))
    k { st1 with _command := none }
  | Style.promise =>
    let st1 := if err.truthy then st.out (Output.rejected cmd.id msg)
      else st.out (Output.resolved cmd.id msg)
    k { st1 with _command := none }

/-- What `callback(cmd, err, msg, argus)` gives to the caller: the arguments of the caller's
callback, the value the promise is resolved or rejected with, or what `execSync` returns
or throws (`throw new Error(err)`, line 780). -/
def completionOutput (cfg : Config) (cmd : Item) (err msg : Val) (argus : Option (List Val)) :
    Output :=
  match cmd.style with
  | Style.sync fatal =>
    if err.truthy then
      if fatal || cfg._fatal then Output.threw cmd.id (Val.newError err)
      else Output.returned cmd.id err
    else Output.returned cmd.id msg
  | Style.callback =>
    Output.callerCallback cmd.id
      (match argus with
        | some a => a
        | none => [err, msg])
  | Style.promise =>
    if err.truthy then Output.rejected cmd.id msg else Output.resolved cmd.id msg

/-- What follows the caller's completion inside `callback`: nothing on the synchronous
path, `this._queueHandler()` otherwise. -/
def continueWith (k : State → State) (cmd : Item) : State → State :=
  match cmd.style with
  | Style.sync _ => fun st => st
  | _ => k

/-- The closure `this._commandSetCallback` of `execCommandSet` (lines 313-334). -/
def commandSetCallback (cfg : Config) (k : State → State) (cs : CommandSet) (st : State) :
    State :=
  let r := st.response cs.wrapper.id
  let st1 :=
    if r.error.truthy then
      (st.out (Output.stackLogged cs.wrapper.id)).out
        (Output.emitted Emitted.client_command_error cs.wrapper.id)
    else st.out (Output.emitted Emitted.client_command_executed cs.wrapper.id)
  let st2 := { st1 with cancelCommands := none }
  let st3 := callback cfg k cs.wrapper r.error r.data r.args st2
  { st3 with outputs :=
      (st3.outputs ++ hookCalls (Output.doneCalled cs.wrapper.id) (fun c => c._done) cs.chain 0) }

/-- `session.registerCommand()`. -/
def registerCommand (st : State) : State :=
  { st with _registeredCommands := st._registeredCommands + 1 }

/-- `session.completeCommand()` (lines 407-418). -/
def completeCommand (cfg : Config) (k : State → State) (st : State) : State :=
  let st1 := { st with _completedCommands := st._completedCommands + 1 }
  if st1._registeredCommands ≤ st1._completedCommands then
    let st2 := { st1 with _registeredCommands := 0, _completedCommands := 0 }
    let st3 :=
      match st2._commandSetCallback with
      | some cs => commandSetCallback cfg k cs st2
      | none => st2
    { st3 with _commandSetCallback := none }
  else st1

/-- The closure `onCompletion` of the `execCommandSet` call of request `id` (lines 336-343). -/
def onCompletion (cfg : Config) (k : State → State) (id : Nat) (err data : Val)
    (argus : Option (List Val)) (st : State) : State :=
  completeCommand cfg k
    { st with response :=
        (Function.update st.response id { error := err, data := data, args := argus }) }

/-- The closure `this.cancelCommands` of `execCommandSet` (lines 282-308). -/
def cancelCommandsOf (cfg : Config) (k : State → State) (cs : CommandSet) (st : State) :
    State :=
  let st1 := { st with outputs :=
    (st.outputs ++ hookCalls (Output.cancelCalled cs.wrapper.id) (fun c => c._cancel) cs.chain 0) }
  let st2 :=
    if st1.res cs.wrapper.id = some true then st1.out (Output.promiseCancelled cs.wrapper.id)
    else st1
  let st3 := { st2 with
    cancelCommands := none
    _commandSetCallback := none
    _registeredCommands := 0
    _completedCommands := 0 }
  let st4 := st3.out (Output.emitted Emitted.client_command_cancelled cs.wrapper.id)
  callback cfg k cs.wrapper Val.undefined Val.undefined none st4

/-- `session.cancelCommands()` when it is defined (otherwise nothing is cancelled). -/
def cancel (cfg : Config) (k : State → State) (st : State) : State :=
  match st.cancelCommands with
  | some cs => cancelCommandsOf cfg k cs st
  | none => st

/-- One synchronous step of the action of request `id`. -/
def runOp (cfg : Config) (k : State → State) (id : Nat) (st : State) : Op → State
  | Op.callback args =>
    onCompletion cfg k id (args.getD 0 Val.undefined) (args.getD 1 Val.undefined) (some args) st
  | Op.registerCommand => registerCommand st
  | Op.completeCommand => completeCommand cfg k st
  | Op.cancel => cancel cfg k st

/-- `res = wrapper.fn.call(commandInstance, wrapper.args, callback)` and the handling of a
returned thenable (lines 365-377). -/
def callFn (cfg : Config) (k : State → State) (id : Nat) (fn : Action) (which : Fn)
    (args : Args) (st : State) : State :=
  let st1 := { st.out (Output.fnCalled id which args) with
    started := Function.update st.started id true }
  let st2 := fn.ops.foldl (runOp cfg k id) st1
  match fn.ret with
  | Ret.promise c => { st2 with res := Function.update st2.res id (some c) }
  | Ret.value _ => st2

/-- `session.execCommandSet(wrapper, callback)`; `validate` and `fn` are `wrapper.validate`
and `wrapper.fn`. -/
def execCommandSet (cfg : Config) (k : State → State) (cs : CommandSet)
    (validate : Option ValidateHook) (fn : Action) (which : Fn) (args : Args) (st : State) :
    State :=
  let st1 := { st with
    _registeredCommands := 1
    _completedCommands := 0
    cancelCommands := some cs
    _commandSetCallback := some cs
    response :=
      (Function.update st.response cs.wrapper.id
        { error := Val.undefined, data := Val.undefined, args := none }) }
  match validate with
  | some (ValidateHook.throws e) =>
    onCompletion cfg k cs.wrapper.id e Val.undefined none
      (st1.out (Output.validateCalled cs.wrapper args (ValidateHook.throws e)))
  | some (ValidateHook.returns v) =>
    let st2 := st1.out (Output.validateCalled cs.wrapper args (ValidateHook.returns v))
    if v ≠ Val.bool true ∧ v ≠ Val.undefined then
      onCompletion cfg k cs.wrapper.id (if v.truthy then v else Val.null) Val.undefined none st2
    else callFn cfg k cs.wrapper.id fn which args st2
  | none => callFn cfg k cs.wrapper.id fn which args st1

/-- The default `init` of a mode command, `(args, cb) => { cb(); }`; without a callback
(synchronous path) the call of `cb` throws a TypeError, here the object 0. -/
def defaultInit : Action :=
  { ops := [Op.callback []], ret := Ret.value Val.undefined, sync := SyncResult.throws (Val.obj 0) }

/-- The end of `_exec` (lines 877-917) once the function to call is fixed: the synchronous
call inside `try`/`catch`, or the pipe chain and `execCommandSet`. -/
def invoke (cfg : Config) (k : State → State) (item : Item) (match_ : CommandObject)
    (pipes : List CommandObject) (validate : Option ValidateHook) (fn : Action) (which : Fn)
    (args : Args) (st : State) : State :=
  match item.style with
  | Style.sync _ =>
    let st1 := st.out (Output.fnCalled item.id which args)
    match fn.sync with
    | SyncResult.returns v => callback cfg k item Val.undefined v none st1
    | SyncResult.throws e => callback cfg k item e Val.undefined none st1
  | _ =>
    execCommandSet cfg k { wrapper := item, chain := match_ :: pipes } validate fn which args st

/-- `vorpal._exec(item)` (lines 731-923). -/
def _exec (cfg : Config) (k : State → State) (item : Item) (st : State) : State :=
  let modeCommand := item.command
  let command :=
    match activeMode st with
    | some m => m
    | none => item.command
  match cfg.parseCommand command with
  | ParseOutcome.noMatch =>
    callback cfg k item Val.undefined (Val.str (ofString "Invalid command.")) none
      (st.out (Output.helpLogged item.id))
  | ParseOutcome.argsError msg =>
    let st1 := if msg.truthy then st.out (Output.logged item.id msg) else st
    callback cfg k item Val.undefined msg none (st1.out (Output.helpLogged item.id))
  | ParseOutcome.pipeError msg =>
    let st1 := if msg.truthy then st.out (Output.logged item.id msg) else st
    callback cfg k item Val.undefined Val.undefined none (st1.out (Output.helpLogged item.id))
  | ParseOutcome.ok name match_ help pipes =>
    match help, match_._help with
    | true, none =>
      callback cfg k item Val.undefined Val.undefined none (st.out (Output.helpLogged item.id))
    | _, _ =>
      let fn : Action :=
        match help, match_._help with
        | true, some h => h
        | _, _ => match_._fn
      let which : Fn := if help then Fn.help else Fn.action
      let validate : Option ValidateHook := if help then none else match_._validate
      if match_._mode ∧ activeMode st = none then
        let delimiter : JSString :=
          match match_._delimiter with
          | some d => if d.isEmpty then name ++ [58] else d
          | none => name ++ [58]
        let st1 := modeDelimiter delimiter { st with _mode := some name }
        invoke cfg k item match_ pipes none
          (match match_._init with
            | some f => f
            | none => defaultInit)
          Fn.init Args.parsed st1
      else if (activeMode st).isSome then
        if trim modeCommand = ofString "exit" then
          callback cfg k item Val.undefined Val.undefined none (_exitMode item.id st)
        else invoke cfg k item match_ pipes validate fn which (Args.raw modeCommand) st
      else invoke cfg k item match_ pipes validate fn which Args.parsed st

/-- `vorpal._execQueueItem(cmd)` for the local session. -/
def _execQueueItem (cfg : Config) (k : State → State) (cmd : Item) (st : State) : State :=
  _exec cfg k cmd { st with _command := some cmd }

/-- `vorpal._queueHandler()`.  The number bounds the nesting of queue handlers inside
completion callbacks; each nested handler runs after an entry has left the queue, so the
length of the queue plus one is enough (theorem `queueHandler_fuel`). -/
def _queueHandler (cfg : Config) : Nat → State → State
  | 0, st => st
  | n + 1, st =>
    match st._queue, st._command with
    | item :: rest, none => _execQueueItem cfg (_queueHandler cfg n) item { st with _queue := rest }
    | _, _ => st

/-- The queue handler as the engine's functions call it in state `st`. -/
def handler (cfg : Config) (st : State) : State → State :=
  _queueHandler cfg (st._queue.length + 1)

/-- What happens to the engine from outside: `exec` with or without a callback, `execSync`,
a started action calling its completion callback, its returned promise settling, the
session's `cancelCommands()`, and direct `registerCommand()` / `completeCommand()` calls. -/
inductive Event where
  | exec : JSString → Bool → Event
  | execSync : JSString → Bool → Event
  | actionCallback : Nat → List Val → Event
  | promiseResolved : Nat → Val → Event
  | promiseRejected : Nat → Val → Event
  | cancelCommands : Event
  | registerCommand : Event
  | completeCommand : Event
  deriving DecidableEq, Repr

/-- The engine after one event. -/
def step (cfg : Config) (st : State) : Event → State
  | Event.exec cmd withCallback =>
    let item : Item :=
      { id := st.nextId
        command := cmd
        style := if withCallback then Style.callback else Style.promise }
    let st1 := { st with _queue := st._queue ++ [item], nextId := st.nextId + 1 }
    handler cfg st1 st1
  | Event.execSync cmd fatal =>
    let item : Item := { id := st.nextId, command := cmd, style := Style.sync fatal }
    _execQueueItem cfg (handler cfg st) item { st with nextId := st.nextId + 1 }
  | Event.actionCallback id args =>
    if st.started id then
      onCompletion cfg (handler cfg st) id (args.getD 0 Val.undefined)
        (args.getD 1 Val.undefined) (some args) st
    else st
  | Event.promiseResolved id data =>
    if (st.res id).isSome ∧ st.settled id = false then
      onCompletion cfg (handler cfg st) id Val.undefined data none
        { st with settled := Function.update st.settled id true }
    else st
  | Event.promiseRejected id err =>
    if (st.res id).isSome ∧ st.settled id = false then
      onCompletion cfg (handler cfg st) id (Val.bool true) err none
        { st with settled := Function.update st.settled id true }
    else st
  | Event.cancelCommands => cancel cfg (handler cfg st) st
  | Event.registerCommand => registerCommand st
  | Event.completeCommand => completeCommand cfg (handler cfg st) st

/-- The engine after a sequence of events, from the freshly constructed state. -/
def run (cfg : Config) (events : List Event) : State :=
  events.foldl (step cfg) (State.init cfg)

/-- The outputs that deliver the completion of request `id` to its caller. -/
def Output.delivers (id : Nat) : Output → Bool
  | Output.callerCallback i _ => i == id
  | Output.resolved i _ => i == id
  | Output.rejected i _ => i == id
  | Output.returned i _ => i == id
  | Output.threw i _ => i == id
  | _ => false

/-- The outputs that start an action (or init, or help function) of request `id`. -/
def Output.starts (id : Nat) : Output → Bool
  | Output.fnCalled i _ _ => i == id
  | _ => false

/-- Request `id` is active after `outs`: its action has been started and its completion has
not been delivered. -/
def active (outs : List Output) (id : Nat) : Prop :=
  (∃ o ∈ outs, o.starts id = true) ∧ ∀ o ∈ outs, o.delivers id = false

instance (outs : List Output) (id : Nat) : Decidable (active outs id) := by
  unfold active
  infer_instance

/-! ### Example commands for concrete runs -/

/-- An action that completes later: it returns without calling its callback. -/
def pendingAction : Action :=
  { ops := [], ret := Ret.value Val.undefined, sync := SyncResult.returns Val.undefined }

/-- A command with cancel and done hooks whose action completes later. -/
def slowCommand : CommandObject :=
  { _mode := false, _validate := none, _fn := pendingAction, _init := none, _help := none,
    _cancel := true, _done := true, _delimiter := none }

/-- A command whose validate hook throws the object 7. -/
def guardedCommand : CommandObject :=
  { slowCommand with _validate := some (ValidateHook.throws (Val.obj 7)) }

/-- A mode command whose validate hook throws the object 7. -/
def guardedMode : CommandObject :=
  { guardedCommand with _mode := true }

/-- A command whose action returns a promise. -/
def promiseCommand : CommandObject :=
  { slowCommand with _fn := { pendingAction with ret := Ret.promise false } }

/-- A registry with the commands `slow`, `guarded`, `repl` (a mode) and `later`; `slow | slow`
pipes one into the other; every other line resolves to nothing. -/
def exampleConfig : Config :=
  { parseCommand := fun line =>
      if line = ofString "slow" then ParseOutcome.ok (ofString "slow") slowCommand false []
      else if line = ofString "slow | slow" then
        ParseOutcome.ok (ofString "slow") slowCommand false [slowCommand]
      else if line = ofString "guarded" then
        ParseOutcome.ok (ofString "guarded") guardedCommand false []
      else if line = ofString "repl" then ParseOutcome.ok (ofString "repl") guardedMode false []
      else if line = ofString "later" then
        ParseOutcome.ok (ofString "later") promiseCommand false []
      else ParseOutcome.noMatch
    _fatal := false
    delimiter := ofString "local~$ " }

/-- The command set of the request `slow | slow` issued first with a callback. -/
def pipedSet : CommandSet :=
  { wrapper := { id := 0, command := ofString "slow | slow", style := Style.callback }
    chain := [slowCommand, slowCommand] }

/-- The engine after `exec('repl', cb)`: the session is in the mode `repl`. -/
def replState : State :=
  run exampleConfig [Event.exec (ofString "repl") true]

/-- The request `exec('exit', cb)` issued next. -/
def exitItem : Item :=
  { id := 1, command := ofString "exit", style := Style.callback }


/-- A command whose action throws the Error object 9 when the synchronous path calls it. -/
def throwingCommand : CommandObject :=
  { slowCommand with _fn := { pendingAction with sync := SyncResult.throws (Val.obj 9) } }

/-- A mode command without a validate hook. -/
def openMode : CommandObject :=
  { slowCommand with _mode := true }

/-- The message of the argument builder for a missing required argument. -/
def missingArgument : Val :=
  Val.str (ofString "\n  Missing required argument. Showing Help:")

/-- A registry with the commands `slow`, `fail` (its action throws), `short` (a required
argument, here left out) and the mode `shell`; `slow | nothing` pipes into a command that
does not resolve, `slow | short` into one whose arguments do not build; every other line
resolves to nothing. -/
def sampleConfig : Config :=
  { parseCommand := fun line =>
      if line = ofString "slow" then ParseOutcome.ok (ofString "slow") slowCommand false []
      else if line = ofString "fail" then
        ParseOutcome.ok (ofString "fail") throwingCommand false []
      else if line = ofString "shell" then ParseOutcome.ok (ofString "shell") openMode false []
      else if line = ofString "short" then ParseOutcome.argsError missingArgument
      else if line = ofString "slow | nothing" then ParseOutcome.pipeError Val.undefined
      else if line = ofString "slow | short" then ParseOutcome.pipeError missingArgument
      else ParseOutcome.noMatch
    _fatal := false
    delimiter := ofString "local~$ " }

/-- The engine after `exec('shell', cb)`: the session is in the mode `shell`. -/
def shellState : State :=
  run sampleConfig [Event.exec (ofString "shell") true]

/-- A request with the given text and style, issued second. -/
def secondItem (text : String) (style : Style) : Item :=
  { id := 1, command := ofString text, style := style }

/-! ### Properties of engine states and of continuations -/

/-- The continuation only appends outputs. -/
def Grows (k : State → State) : Prop :=
  ∀ (st : State) (outs : List Output), outs <+: st.outputs → outs <+: (k st).outputs

/-- The counter invariant: `_completedCommands <= _registeredCommands`. -/
def CountOk (st : State) : Prop :=
  st._completedCommands ≤ st._registeredCommands

/-- The continuation keeps the counter invariant. -/
def KeepsCount (k : State → State) : Prop :=
  ∀ st : State, CountOk st → CountOk (k st)


/-! ### Hygiene of the request ids -/

/-- The ids of the requests waiting in the queue. -/
def queuedIds (q : List Item) : List Nat :=
  q.map (fun it => it.id)

/-- No output delivers the completion of request `id`. -/
def undelivered (outs : List Output) (id : Nat) : Prop :=
  ∀ o ∈ outs, o.delivers id = false

/-- Outputs that neither deliver a completion, nor start a function, nor record a validate
hook that throws. -/
def Output.neutral : Output → Bool
  | Output.helpLogged _ => true
  | Output.logged _ _ => true
  | Output.stackLogged _ => true
  | Output.validateCalled _ _ (ValidateHook.returns _) => true
  | Output.validateCalled _ _ (ValidateHook.throws _) => false
  | Output.fnCalled _ _ _ => false
  | Output.callerCallback _ _ => false
  | Output.resolved _ _ => false
  | Output.rejected _ _ => false
  | Output.returned _ _ => false
  | Output.threw _ _ => false
  | Output.cancelCalled _ _ => true
  | Output.doneCalled _ _ => true
  | Output.promiseCancelled _ => true
  | Output.emitted _ _ => true

/-- Hygiene of queue `q`, id counter `n` and outputs `outs`: queued requests have distinct
ids below the counter and no output yet; every output belongs to an issued request; no
request is delivered twice; and a request whose validate hook threw `e` has been completed
with `e` and none of its functions was called. -/
structure Hyg (cfg : Config) (q : List Item) (n : Nat) (outs : List Output) : Prop where
  nodup : (queuedIds q).Nodup
  qlt : ∀ j ∈ queuedIds q, j < n
  qfresh : ∀ o ∈ outs, o.id ∉ queuedIds q
  olt : ∀ o ∈ outs, o.id < n
  once : ∀ i, (outs.filter (Output.delivers i)).length ≤ 1
  vt : ∀ item a e, Output.validateCalled item a (ValidateHook.throws e) ∈ outs →
    completionOutput cfg item e Val.undefined none ∈ outs ∧
      ∀ w b, Output.fnCalled item.id w b ∉ outs

/-- A closure slot (`cancelCommands`, `_commandSetCallback`) holds only a command set whose
request has been issued, has left the queue and has not been delivered. -/
def Held (q : List Item) (n : Nat) (outs : List Output) (c : Option CommandSet) : Prop :=
  ∀ cs, c = some cs →
    cs.wrapper.id < n ∧ cs.wrapper.id ∉ queuedIds q ∧ undelivered outs cs.wrapper.id

/-- Hygiene of a state, with the `cancelCommands` slot. -/
def HygW (cfg : Config) (st : State) : Prop :=
  Hyg cfg st._queue st.nextId st.outputs ∧
    Held st._queue st.nextId st.outputs st.cancelCommands

/-- The `_commandSetCallback` slot holds no delivered request. -/
def Ready (st : State) : Prop :=
  Held st._queue st.nextId st.outputs st._commandSetCallback

/-- What every engine function leaves alone: the id counter, and the queue except for
requests leaving it. -/
def Frame (st r : State) : Prop :=
  r.nextId = st.nextId ∧ ∀ j ∈ queuedIds r._queue, j ∈ queuedIds st._queue

/-- The request `item` is about to be executed: issued, out of the queue, without output,
and not in the `cancelCommands` slot. -/
def FreshIn (item : Item) (st : State) : Prop :=
  item.id < st.nextId ∧ item.id ∉ queuedIds st._queue ∧ (∀ o ∈ st.outputs, o.id ≠ item.id) ∧
    ∀ cs, st.cancelCommands = some cs → cs.wrapper.id ≠ item.id

/-- The `_commandSetCallback` slot does not hold request `id`. -/
def NotCsc (id : Nat) (st : State) : Prop :=
  ∀ cs, st._commandSetCallback = some cs → cs.wrapper.id ≠ id

/-- The continuation keeps the hygiene. -/
def KeepsHyg (cfg : Config) (k : State → State) : Prop :=
  ∀ st : State, HygW cfg st → HygW cfg (k st) ∧ Frame st (k st) ∧ (Ready st → Ready (k st))

/-- State `r` differs from `st` only in fields that the hygiene does not read. -/
def Same (st r : State) : Prop :=
  r._queue = st._queue ∧ r.nextId = st.nextId ∧ r.cancelCommands = st.cancelCommands ∧
    r._commandSetCallback = st._commandSetCallback ∧ r.outputs = st.outputs ∧
    r._command = st._command

/-- The state in which the queue handler runs after the validate hook of the command set
`cs` threw `e`: the completion has been delivered and `_commandSetCallback` is still set. -/
def validateThrowState (cfg : Config) (cs : CommandSet) (e : Val) (args : Args) (st : State) :
    State :=
  { st with
    _registeredCommands := 0
    _completedCommands := 0
    _commandSetCallback := some cs
    cancelCommands := none
    response :=
      (Function.update
        (Function.update st.response cs.wrapper.id
          { error := Val.undefined, data := Val.undefined, args := none })
        cs.wrapper.id { error := e, data := Val.undefined, args := none })
    _command := none
    outputs :=
      (st.outputs ++ [Output.validateCalled cs.wrapper args (ValidateHook.throws e)] ++
        (if e.truthy then [Output.stackLogged cs.wrapper.id,
            Output.emitted Emitted.client_command_error cs.wrapper.id]
          else [Output.emitted Emitted.client_command_executed cs.wrapper.id]) ++
        [completionOutput cfg cs.wrapper e Val.undefined none]) }


/-! ### One active request at a time -/

/-- Whether the event is a call of `execSync`. -/
def Event.isExecSync : Event → Bool
  | Event.execSync _ _ => true
  | _ => false

/-- Request `i` has been issued (ids number the requests in the order of issue) and was
issued before every request waiting in the queue. -/
def Below (q : List Item) (n : Nat) (i : Nat) : Prop :=
  i < n ∧ ∀ j ∈ queuedIds q, i < j

/-- The outputs are serialized: whenever a function of a request is called, no request is
active, and every function called before belongs to a request issued earlier. -/
def Serial (outs : List Output) : Prop :=
  ∀ pre j w a, pre ++ [Output.fnCalled j w a] <+: outs →
    (∀ i, ¬ active pre i) ∧ ∀ o ∈ pre, ∀ i, o.starts i = true → i < j

/-- The activity invariant of queue `q`, id counter `n`, outputs `outs` and `_command` slot
`cmd`: the queue is in the order of issue; outputs and the current command belong to
requests issued before the queued ones; an active request is the current command; and the
outputs are serialized. -/
structure Act (q : List Item) (n : Nat) (outs : List Output) (cmd : Option Item) : Prop where
  sorted : (queuedIds q).Pairwise (fun a b => a < b)
  qlt : ∀ j ∈ queuedIds q, j < n
  below : ∀ o ∈ outs, Below q n o.id
  cur : ∀ it, cmd = some it → Below q n it.id
  act : ∀ i, active outs i → ∃ it, cmd = some it ∧ it.id = i
  serial : Serial outs

/-- A closure slot holds only the command set of the current command. -/
def HeldA (cmd : Option Item) (c : Option CommandSet) : Prop :=
  ∀ cs, c = some cs → cmd = some cs.wrapper

/-- The activity invariant of a state, with the `cancelCommands` slot. -/
def ActW (st : State) : Prop :=
  Act st._queue st.nextId st.outputs st._command ∧ HeldA st._command st.cancelCommands

/-- The `_commandSetCallback` slot holds only the command set of the current command. -/
def ActS (st : State) : Prop :=
  HeldA st._command st._commandSetCallback

/-- The continuation keeps the activity invariant. -/
def KeepsAct (k : State → State) : Prop :=
  ∀ st : State, ActW st → ActW (k st) ∧ Frame st (k st) ∧ (ActS st → ActS (k st))


/-- The continuation does not lengthen the queue. -/
def Shrinks (k : State → State) : Prop :=
  ∀ (st : State) (L : Nat), st._queue.length ≤ L → (k st)._queue.length ≤ L

/-- Two continuations agree on the states whose queue has at most `L` entries. -/
def AgreeOn (L : Nat) (k1 k2 : State → State) : Prop :=
  ∀ st : State, st._queue.length ≤ L → k1 st = k2 st


/-! ### Argument slots of a name template -/

/-- The specs `_parseExpectedArgs` pushes on `this._args` for the tokens `args`, before the
sort: one per token whose name is not empty. -/
def declaredSpecs (args : List JSString) : List ArgSpec :=
  (args.map argDetails).filter (fun a => !a.name.isEmpty)

/-- The position of a slot in the order the comparator of `_parseExpectedArgs` describes:
required before optional, and with equal requiredness non-variadic before variadic. -/
def argRank (a : ArgSpec) : Nat :=
  (if a.required then 0 else 2) + (if a.variadic then 1 else 0)

/-- The specification's reordering of declared specs: the required non-variadic slots, the
required variadic ones, the optional non-variadic ones, the optional variadic ones, each
group in the order of declaration (a stable reordering). -/
def stableOrder (specs : List ArgSpec) : List ArgSpec :=
  specs.filter (fun a => a.required && !a.variadic) ++
    specs.filter (fun a => a.required && a.variadic) ++
    specs.filter (fun a => !a.required && !a.variadic) ++
    specs.filter (fun a => !a.required && a.variadic)

/-- A token of a name template: `<text>` when required, `[text]` otherwise. -/
structure Slot where
  required : Bool
  text : JSString
  deriving DecidableEq, Repr

/-- The characters of the token: `'<'` is 60, `'>'` 62, `'['` 91, `']'` 93. -/
def Slot.token (s : Slot) : JSString :=
  if s.required then [60] ++ s.text ++ [62] else [91] ++ s.text ++ [93]

/-- The character that closes the token. -/
def Slot.close (s : Slot) : Nat :=
  if s.required then 62 else 93

/-- Whether the text of the token is longer than `...` and ends in `...` (46 is `'.'`). -/
def Slot.isVariadic (s : Slot) : Bool :=
  decide (s.text.length > 3) && (s.text.drop (s.text.length - 3) == [46, 46, 46])

/-- The spec the specification assigns to a token: its text as the name, without the
trailing `...` of a variadic token. -/
def Slot.spec (s : Slot) : ArgSpec :=
  { required := s.required
    name := if s.isVariadic then s.text.take (s.text.length - 3) else s.text
    variadic := s.isVariadic }

/-- A name template: the literal part followed by tokens, each with the text that follows
it up to the next token. -/
def template (literal : JSString) (slots : List (Slot × JSString)) : JSString :=
  literal ++ (slots.map (fun p => p.1.token ++ p.2)).flatten

/-- No `'<'` and no `'['` occurs in the text. -/
def noOpening (s : JSString) : Prop :=
  60 ∉ s ∧ 91 ∉ s

instance (s : JSString) : Decidable (noOpening s) := by
  unfold noOpening
  infer_instance


/-! ### Example for the validate hook -/

/-- A command whose validate hook returns `false` without throwing. -/
def checkedCommand : CommandObject :=
  { slowCommand with _validate := some (ValidateHook.returns (Val.bool false)) }

/-- A registry with the command `checked` only. -/
def checkedConfig : Config :=
  { parseCommand := fun line =>
      if line = ofString "checked" then ParseOutcome.ok (ofString "checked") checkedCommand false []
      else ParseOutcome.noMatch
    _fatal := false
    delimiter := ofString "local~$ " }

/-! ## Tab handling (lib/autocomplete.js `handleTabCounts`, `getMatch`, `getSuffix`,
`getMatchObject`; lib/session.js `getKeypressResult`) -/

/-- `handleTabCounts.call(session, str, freezeTabs)` (lines 129-141): the new `_tabCtr` and
the result.  `str` is what `autocomplete.exec` hands to `end`: an array, a string or
`undefined`. -/
def handleTabCounts (tabCtr : Nat) (str : MatchResult) (freezeTabs : Bool) :
    Nat × MatchResult :=
  match str with
  | MatchResult.list l =>
    let ctr := tabCtr + 1
    (ctr,
      if ctr > 1 then (if l.length = 0 then MatchResult.undefined else MatchResult.list l)
      else MatchResult.undefined)
  | _ => ((if freezeTabs then tabCtr + 1 else 0), str)

/-- The closure `end` of `autocomplete.exec` (lines 28-31), `cb(undefined, res)` with `res`
the result of `handleTabCounts`: the new `_tabCtr` and the arguments given to `cb`. -/
def execEnd (tabCtr : Nat) (str : MatchResult) (freezeTabs : Bool) :
    Nat × List MatchResult :=
  let r := handleTabCounts tabCtr str freezeTabs
  (r.1, [MatchResult.undefined, r.2])

/-- A key press as `getKeypressResult` sees it; a tab carries what `autocomplete.exec`
computes for it on the current line, the value handed to `end` and the `freezeTabs` flag
(set when the completed context ends in `'/'`). -/
inductive Key where
  | up : Key
  | down : Key
  | tab : MatchResult → Bool → Key
  | other : Key
  deriving DecidableEq, Repr

/-- What a key press gives: the arguments with which `autocomplete.exec` calls its callback
(none when it is not called), and what the promise of `getKeypressResult` resolves with
(none for the history keys, whose result is not modelled). -/
structure KeyResult where
  callbackArgs : Option (List MatchResult)
  resolved : Option MatchResult
  deriving DecidableEq, Repr

/-- `session.getAutocomplete(str)` (lines 213-217): the resolver of a new promise is handed
to `autocomplete.exec` as its callback; a resolver takes its first argument only, so the
promise resolves with the first of the arguments of the callback. -/
def getAutocomplete (tabCtr : Nat) (str : MatchResult) (freezeTabs : Bool) :
    Nat × KeyResult :=
  let r := execEnd tabCtr str freezeTabs
  (r.1, { callbackArgs := some r.2, resolved := some (r.2.headD MatchResult.undefined) })

/-- `session.getKeypressResult(key, value)` (lines 184-198): the new `_tabCtr` and the
result; a key other than `up`, `down` and `tab` resolves with `undefined`. -/
def getKeypressResult (tabCtr : Nat) : Key → Nat × KeyResult
  | Key.tab str freezeTabs => getAutocomplete tabCtr str freezeTabs
  | Key.other => (0, { callbackArgs := none, resolved := some MatchResult.undefined })
  | _ => (0, { callbackArgs := none, resolved := none })

/-- A sequence of key presses: the final `_tabCtr` and the results in order. -/
def pressKeys (tabCtr : Nat) : List Key → Nat × List KeyResult
  | [] => (tabCtr, [])
  | key :: keys =>
    let r := getKeypressResult tabCtr key
    let rest := pressKeys r.1 keys
    (rest.1, r.2 :: rest.2)

/-- `getMatch(ctx, data, options)` (lines 153-170); `ignoreSlashes` is
`options.ignoreSlashes === true`. -/
def getMatch (strip : JSString → JSString) (ctx : JSString) (data : List JSString)
    (ignoreSlashes : Bool) : MatchResult :=
  let len := ctx.length
  let trimmed := ctx.dropWhile isWhiteSpace
  let prefix_ : JSString := List.replicate ((len - trimmed.length) + 1) space
  match autocomplete.match_ strip trimmed data ignoreSlashes with
  | MatchResult.list l => MatchResult.list l
  | MatchResult.str m => if m.isEmpty then MatchResult.undefined else MatchResult.str (prefix_ ++ m)
  | MatchResult.undefined => MatchResult.undefined

/-- The code units that `.` does not match in a regular expression: the line terminators. -/
def isLineTerminator (c : Nat) : Bool :=
  c == 10 || c == 13 || c == 8232 || c == 8233

/-- The length of the match of `/.+?(?=\s)/` at the start of the string, if there is one:
the least number of code units, at least one and none of them a line terminator, that is
followed by a white space character. -/
def lazyMatchLength : JSString → Option Nat
  | [] => none
  | [_] => none
  | c :: d :: rest =>
    if isLineTerminator c then none
    else if isWhiteSpace d then some 1
    else (lazyMatchLength (d :: rest)).map (fun n => n + 1)

/-- `suffix.replace(/.+?(?=\s)/, '')`: the leftmost match is removed. -/
def removeFirstWord : JSString → JSString
  | [] => []
  | c :: cs =>
    match lazyMatchLength (c :: cs) with
    | some n => (c :: cs).drop n
    | none => c :: removeFirstWord cs

/-- `getSuffix(suffix)` (lines 285-290). -/
def getSuffix (suffix : JSString) : JSString :=
  let s := if suffix.take 1 = [space] then suffix else removeFirstWord suffix
  s.drop 1

/-- A JavaScript exception. -/
inductive JSError where
  | typeError : String → JSError
  deriving DecidableEq, Repr

/-- `str[name](count)` for a method name written in lib/autocomplete.js:
`String.prototype.repeat` exists; a string has no property of any other name used there,
and calling `undefined` throws a TypeError. -/
def callStringMethod (name : String) (str : JSString) (count : Nat) :
    Except JSError JSString :=
  if name = "repeat" then Except.ok (List.replicate count str).flatten
  else Except.error (JSError.typeError (name ++ " is not a function"))

/-- The `input` object of `autocomplete.exec`, with the `match` that `getMatchObject`
sets (`context` may be assigned `undefined`). -/
structure TabInput where
  raw : JSString
  prefix_ : JSString
  suffix : JSString
  context : Option JSString
  matched : Option Command
  deriving DecidableEq, Repr

/-- The state of the `commands.forEach` loop of `getMatchObject`: `match`, `suffix` and
`prefix`. -/
structure MatchLoop where
  matched : Option JSString
  suffix : Option JSString
  prefix_ : JSString
  deriving DecidableEq, Repr

/-- The body of the `commands.forEach` loop (lines 326-333). -/
def matchLoopStep (trimmed : JSString) (acc : MatchLoop) (cmd : JSString) : MatchLoop :=
  let nextChar := (trimmed.drop cmd.length).take 1
  if trimmed.take cmd.length = cmd ∧ trim cmd ≠ [] ∧ nextChar = [space] then
    { matched := some cmd
      suffix := some (trimmed.drop cmd.length)
      prefix_ := acc.prefix_ ++ trimmed.take cmd.length }
  else acc

/-- `getMatchObject.call(session, input, commands)` (lines 321-367); `commands` are the
names and aliases, `registry` is `this.parent.commands`.  Reading `length` of an undefined
context throws as well. -/
def getMatchObject (input : TabInput) (commands : List JSString) (registry : List Command) :
    Except JSError TabInput :=
  match input.context with
  | none => Except.error (JSError.typeError "Cannot read properties of undefined")
  | some ctx =>
    let len := ctx.length
    let trimmed := ctx.filter (fun c => !isWhiteSpace c)
    match callStringMethod "repeaet" [space] ((len - trimmed.length) + 1) with
    | Except.error e => Except.error e
    | Except.ok prefix0 =>
      let loop := commands.foldl (matchLoopStep trimmed)
        { matched := none, suffix := none, prefix_ := prefix0 }
      let key : JSString :=
        match loop.matched with
        | some m => trim m
        | none => ofString "undefined"
      let byName : Option Command :=
        match loop.matched with
        | some _ => registry.find? (fun c => c._name == key)
        | none => none
      let byAlias : Option Command :=
        match byName with
        | some c => some c
        | none => (registry.filter (fun c => c._aliases.contains key)).getLast?
      let byCatch : Option (Command × Option JSString × JSString) :=
        match byAlias with
        | some c => some (c, loop.suffix, loop.prefix_)
        | none =>
          (registry.find? (fun c => c._catch)).map (fun c => (c, some ctx, loop.prefix_))
      match byCatch with
      | some (c, suffix, prefix_) =>
        Except.ok { input with
          matched := some c
          prefix_ := input.prefix_ ++ prefix_
          context := suffix }
      | none => Except.ok input

/-- `parseInput(str, idx)` (lines 234-249): the line is cut at the cursor, the left part is
split on `'|'` (124) into the prefix and the context, the right part gives the suffix. -/
def parseInput (str : JSString) (idx : Nat) : TabInput :=
  let sliced := str.take idx
  let sections := split 124 sliced
  { raw := str
    prefix_ := join 124 (sections.dropLast ++ [[]])
    suffix := getSuffix (str.drop idx)
    context := some (sections.getLast?.getD [])
    matched := none }

/-- The names and aliases of the registry, `getCommandNames(cmds)` (lines 300-305). -/
def getCommandNames (cmds : List Command) : List JSString :=
  jsSort (cmds.map (fun c => c._name) ++ (cmds.map (fun c => c._aliases)).flatten)

/-- What `autocomplete.exec` (lines 22-59) does with a line whose context no top-level match
completes: the call `getMatchObject.call(this, input, commands)` of line 44, whose exception
ends `exec`. -/
def resolveContext (registry : List Command) (str : JSString) (cursor : Nat) :
    Except JSError TabInput :=
  getMatchObject (parseInput str cursor) (getCommandNames registry) registry

/-! ## Pipe splitting of the command-line parser -/

/-- The quote characters `'`, `"` and the backtick. -/
def isQuote (c : Nat) : Bool :=
  c == 39 || c == 34 || c == 96

/-- Modelled from the spec: the pipe splitting of the command-line parser
(`util.parseCommand` of lib/util.js, which is not among the sources at hand).  Section 4.2,
step 1: split the line on `|` (124), treating a run enclosed in a matching pair of quote
characters as atomic; the surrounding quotes are stripped and the inner content is kept
verbatim, pipes and quotes of another kind included.  The first argument is the quote
that is open, the second the segment read so far. -/
def splitPipesFrom : Option Nat → JSString → JSString → List JSString
  | _, acc, [] => [acc]
  | some q, acc, c :: cs =>
    if c = q then splitPipesFrom none acc cs
    else splitPipesFrom (some q) (acc ++ [c]) cs
  | none, acc, c :: cs =>
    if c = 124 then acc :: splitPipesFrom none [] cs
    else if isQuote c = true ∧ c ∈ cs then splitPipesFrom (some c) acc cs
    else splitPipesFrom none (acc ++ [c]) cs

/-- Modelled from the spec: the segments of a raw line (section 4.2, step 1; the parser
itself, lib/util.js, is not among the sources at hand). -/
def splitPipes (line : JSString) : List JSString :=
  splitPipesFrom none [] line

/-- A piece of a raw line, as the pipe splitting of section 4.2 reads the line: a code unit
outside quotes that is no pipe, a pipe outside quotes, or a quoted run, the quote character
and the text between its two occurrences. -/
inductive Piece where
  | char : Nat → Piece
  | pipe : Piece
  | quoted : Nat → JSString → Piece
  deriving DecidableEq, Repr

/-- The text of a piece in the raw line. -/
def Piece.render : Piece → JSString
  | Piece.char c => [c]
  | Piece.pipe => [124]
  | Piece.quoted q inner => q :: (inner ++ [q])

/-- The raw line made of the pieces. -/
def render (ps : List Piece) : JSString :=
  (ps.map Piece.render).flatten

/-- What a piece contributes to its stage: a code unit itself, a quoted run its inner text
without the quotes, a pipe nothing. -/
def Piece.content : Piece → JSString
  | Piece.char c => [c]
  | Piece.pipe => []
  | Piece.quoted _ inner => inner

/-- The stages of a line read as pieces: a new stage starts at every pipe piece, and a stage
is the contents of its pieces in order.  The first argument is the stage read so far. -/
def stagesFrom (acc : JSString) : List Piece → List JSString
  | [] => [acc]
  | Piece.pipe :: ps => acc :: stagesFrom [] ps
  | Piece.char c :: ps => stagesFrom (acc ++ [c]) ps
  | Piece.quoted _ inner :: ps => stagesFrom (acc ++ inner) ps

/-- The stages of a line read as pieces. -/
def stages (ps : List Piece) : List JSString :=
  stagesFrom [] ps

/-- The reading into pieces is the one of section 4.2: a code unit piece is no pipe, and if
it is a quote character it is unmatched, that is, it does not occur in the rest of the line;
a quoted run starts with a quote character and ends at its next occurrence. -/
def wellFormed : List Piece → Bool
  | [] => true
  | Piece.char c :: ps =>
    (c != 124) && (!isQuote c || !(render ps).contains c) && wellFormed ps
  | Piece.pipe :: ps => wellFormed ps
  | Piece.quoted q inner :: ps => isQuote q && !inner.contains q && wellFormed ps

/-- The line `say "a|b" | reverse` read as pieces. -/
def sayReverse : List Piece :=
  (ofString "say ").map Piece.char ++ [Piece.quoted 34 (ofString "a|b"), Piece.char space,
    Piece.pipe] ++ (ofString " reverse").map Piece.char
/-! ## Facts about the sort order -/

theorem strLe_nil (b : JSString) : strLe [] b = true := by
  cases b <;> rfl

theorem strLe_refl (a : JSString) : strLe a a = true := by
  induction a with
  | nil => rfl
  | cons x xs ih => simp [strLe, ih]

theorem strLe_total (a b : JSString) : strLe a b = true ∨ strLe b a = true := by
  induction a generalizing b with
  | nil => exact Or.inl (strLe_nil b)
  | cons x xs ih =>
    cases b with
    | nil => exact Or.inr rfl
    | cons y ys =>
      simp only [strLe]
      rcases Nat.lt_trichotomy x y with h | h | h
      · left; simp [h]
      · subst h; simpa using ih ys
      · right; simp [h]

theorem strLe_trans {a b c : JSString} (hab : strLe a b = true) (hbc : strLe b c = true) :
    strLe a c = true := by
  induction a generalizing b c with
  | nil => exact strLe_nil c
  | cons x xs ih =>
    cases b with
    | nil => simp [strLe] at hab
    | cons y ys =>
      cases c with
      | nil => simp [strLe] at hbc
      | cons z zs =>
        simp only [strLe] at hab hbc ⊢
        by_cases hxy : x < y
        · by_cases hyz : y < z
          · have : x < z := by omega
            simp [this]
          · by_cases hzy : z < y
            · simp [hyz, hzy] at hbc
            · have : x < z := by omega
              simp [this]
        · by_cases hyx : y < x
          · simp [hxy, hyx] at hab
          · simp only [hxy, hyx, if_false] at hab
            have hxe : x = y := by omega
            subst hxe
            by_cases hxz : x < z
            · simp [hxz]
            · by_cases hzx : z < x
              · simp [hxz, hzx] at hbc
              · simp only [hxz, hzx, if_false] at hbc ⊢
                exact ih hab hbc

instance strLe_isTotal : IsTotal JSString (fun a b => strLe a b = true) :=
  ⟨strLe_total⟩

instance strLe_isTrans : IsTrans JSString (fun a b => strLe a b = true) :=
  ⟨fun _ _ _ h1 h2 => strLe_trans h1 h2⟩

/-- A prefix of `m` that sorts at or after `m` is `m` itself. -/
theorem eq_of_prefix_of_strLe {c m : JSString} (hpre : c <+: m) (hle : strLe m c = true) :
    c = m := by
  induction m generalizing c with
  | nil => exact List.prefix_nil.mp hpre
  | cons a as ih =>
    cases c with
    | nil => simp [strLe] at hle
    | cons b bs =>
      obtain ⟨hab, hbs⟩ := List.cons_prefix_cons.mp hpre
      subst hab
      simp only [strLe, lt_self_iff_false, if_false] at hle
      rw [ih hbs hle]

theorem jsSort_sorted (arr : List JSString) :
    (jsSort arr).Sorted (fun a b => strLe a b = true) :=
  List.sorted_insertionSort _ arr

theorem jsSort_perm (arr : List JSString) : (jsSort arr).Perm arr :=
  List.perm_insertionSort _ arr

/-! ## The reducer computes the longest common leading substring of sorted matches -/

theorem find?_range_succ (f : Nat → Bool) (n : Nat) :
    (List.range (n + 1)).find? f =
      if f 0 then some 0 else ((List.range n).find? (fun i => f (i + 1))).map (· + 1) := by
  rw [List.range_succ_eq_map, List.find?_cons]
  by_cases h : f 0
  · simp [h]
  · simp only [h, Bool.false_eq_true, if_false]
    rw [List.find?_map]
    rfl

namespace autocomplete

theorem reducer_nil_left (b : JSString) : reducer [] b = [] := by
  unfold reducer
  have : (List.range b.length).find?
      (fun i => (([] : JSString)[i]?).isSome && (b[i]? != ([] : JSString)[i]?)) = none := by
    rw [List.find?_eq_none]
    intro x _
    simp
  rw [this]

theorem reducer_nil_right (a : JSString) : reducer a [] = a := by
  simp [reducer]

theorem reducer_cons_cons (p : Nat) (ps : JSString) (c : Nat) (cs : JSString) :
    reducer (p :: ps) (c :: cs) = if c = p then p :: reducer ps cs else [] := by
  unfold reducer
  rw [List.length_cons, find?_range_succ]
  by_cases h : c = p
  · subst h
    simp only [List.getElem?_cons_zero, Option.isSome_some, bne_self_eq_false, Bool.and_false,
      Bool.false_eq_true, if_false, List.getElem?_cons_succ, if_true]
    cases (List.range cs.length).find? (fun i => (ps[i]?).isSome && (cs[i]? != ps[i]?)) with
    | none => rfl
    | some i => rfl
  · have hne : (some c != some p) = true := by simpa using h
    simp [h, hne]

theorem reducer_prefix_left (a b : JSString) : reducer a b <+: a := by
  induction a generalizing b with
  | nil => rw [reducer_nil_left]
  | cons p ps ih =>
    cases b with
    | nil => rw [reducer_nil_right]
    | cons c cs =>
      rw [reducer_cons_cons]
      by_cases h : c = p
      · simp only [h, if_true]
        exact List.cons_prefix_cons.mpr ⟨rfl, ih cs⟩
      · simp only [h, if_false]
        exact List.nil_prefix

theorem reducer_prefix_right {a b : JSString} (h : b <+: a → b = a) : reducer a b <+: b := by
  induction a generalizing b with
  | nil => rw [reducer_nil_left]; exact List.nil_prefix
  | cons p ps ih =>
    cases b with
    | nil => exact absurd (h List.nil_prefix) (by simp)
    | cons c cs =>
      rw [reducer_cons_cons]
      by_cases hc : c = p
      · subst hc
        simp only [if_true]
        refine List.cons_prefix_cons.mpr ⟨rfl, ih ?_⟩
        intro hpre
        have := h (List.cons_prefix_cons.mpr ⟨rfl, hpre⟩)
        exact (List.cons.inj this).2
      · simp only [hc, if_false]
        exact List.nil_prefix

theorem prefix_reducer {x a b : JSString} (ha : x <+: a) (hb : x <+: b) :
    x <+: reducer a b := by
  induction a generalizing x b with
  | nil => rw [reducer_nil_left]; exact ha
  | cons p ps ih =>
    cases b with
    | nil => rw [reducer_nil_right]; exact ha
    | cons c cs =>
      rw [reducer_cons_cons]
      cases x with
      | nil => exact List.nil_prefix
      | cons y ys =>
        obtain ⟨hyp, hys⟩ := List.cons_prefix_cons.mp ha
        obtain ⟨hyc, hys2⟩ := List.cons_prefix_cons.mp hb
        have hcp : c = p := by rw [← hyc, hyp]
        simp only [hcp, if_true]
        exact List.cons_prefix_cons.mpr ⟨hyp, ih hys hys2⟩

/-- Folding the reducer over elements that all sort at or after `m`, starting from a prefix of
`m`, yields a common prefix of the accumulator and of every folded element, and every
common prefix of those is a prefix of the result. -/
theorem foldl_reducer_spec (m : JSString) (rest : List JSString) (acc : JSString)
    (hacc : acc <+: m) (hle : ∀ c ∈ rest, strLe m c = true) :
    (rest.foldl reducer acc <+: acc ∧ ∀ c ∈ rest, rest.foldl reducer acc <+: c) ∧
      ∀ x : JSString, x <+: acc → (∀ c ∈ rest, x <+: c) → x <+: rest.foldl reducer acc := by
  induction rest generalizing acc with
  | nil =>
    refine ⟨⟨List.prefix_refl _, ?_⟩, ?_⟩
    · intro c hc; cases hc
    · intro x hx _; exact hx
  | cons c cs ih =>
    have hstep_left : reducer acc c <+: acc := reducer_prefix_left acc c
    have hstep_right : reducer acc c <+: c := by
      apply reducer_prefix_right
      intro hpre
      have hcm : c = m :=
        eq_of_prefix_of_strLe (hpre.trans hacc) (hle c (List.mem_cons_self _ _))
      subst hcm
      exact List.Sublist.antisymm hpre.sublist hacc.sublist
    obtain ⟨⟨h1, h2⟩, h3⟩ := ih (reducer acc c) (hstep_left.trans hacc)
      (fun d hd => hle d (List.mem_cons_of_mem _ hd))
    rw [List.foldl_cons]
    refine ⟨⟨h1.trans hstep_left, ?_⟩, ?_⟩
    · intro d hd
      rcases List.mem_cons.mp hd with rfl | hd
      · exact h1.trans hstep_right
      · exact h2 d hd
    · intro x hx hall
      apply h3 x
      · exact prefix_reducer hx (hall c (List.mem_cons_self _ _))
      · intro d hd; exact hall d (List.mem_cons_of_mem _ hd)

/-- On a sorted list the reduction is the longest common prefix of the list: a prefix of every
element, and every common prefix is a prefix of it. -/
theorem reduce_sorted_spec (ms : List JSString) (hne : ms ≠ [])
    (hs : ms.Sorted (fun a b => strLe a b = true)) :
    (∀ c ∈ ms, reduce ms <+: c) ∧ ∀ x : JSString, (∀ c ∈ ms, x <+: c) → x <+: reduce ms := by
  cases ms with
  | nil => exact absurd rfl hne
  | cons m rest =>
    have hle : ∀ c ∈ rest, strLe m c = true := (List.sorted_cons.mp hs).1
    obtain ⟨⟨h1, h2⟩, h3⟩ := foldl_reducer_spec m rest m (List.prefix_refl _) hle
    refine ⟨?_, ?_⟩
    · intro c hc
      rcases List.mem_cons.mp hc with rfl | hc
      · exact h1
      · exact h2 c hc
    · intro x hx
      exact h3 x (hx m (List.mem_cons_self _ _))
        (fun c hc => hx c (List.mem_cons_of_mem _ hc))

end autocomplete

/-! ## `split`, `join` and the held-out path prefix -/

theorem split_ne_nil (sep : Nat) (s : JSString) : split sep s ≠ [] := by
  cases s with
  | nil => simp [split]
  | cons c cs =>
    simp only [split]
    split_ifs
    · simp
    · split <;> simp

theorem split_of_not_mem (sep : Nat) (s : JSString) (h : sep ∉ s) : split sep s = [s] := by
  induction s with
  | nil => rfl
  | cons c cs ih =>
    have hc : c ≠ sep := fun e => h (e ▸ List.mem_cons_self _ _)
    have hcs : sep ∉ cs := fun e => h (List.mem_cons_of_mem _ e)
    simp [split, hc, ih hcs]

theorem split_append_sep (sep : Nat) (q t : JSString) :
    split sep (q ++ sep :: t) = split sep q ++ split sep t := by
  induction q with
  | nil => simp [split]
  | cons c cs ih =>
    by_cases hc : c = sep
    · simp [split, hc, ih]
    · have e1 : ∀ u : JSString, split sep (c :: u) =
          match split sep u with
          | [] => [[c]]
          | p :: ps => (c :: p) :: ps := by
        intro u
        simp [split, hc]
      rw [List.cons_append, e1, e1, ih]
      cases hq : split sep cs with
      | nil => exact absurd hq (split_ne_nil sep cs)
      | cons x xs => rfl

theorem join_cons_cons (sep c : Nat) (x : JSString) (xs : List JSString) :
    join sep ((c :: x) :: xs) = c :: join sep (x :: xs) := by
  cases xs <;> simp [join]

theorem join_split (sep : Nat) (q : JSString) : join sep (split sep q) = q := by
  induction q with
  | nil => rfl
  | cons c cs ih =>
    cases hq : split sep cs with
    | nil => exact absurd hq (split_ne_nil sep cs)
    | cons x xs =>
      rw [hq] at ih
      by_cases hc : c = sep
      · simp [split, hc, hq, join, ih]
      · simp only [split, hc, if_false, hq]
        rw [join_cons_cons, ih]

namespace autocomplete

/-- The held-out prefix is everything up to and including the last `'/'`, and the search
string is the rest. -/
theorem holdOutPrefix_eq {p s' : JSString} (hp : p = [] ∨ ∃ q, p = q ++ [slash])
    (hs' : slash ∉ s') : holdOutPrefix (p ++ s') = (p, s') := by
  rcases hp with rfl | ⟨q, rfl⟩
  · simp [holdOutPrefix, split_of_not_mem slash s' hs', join]
  · have hsplit : split slash (q ++ [slash] ++ s') = split slash q ++ [s'] := by
      rw [List.append_assoc, List.singleton_append, split_append_sep,
        split_of_not_mem slash s' hs']
    have hlen : 0 < (split slash q).length :=
      List.length_pos.mpr (split_ne_nil slash q)
    simp only [holdOutPrefix, hsplit, List.getLast?_concat, Option.getD_some,
      List.dropLast_concat, join_split, gt_iff_lt, hlen, if_true]

end autocomplete

theorem sliceFrom_last_beq (x : JSString) (c : Nat) :
    (sliceFrom x ((x.length : Int) - 1) == [c]) = decide (x.getLast? = some c) := by
  cases x using List.reverseRecOn with
  | nil => simp [sliceFrom]
  | append_singleton ys y =>
    have hk : (if ((ys ++ [y]).length : Int) - 1 < 0
        then max (((ys ++ [y]).length : Int) + (((ys ++ [y]).length : Int) - 1)) 0
        else min (((ys ++ [y]).length : Int) - 1) ((ys ++ [y]).length : Int)) = (ys.length : Int) := by
      simp only [List.length_append, List.length_singleton, Nat.cast_add, Nat.cast_one]
      have : ¬ ((ys.length : Int) + 1 - 1 < 0) := by omega
      rw [if_neg this]
      omega
    simp only [sliceFrom, hk, Int.toNat_ofNat, List.drop_left, List.getLast?_concat]
    by_cases h : y = c <;> simp [h]

theorem take_beq_eq_decide_prefix (x s : JSString) :
    (x.take s.length == s) = decide (s <+: x) := by
  by_cases h : s <+: x
  · have := List.prefix_iff_eq_take.mp h
    simp [h, ← this]
  · have hne : ¬ (x.take s.length = s) := by
      intro e
      exact h (List.prefix_iff_eq_take.mpr e.symm)
    simp [h, hne]

/-! ## `autocomplete.match`: the four outcomes -/

namespace autocomplete

/-- Every search string decomposes into a path prefix ending in its last `'/'` (or empty) and
a slash-free rest. -/
theorem exists_holdOut (s : JSString) :
    ∃ p s' : JSString, s = p ++ s' ∧ (p = [] ∨ ∃ q, p = q ++ [slash]) ∧ slash ∉ s' := by
  induction s using List.reverseRecOn with
  | nil => exact ⟨[], [], rfl, Or.inl rfl, by simp⟩
  | append_singleton t c ih =>
    by_cases hc : c = slash
    · exact ⟨t ++ [slash], [], by simp [hc], Or.inr ⟨t, rfl⟩, by simp⟩
    · obtain ⟨p, s', hs, hp, hs'⟩ := ih
      refine ⟨p, s' ++ [c], by rw [hs, List.append_assoc], hp, ?_⟩
      intro hmem
      rcases List.mem_append.mp hmem with h | h
      · exact hs' h
      · exact hc (List.mem_singleton.mp h).symm

/-- The body of `match_` after the prefix has been held out, with the selection test read as
"the search string is a prefix of the stripped candidate". -/
theorem match_eq (strip : JSString → JSString) (p s' : JSString) (C : List JSString)
    (hp : p = [] ∨ ∃ q, p = q ++ [slash]) (hs' : slash ∉ s') :
    match_ strip (p ++ s') C false =
      match (jsSort C).filter (fun x => decide (s' <+: strip x)) with
      | [] => MatchResult.undefined
      | [m] =>
        MatchResult.str (p ++ m ++ if (strip m).getLast? = some slash then [] else [space])
      | m :: m2 :: rest =>
        if s' = [] then MatchResult.list (m :: m2 :: rest)
        else if (reduce (m :: m2 :: rest)).length = s'.length then
          MatchResult.list (m :: m2 :: rest)
        else MatchResult.str (p ++ m.take (reduce (m :: m2 :: rest)).length) := by
  unfold match_
  simp only [Bool.false_eq_true, if_false, holdOutPrefix_eq hp hs', take_beq_eq_decide_prefix,
    sliceFrom_last_beq]
  generalize (jsSort C).filter (fun x => decide (s' <+: strip x)) = ms
  rcases ms with _ | ⟨m, _ | ⟨m2, rest⟩⟩
  · rfl
  · simp
  · simp [List.length_eq_zero]

theorem selected_perm (strip : JSString → JSString) (s' : JSString) (C : List JSString) :
    ((jsSort C).filter (fun x => decide (s' <+: strip x))).Perm
      (C.filter (fun x => decide (s' <+: strip x))) :=
  (jsSort_perm C).filter _

theorem selected_sorted (strip : JSString → JSString) (s' : JSString) (C : List JSString) :
    ((jsSort C).filter (fun x => decide (s' <+: strip x))).Sorted
      (fun a b => strLe a b = true) :=
  (jsSort_sorted C).filter _

theorem mem_selected (strip : JSString → JSString) (s' : JSString) (C : List JSString)
    (c : JSString) :
    c ∈ (jsSort C).filter (fun x => decide (s' <+: strip x)) ↔ c ∈ C ∧ s' <+: strip c := by
  rw [List.mem_filter, (jsSort_perm C).mem_iff]
  simp

/-- When at least two candidates are selected and the search string is not empty, the result
is decided by the length of the longest common prefix `L` of the selected candidates. -/
theorem match_of_common_prefix (strip : JSString → JSString) (p s' L : JSString)
    (C : List JSString) (hp : p = [] ∨ ∃ q, p = q ++ [slash]) (hs' : slash ∉ s')
    (hne : s' ≠ [])
    (htwo : 2 ≤ C.countP (fun c => decide (s' <+: strip c)))
    (hL : ∀ c ∈ C, s' <+: strip c → L <+: c)
    (hLmax : ∀ x : JSString, (∀ c ∈ C, s' <+: strip c → x <+: c) → x.length ≤ L.length) :
    match_ strip (p ++ s') C false =
      if L.length = s'.length then
        MatchResult.list ((jsSort C).filter (fun x => decide (s' <+: strip x)))
      else MatchResult.str (p ++ L) := by
  rw [match_eq strip p s' C hp hs']
  have hperm := selected_perm strip s' C
  have hsorted := selected_sorted strip s' C
  have hmem := mem_selected strip s' C
  have hlen : 2 ≤ ((jsSort C).filter (fun x => decide (s' <+: strip x))).length := by
    rw [hperm.length_eq, ← List.countP_eq_length_filter]
    exact htwo
  generalize (jsSort C).filter (fun x => decide (s' <+: strip x)) = ms at *
  rcases ms with _ | ⟨m, _ | ⟨m2, rest⟩⟩
  · simp at hlen
  · simp at hlen
  · obtain ⟨hR, hRmax⟩ := reduce_sorted_spec (m :: m2 :: rest) (by simp) hsorted
    have hLR : L <+: reduce (m :: m2 :: rest) :=
      hRmax L (fun c hc => hL c ((hmem c).mp hc).1 ((hmem c).mp hc).2)
    have hRL : (reduce (m :: m2 :: rest)).length ≤ L.length :=
      hLmax _ (fun c hc hpre => hR c ((hmem c).mpr ⟨hc, hpre⟩))
    have hEq : L = reduce (m :: m2 :: rest) := hLR.eq_of_length_le hRL
    have hLm : L <+: m := hEq ▸ hR m (List.mem_cons_self _ _)
    simp only [hne, if_false, ← hEq]
    by_cases hlen2 : L.length = s'.length
    · simp [hlen2]
    · simp only [hlen2, if_false]
      rw [← List.prefix_iff_eq_take.mp hLm]

end autocomplete

/-! ## Claims about `autocomplete.match` -/

theorem common_prefix_length_le {x a b : JSString} {n : Nat} (ha : x <+: a) (hb : x <+: b)
    (hne : a.take (n + 1) ≠ b.take (n + 1)) : x.length ≤ n := by
  by_contra hlt
  have hn : n + 1 ≤ x.length := by omega
  have e1 : a.take (n + 1) = x.take (n + 1) := by
    rw [List.prefix_iff_eq_take.mp ha, List.take_take, Nat.min_eq_left hn]
  have e2 : b.take (n + 1) = x.take (n + 1) := by
    rw [List.prefix_iff_eq_take.mp hb, List.take_take, Nat.min_eq_left hn]
  exact hne (e1.trans e2.symm)

/-- C1: for ANSI-free candidates, with `p` the part of `s` up to and including its last `'/'`
and `s'` the rest: when `s'` is non-empty, at least two candidates start with `s'` and their
longest common prefix `L` is strictly longer than `s'`, `autocomplete.match(s, C)` returns the
string `p ++ L`. -/
theorem match_extends_to_common_prefix (strip : JSString → JSString) (s p s' L : JSString)
    (C : List JSString) (hstrip : ∀ c ∈ C, strip c = c)
    (hs : s = p ++ s') (hp : p = [] ∨ ∃ q, p = q ++ [slash]) (hs' : slash ∉ s')
    (hne : s' ≠ [])
    (htwo : 2 ≤ C.countP (fun c => decide (s' <+: c)))
    (hL : ∀ c ∈ C, s' <+: c → L <+: c)
    (hLmax : ∀ x : JSString, (∀ c ∈ C, s' <+: c → x <+: c) → x.length ≤ L.length)
    (hlt : s'.length < L.length) :
    autocomplete.match_ strip s C false = MatchResult.str (p ++ L) := by
  subst hs
  have hcount : C.countP (fun c => decide (s' <+: strip c)) =
      C.countP (fun c => decide (s' <+: c)) :=
    List.countP_congr (fun c hc => by rw [hstrip c hc])
  rw [autocomplete.match_of_common_prefix strip p s' L C hp hs' hne (hcount ▸ htwo)
    (fun c hc h => hL c hc (hstrip c hc ▸ h))
    (fun x hx => hLmax x (fun c hc h => hx c hc ((hstrip c hc).symm ▸ h)))]
  rw [if_neg (by omega)]

/-- Witness for C1: `'a/c'` over `[cmd, cme, def]` gives `'a/cm'`. -/
theorem match_extends_to_common_prefix_witness :
    autocomplete.match_ id (ofString "a/c") [ofString "cmd", ofString "cme", ofString "def"]
      false = MatchResult.str (ofString "a/cm") :=
  match_extends_to_common_prefix id (ofString "a/c") (ofString "a/") (ofString "c")
    (ofString "cm") [ofString "cmd", ofString "cme", ofString "def"]
    (fun _ _ => rfl) (by decide) (Or.inr ⟨ofString "a", by decide⟩) (by decide) (by decide)
    (by decide) (by decide)
    (fun x hx => common_prefix_length_le (n := 2)
      (hx (ofString "cmd") (by decide) (by decide))
      (hx (ofString "cme") (by decide) (by decide)) (by decide))
    (by decide)

/-- C2: for ANSI-free candidates of which exactly one, `c`, starts with `s'` (the search
string after the path prefix `p` is held out), `autocomplete.match(s, C)` returns
`p ++ c ++ ' '`, or `p ++ c` without the space when `c` ends in `'/'`. -/
theorem match_single_candidate (strip : JSString → JSString) (s p s' c : JSString)
    (C : List JSString) (hstrip : ∀ x ∈ C, strip x = x)
    (hs : s = p ++ s') (hp : p = [] ∨ ∃ q, p = q ++ [slash]) (hs' : slash ∉ s')
    (hone : C.filter (fun x => decide (s' <+: x)) = [c]) :
    autocomplete.match_ strip s C false =
      MatchResult.str (if c.getLast? = some slash then p ++ c else p ++ c ++ [space]) := by
  subst hs
  rw [autocomplete.match_eq strip p s' C hp hs']
  have hfilter : C.filter (fun x => decide (s' <+: strip x)) =
      C.filter (fun x => decide (s' <+: x)) :=
    List.filter_congr (fun x hx => by rw [hstrip x hx])
  have hperm := autocomplete.selected_perm strip s' C
  rw [hfilter, hone, List.perm_singleton] at hperm
  have hc : c ∈ C := by
    have : c ∈ C.filter (fun x => decide (s' <+: x)) := by rw [hone]; exact List.mem_singleton_self c
    exact (List.mem_filter.mp this).1
  rw [hperm]
  simp only [hstrip c hc]
  by_cases hlast : c.getLast? = some slash <;> simp [hlast]

/-- Witness for C2: `'d'` over `[def, xyz]` gives `'def '`. -/
theorem match_single_candidate_witness :
    autocomplete.match_ id (ofString "d") [ofString "def", ofString "xyz"] false =
      MatchResult.str
        (if (ofString "def").getLast? = some slash then [] ++ ofString "def"
          else [] ++ ofString "def" ++ [space]) :=
  match_single_candidate id (ofString "d") [] (ofString "d") (ofString "def")
    [ofString "def", ofString "xyz"] (fun _ _ => rfl) (by decide) (Or.inl rfl) (by decide)
    (by decide)

/-- C3: when the search string `s'` (after the path prefix is held out) is non-empty, at least
two candidates start with it (the code tests the display-stripped candidate, which is the
candidate itself when it carries no ANSI codes) and the longest common prefix `L` of those
candidates has the length of `s'`, `autocomplete.match(s, C)` returns a list holding exactly
the candidates of `C` that start with `s'`, in ascending sorted order. -/
theorem match_lists_matches_without_extension (strip : JSString → JSString)
    (s p s' L : JSString) (C : List JSString)
    (hs : s = p ++ s') (hp : p = [] ∨ ∃ q, p = q ++ [slash]) (hs' : slash ∉ s')
    (hne : s' ≠ [])
    (htwo : 2 ≤ C.countP (fun c => decide (s' <+: strip c)))
    (hL : ∀ c ∈ C, s' <+: strip c → L <+: c)
    (hLmax : ∀ x : JSString, (∀ c ∈ C, s' <+: strip c → x <+: c) → x.length ≤ L.length)
    (hlen : L.length = s'.length) :
    ∃ M : List JSString, autocomplete.match_ strip s C false = MatchResult.list M ∧
      M.Perm (C.filter (fun c => decide (s' <+: strip c))) ∧
      M.Sorted (fun a b => strLe a b = true) := by
  subst hs
  refine ⟨(jsSort C).filter (fun x => decide (s' <+: strip x)), ?_,
    autocomplete.selected_perm strip s' C, autocomplete.selected_sorted strip s' C⟩
  rw [autocomplete.match_of_common_prefix strip p s' L C hp hs' hne htwo hL hLmax, if_pos hlen]

/-- Witness for C3: `'c'` over `[cmd, ced]` gives the list `[ced, cmd]`. -/
theorem match_lists_matches_without_extension_witness :
    ∃ M : List JSString,
      autocomplete.match_ id (ofString "c") [ofString "cmd", ofString "ced"] false =
        MatchResult.list M ∧
      M.Perm ([ofString "cmd", ofString "ced"].filter
        (fun c => decide (ofString "c" <+: id c))) ∧
      M.Sorted (fun a b => strLe a b = true) :=
  match_lists_matches_without_extension id (ofString "c") [] (ofString "c") (ofString "c")
    [ofString "cmd", ofString "ced"] (by decide) (Or.inl rfl) (by decide) (by decide)
    (by decide) (by decide)
    (fun x hx => common_prefix_length_le (n := 1)
      (hx (ofString "cmd") (by decide) (by decide))
      (hx (ofString "ced") (by decide) (by decide)) (by decide))
    (by decide)

/-- C4: with `s'` the search string after the path prefix is held out, `autocomplete.match`
returns `undefined` if and only if no candidate (display-stripped) starts with `s'`, and it
never returns an empty list. -/
theorem match_undefined_iff_no_candidate (strip : JSString → JSString) (s p s' : JSString)
    (C : List JSString)
    (hs : s = p ++ s') (hp : p = [] ∨ ∃ q, p = q ++ [slash]) (hs' : slash ∉ s') :
    (autocomplete.match_ strip s C false = MatchResult.undefined ↔
        ∀ c ∈ C, ¬ s' <+: strip c) ∧
      autocomplete.match_ strip s C false ≠ MatchResult.list [] := by
  subst hs
  rw [autocomplete.match_eq strip p s' C hp hs']
  have hmem := autocomplete.mem_selected strip s' C
  generalize (jsSort C).filter (fun x => decide (s' <+: strip x)) = ms at *
  rcases ms with _ | ⟨m, _ | ⟨m2, rest⟩⟩
  · refine ⟨⟨fun _ c hc hpre => ?_, fun _ => rfl⟩, by simp⟩
    have := (hmem c).mpr ⟨hc, hpre⟩
    simp at this
  · refine ⟨⟨fun h => by simp at h, fun h => ?_⟩, by simp⟩
    have hm := (hmem m).mp (List.mem_singleton_self m)
    exact absurd hm.2 (h m hm.1)
  · have hm := (hmem m).mp (List.mem_cons_self _ _)
    dsimp only
    refine ⟨⟨fun h => ?_, fun h => absurd hm.2 (h m hm.1)⟩, ?_⟩
    · split_ifs at h
    · split_ifs <;> simp

/-- Witness for C4: `'cmd'` over `[def, xyz]` gives `undefined`. -/
theorem match_undefined_iff_no_candidate_witness :
    (autocomplete.match_ id (ofString "cmd") [ofString "def", ofString "xyz"] false =
        MatchResult.undefined ↔
        ∀ c ∈ [ofString "def", ofString "xyz"], ¬ ofString "cmd" <+: id c) ∧
      autocomplete.match_ id (ofString "cmd") [ofString "def", ofString "xyz"] false ≠
        MatchResult.list [] :=
  match_undefined_iff_no_candidate id (ofString "cmd") [] (ofString "cmd")
    [ofString "def", ofString "xyz"] (by decide) (Or.inl rfl) (by decide)

/-- C5 as stated fails: with an empty search string and a single candidate the result is
the completed string `'foo/bob '`, not a list. -/
theorem match_empty_search_single_candidate_is_string :
    autocomplete.match_ id (ofString "foo/") [ofString "bob"] false =
        MatchResult.str (ofString "foo/bob ") ∧
      ¬ ∃ M : List JSString,
        autocomplete.match_ id (ofString "foo/") [ofString "bob"] false =
          MatchResult.list M := by
  have h : autocomplete.match_ id (ofString "foo/") [ofString "bob"] false =
      MatchResult.str (ofString "foo/bob ") := by decide
  refine ⟨h, ?_⟩
  rintro ⟨M, hM⟩
  rw [h] at hM
  cases hM

/-- C5 (amended): when the search string is empty after the path prefix is held out and
there are at least two candidates, `autocomplete.match` returns all of `C` as a list in
ascending sorted order. -/
theorem match_empty_search_lists_all (strip : JSString → JSString) (s : JSString)
    (C : List JSString) (hs : s = [] ∨ ∃ q, s = q ++ [slash]) (hC : 2 ≤ C.length) :
    ∃ M : List JSString, autocomplete.match_ strip s C false = MatchResult.list M ∧
      M.Perm C ∧ M.Sorted (fun a b => strLe a b = true) := by
  refine ⟨jsSort C, ?_, jsSort_perm C, jsSort_sorted C⟩
  have h := autocomplete.match_eq strip s [] C hs (by simp)
  rw [List.append_nil] at h
  rw [h]
  have hall : (jsSort C).filter (fun x => decide (([] : JSString) <+: strip x)) = jsSort C := by
    simp
  rw [hall]
  have hlen : 2 ≤ (jsSort C).length := by rw [(jsSort_perm C).length_eq]; exact hC
  generalize jsSort C = ms at *
  rcases ms with _ | ⟨m, _ | ⟨m2, rest⟩⟩
  · simp at hlen
  · simp at hlen
  · simp

/-- Witness for C5 (amended): `'foo/'` over four candidates lists all four, sorted. -/
theorem match_empty_search_lists_all_witness :
    ∃ M : List JSString,
      autocomplete.match_ id (ofString "foo/")
        [ofString "dally", ofString "definitive", ofString "definitop", ofString "bob"]
        false = MatchResult.list M ∧
      M.Perm [ofString "dally", ofString "definitive", ofString "definitop", ofString "bob"] ∧
      M.Sorted (fun a b => strLe a b = true) :=
  match_empty_search_lists_all id (ofString "foo/")
    [ofString "dally", ofString "definitive", ofString "definitop", ofString "bob"]
    (Or.inr ⟨ofString "foo", by decide⟩) (by decide)

/-! ## Claims about the command registry -/

theorem replaceFirst_names (cmd : Command) (cs r : List Command)
    (h : replaceFirst cmd cs = some r) :
    r.map (fun c => c._name) = cs.map (fun c => c._name) := by
  induction cs generalizing r with
  | nil => simp [replaceFirst] at h
  | cons c cs ih =>
    simp only [replaceFirst] at h
    by_cases hc : c._name = cmd._name
    · simp only [hc, if_true, Option.some.injEq] at h
      subst h
      simp [hc]
    · simp only [hc, if_false, Option.map_eq_some'] at h
      obtain ⟨r', hr', rfl⟩ := h
      simp [ih r' hr']

theorem replaceFirst_none (cmd : Command) (cs : List Command)
    (h : replaceFirst cmd cs = none) : cmd._name ∉ cs.map (fun c => c._name) := by
  induction cs with
  | nil => simp
  | cons c cs ih =>
    simp only [replaceFirst] at h
    by_cases hc : c._name = cmd._name
    · simp [hc] at h
    · simp only [hc, if_false, Option.map_eq_none'] at h
      simp only [List.map_cons, List.mem_cons, not_or]
      exact ⟨fun e => hc e.symm, ih h⟩

/-- When the entry at index `i` is the first with the new command's name, the registration
loop overwrites exactly that entry, and a lookup by that name finds the new command. -/
theorem replaceFirst_first (cmd : Command) (cs : List Command) (i : Nat) (old : Command)
    (hi : cs[i]? = some old) (hname : old._name = cmd._name)
    (hfirst : ∀ j c, j < i → cs[j]? = some c → c._name ≠ cmd._name) :
    replaceFirst cmd cs = some (cs.set i cmd) ∧
      (cs.set i cmd).find? (fun c => c._name == cmd._name) = some cmd := by
  induction cs generalizing i with
  | nil => simp at hi
  | cons c cs ih =>
    cases i with
    | zero =>
      simp only [List.getElem?_cons_zero, Option.some.injEq] at hi
      subst hi
      simp [replaceFirst, hname]
    | succ n =>
      have hc : c._name ≠ cmd._name := hfirst 0 c (Nat.succ_pos n) (by simp)
      simp only [List.getElem?_cons_succ] at hi
      obtain ⟨h1, h2⟩ := ih n hi (fun j d hj hd => hfirst (j + 1) d (by omega) (by simpa using hd))
      refine ⟨?_, ?_⟩
      · simp [replaceFirst, hc, h1]
      · simp only [List.set_cons_succ, List.find?_cons]
        have : (c._name == cmd._name) = false := by simpa using hc
        rw [this]
        exact h2

theorem command_names_nodup (commands : List Command) (name : JSString) (opts : CommandOpts)
    (h : (commands.map (fun c => c._name)).Nodup) :
    ((command commands name opts).map (fun c => c._name)).Nodup := by
  unfold command
  cases hr : replaceFirst (newCommand name opts) commands with
  | some r => simpa [replaceFirst_names _ _ _ hr] using h
  | none =>
    have hnot := replaceFirst_none _ _ hr
    simp only [List.map_append, List.map_cons, List.map_nil]
    rw [List.nodup_append]
    refine ⟨h, List.nodup_singleton _, ?_⟩
    intro a ha hb
    rw [List.mem_singleton] at hb
    subst hb
    exact hnot ha

theorem remove_names_nodup (commands : List Command) (name : JSString)
    (h : (commands.map (fun c => c._name)).Nodup) :
    ((remove commands name).map (fun c => c._name)).Nodup := by
  unfold remove
  exact (List.filter_sublist commands).map _ |>.nodup h

theorem applyOp_names_nodup (commands : List Command) (op : RegistryOp)
    (h : (commands.map (fun c => c._name)).Nodup) :
    ((applyOp commands op).map (fun c => c._name)).Nodup := by
  cases op with
  | command name opts => exact command_names_nodup commands name opts h
  | mode name opts => exact command_names_nodup commands name _ h
  | catch_ name opts => exact command_names_nodup commands name _ h
  | remove name => exact remove_names_nodup commands name h

theorem foldl_applyOp_names_nodup (ops : List RegistryOp) (commands : List Command)
    (h : (commands.map (fun c => c._name)).Nodup) :
    ((ops.foldl applyOp commands).map (fun c => c._name)).Nodup := by
  induction ops generalizing commands with
  | nil => exact h
  | cons op ops ih => exact ih _ (applyOp_names_nodup commands op h)

/-- C17: when the literal name of the template is the `_name` of the command registered at
index `i` (names in a registry being unique), `command(template)` puts the new command at
index `i`, keeps the length of the list and every other entry, and a later `find` of that
name returns the new command. -/
theorem command_overwrites_in_place (commands : List Command) (template : JSString)
    (opts : CommandOpts) (i : Nat) (old : Command)
    (hnodup : (commands.map (fun c => c._name)).Nodup)
    (hi : commands[i]? = some old) (hname : old._name = commandName template) :
    (command commands template opts).length = commands.length ∧
      (command commands template opts)[i]? = some (newCommand template opts) ∧
      (∀ j, j ≠ i → (command commands template opts)[j]? = commands[j]?) ∧
      find (command commands template opts) (commandName template) =
        some (newCommand template opts) := by
  have hlt : i < commands.length := by
    by_contra hge
    rw [List.getElem?_eq_none (by omega)] at hi
    cases hi
  have hfirst : ∀ j c, j < i → commands[j]? = some c →
      c._name ≠ (newCommand template opts)._name := by
    intro j c hj hc heq
    have hjlt : j < commands.length := by omega
    have e1 : (commands.map (fun c => c._name))[j]? = some (commandName template) := by
      rw [List.getElem?_map, hc]; exact congrArg some heq
    have e2 : (commands.map (fun c => c._name))[i]? = some (commandName template) := by
      rw [List.getElem?_map, hi]; exact congrArg some hname
    have hji : j = i := by
      have hj' : j < (commands.map (fun c => c._name)).length := by simpa using hjlt
      have hi' : i < (commands.map (fun c => c._name)).length := by simpa using hlt
      rw [List.getElem?_eq_getElem hj'] at e1
      rw [List.getElem?_eq_getElem hi'] at e2
      have heq' : (commands.map (fun c => c._name))[j] = (commands.map (fun c => c._name))[i] :=
        (Option.some.inj e1).trans (Option.some.inj e2).symm
      exact (List.Nodup.getElem_inj_iff hnodup).mp heq'
    omega
  obtain ⟨h1, h2⟩ := replaceFirst_first (newCommand template opts) commands i old hi hname hfirst
  have hcmd : command commands template opts = commands.set i (newCommand template opts) := by
    unfold command
    rw [h1]
  rw [hcmd]
  refine ⟨List.length_set _ _ _, List.getElem?_set_self hlt, ?_, h2⟩
  intro j hj
  exact List.getElem?_set_ne (Ne.symm hj)

/-- Witness for C17: registering `exit <code>` on the fresh registry overwrites entry 1. -/
theorem command_overwrites_in_place_witness :
    (command initialCommands (ofString "exit <code>") noOpts).length = initialCommands.length ∧
      (command initialCommands (ofString "exit <code>") noOpts)[1]? =
        some (newCommand (ofString "exit <code>") noOpts) ∧
      (∀ j, j ≠ 1 →
        (command initialCommands (ofString "exit <code>") noOpts)[j]? = initialCommands[j]?) ∧
      find (command initialCommands (ofString "exit <code>") noOpts)
          (commandName (ofString "exit <code>")) =
        some (newCommand (ofString "exit <code>") noOpts) :=
  command_overwrites_in_place initialCommands (ofString "exit <code>") noOpts 1
    { _name := ofString "exit", _args := [], _aliases := [ofString "quit"], _mode := false,
      _catch := false, _noHelp := false }
    (by decide) (by decide) (by decide)

/-- C18: after every sequence of `command`, `mode`, `catch`/`default` and `remove` calls on
a freshly constructed engine, no two entries of the command list have the same `_name`. -/
theorem registry_names_unique (ops : List RegistryOp) :
    ((applyOps ops).map (fun c => c._name)).Nodup :=
  foldl_applyOp_names_nodup ops initialCommands (by decide)

theorem flatMap_modify_push_perm (a : JSString) (cs : List Command) (i : Nat)
    (hi : i < cs.length) :
    ((cs.modify (fun c => { c with _aliases := c._aliases ++ [a] }) i).flatMap
        (fun c => c._aliases)).Perm
      (a :: cs.flatMap (fun c => c._aliases)) := by
  induction cs generalizing i with
  | nil => simp at hi
  | cons c cs ih =>
    cases i with
    | zero =>
      simp only [List.modify_zero_cons, List.flatMap_cons, List.append_assoc,
        List.singleton_append]
      exact List.perm_middle
    | succ n =>
      simp only [List.length_cons, Nat.add_lt_add_iff_right] at hi
      simp only [List.modify_succ_cons, List.flatMap_cons]
      exact ((ih n hi).append_left c._aliases).trans List.perm_middle

theorem aliasOne_eq_none_iff (commands : List Command) (i : Nat) (a : JSString) :
    aliasOne commands i a = none ↔ ∃ c ∈ commands, a ∈ c._aliases := by
  unfold aliasOne
  constructor
  · intro h
    split_ifs at h with hany
    rw [List.any_eq_true] at hany
    obtain ⟨c, hc, hcond⟩ := hany
    simp only [Bool.and_eq_true, List.contains, List.elem_eq_mem, decide_eq_true_eq] at hcond
    exact ⟨c, hc, hcond.2⟩
  · rintro ⟨c, hc, hmem⟩
    have hany : commands.any (fun c => !c._aliases.isEmpty && c._aliases.contains a) = true := by
      rw [List.any_eq_true]
      refine ⟨c, hc, ?_⟩
      simp only [Bool.and_eq_true, List.contains, List.elem_eq_mem, decide_eq_true_eq]
      refine ⟨?_, hmem⟩
      cases hal : c._aliases with
      | nil => rw [hal] at hmem; cases hmem
      | cons x xs => rfl
    rw [if_pos hany]

/-- C19: for the command registered at index `i` and every string `a`, `cmd.alias(a)` throws
if and only if `a` is in the alias list of some command of the registry; when it does not
throw, `a` is appended to the alias list of `cmd` (and to no other), and aliases that were
mutually unique across the registry stay so. -/
theorem alias_throws_iff_duplicate (commands : List Command) (i : Nat) (cmd : Command)
    (a : JSString) (hi : commands[i]? = some cmd) :
    ((alias_ commands i [AliasArg.str a]).2 = true ↔ ∃ c ∈ commands, a ∈ c._aliases) ∧
      ((alias_ commands i [AliasArg.str a]).2 = false →
        (alias_ commands i [AliasArg.str a]).1[i]? =
            some { cmd with _aliases := cmd._aliases ++ [a] } ∧
          (∀ j, j ≠ i → (alias_ commands i [AliasArg.str a]).1[j]? = commands[j]?) ∧
          ((commands.flatMap (fun c => c._aliases)).Nodup →
            ((alias_ commands i [AliasArg.str a]).1.flatMap (fun c => c._aliases)).Nodup)) := by
  have hlt : i < commands.length := by
    by_contra hge
    rw [List.getElem?_eq_none (by omega)] at hi
    cases hi
  cases hone : aliasOne commands i a with
  | none =>
    have hex := (aliasOne_eq_none_iff commands i a).mp hone
    simp [alias_, hone, hex]
  | some cs =>
    have hnex : ¬ ∃ c ∈ commands, a ∈ c._aliases := by
      intro hex
      rw [(aliasOne_eq_none_iff commands i a).mpr hex] at hone
      cases hone
    have hcs : cs = commands.modify (fun c => { c with _aliases := c._aliases ++ [a] }) i := by
      unfold aliasOne at hone
      split_ifs at hone
      exact (Option.some.inj hone).symm
    have hres : alias_ commands i [AliasArg.str a] = (cs, false) := by
      simp [alias_, hone]
    rw [hres]
    refine ⟨by simpa using hnex, fun _ => ⟨?_, ?_, ?_⟩⟩
    · simp only [hcs]
      rw [List.getElem?_modify_eq, hi]
      rfl
    · intro j hj
      simp only [hcs]
      exact List.getElem?_modify_ne _ _ (Ne.symm hj)
    · intro hnodup
      simp only [hcs]
      rw [(flatMap_modify_push_perm a commands i hlt).nodup_iff, List.nodup_cons]
      refine ⟨?_, hnodup⟩
      intro hmem
      rw [List.mem_flatMap] at hmem
      exact hnex hmem

/-- Witness for C19: on the fresh registry `help.alias('quit')` throws, `quit` being an
alias of `exit`. -/
theorem alias_throws_iff_duplicate_witness :
    ((alias_ initialCommands 0 [AliasArg.str (ofString "quit")]).2 = true ↔
        ∃ c ∈ initialCommands, ofString "quit" ∈ c._aliases) ∧
      ((alias_ initialCommands 0 [AliasArg.str (ofString "quit")]).2 = false →
        (alias_ initialCommands 0 [AliasArg.str (ofString "quit")]).1[0]? =
            some { (newCommand (ofString "help [command...]") noOpts) with
              _aliases := (newCommand (ofString "help [command...]") noOpts)._aliases ++
                [ofString "quit"] } ∧
          (∀ j, j ≠ 0 →
            (alias_ initialCommands 0 [AliasArg.str (ofString "quit")]).1[j]? =
              initialCommands[j]?) ∧
          ((initialCommands.flatMap (fun c => c._aliases)).Nodup →
            ((alias_ initialCommands 0 [AliasArg.str (ofString "quit")]).1.flatMap
              (fun c => c._aliases)).Nodup)) :=
  alias_throws_iff_duplicate initialCommands 0
    (newCommand (ofString "help [command...]") noOpts) (ofString "quit") (by decide)

/-- C20 fails on the code: `help.alias(['a'], 'b')` on the fresh registry does not throw,
pushes `a`, and returns from inside the array branch, so `b` is not an alias afterwards. -/
theorem alias_array_first_drops_later_arguments :
    (alias_ initialCommands 0
        [AliasArg.arr [ofString "a"], AliasArg.str (ofString "b")]).2 = false ∧
      ((alias_ initialCommands 0
        [AliasArg.arr [ofString "a"], AliasArg.str (ofString "b")]).1.map
          (fun c => c._aliases)) = [[ofString "a"], [ofString "quit"]] := by
  decide

/-! ## The execution engine: single requests -/

/-- The completion callback records one output, clears `_command`, and (except on the
synchronous path) hands over to the queue handler. -/
theorem callback_eq (cfg : Config) (k : State → State) (cmd : Item) (err msg : Val)
    (argus : Option (List Val)) (st : State) :
    callback cfg k cmd err msg argus st =
      continueWith k cmd { st with
        _command := none
        outputs := st.outputs ++ [completionOutput cfg cmd err msg argus] } := by
  unfold callback continueWith completionOutput
  cases cmd.style with
  | sync fatal =>
    simp only [State.out]
    split_ifs <;> rfl
  | callback => rfl
  | promise =>
    simp only [State.out]
    split_ifs <;> rfl

theorem completionOutput_id (cfg : Config) (cmd : Item) (err msg : Val)
    (argus : Option (List Val)) : (completionOutput cfg cmd err msg argus).id = cmd.id := by
  unfold completionOutput
  cases cmd.style <;> simp only [] <;> first | rfl | (split_ifs <;> rfl)

theorem completionOutput_delivers (cfg : Config) (cmd : Item) (err msg : Val)
    (argus : Option (List Val)) (i : Nat) :
    (completionOutput cfg cmd err msg argus).delivers i = (cmd.id == i) := by
  unfold completionOutput
  cases cmd.style <;> simp only [] <;> first | rfl | (split_ifs <;> rfl)

theorem completionOutput_starts (cfg : Config) (cmd : Item) (err msg : Val)
    (argus : Option (List Val)) (i : Nat) :
    (completionOutput cfg cmd err msg argus).starts i = false := by
  unfold completionOutput
  cases cmd.style <;> simp only [] <;> first | rfl | (split_ifs <;> rfl)

theorem hookCalls_eq (mk : Nat → Output) (has : CommandObject → Bool)
    (chain : List CommandObject) (n : Nat) :
    hookCalls mk has chain n =
      ((chain.enumFrom n).filter (fun p => has p.2)).map (fun p => mk p.1) := by
  induction chain generalizing n with
  | nil => rfl
  | cons c cs ih =>
    simp only [hookCalls, List.enumFrom_cons, List.filter_cons, ih]
    by_cases h : has c <;> simp [h]

/-! ### Outputs only grow -/

theorem continueWith_grows {k : State → State} (hk : Grows k) (cmd : Item) :
    Grows (continueWith k cmd) := by
  intro st outs h
  unfold continueWith
  cases cmd.style with
  | sync f => exact h
  | callback => exact hk st outs h
  | promise => exact hk st outs h

theorem callback_grows (cfg : Config) {k : State → State} (hk : Grows k) (cmd : Item)
    (err msg : Val) (argus : Option (List Val)) (st : State) (outs : List Output)
    (h : outs <+: st.outputs) :
    outs <+: (callback cfg k cmd err msg argus st).outputs := by
  rw [callback_eq]
  exact continueWith_grows hk cmd _ outs (h.trans (List.prefix_append _ _))

theorem commandSetCallback_grows (cfg : Config) {k : State → State} (hk : Grows k)
    (cs : CommandSet) (st : State) (outs : List Output) (h : outs <+: st.outputs) :
    outs <+: (commandSetCallback cfg k cs st).outputs := by
  unfold commandSetCallback
  refine List.IsPrefix.trans ?_ (List.prefix_append _ _)
  apply callback_grows cfg hk
  simp only [State.out]
  split_ifs
  · exact (h.trans (List.prefix_append _ _)).trans (List.prefix_append _ _)
  · exact h.trans (List.prefix_append _ _)

theorem completeCommand_grows (cfg : Config) {k : State → State} (hk : Grows k) (st : State)
    (outs : List Output) (h : outs <+: st.outputs) :
    outs <+: (completeCommand cfg k st).outputs := by
  unfold completeCommand
  simp only []
  split_ifs
  · cases hcs : st._commandSetCallback with
    | none => simpa [hcs] using h
    | some cs =>
      simp only [hcs]
      exact commandSetCallback_grows cfg hk cs _ outs h
  · exact h

theorem onCompletion_grows (cfg : Config) {k : State → State} (hk : Grows k) (id : Nat)
    (err data : Val) (argus : Option (List Val)) (st : State) (outs : List Output)
    (h : outs <+: st.outputs) :
    outs <+: (onCompletion cfg k id err data argus st).outputs := by
  unfold onCompletion
  exact completeCommand_grows cfg hk _ outs h

theorem cancelCommandsOf_grows (cfg : Config) {k : State → State} (hk : Grows k)
    (cs : CommandSet) (st : State) (outs : List Output) (h : outs <+: st.outputs) :
    outs <+: (cancelCommandsOf cfg k cs st).outputs := by
  unfold cancelCommandsOf
  apply callback_grows cfg hk
  simp only [State.out]
  split_ifs
  · exact ((h.trans (List.prefix_append _ _)).trans (List.prefix_append _ _)).trans
      (List.prefix_append _ _)
  · exact (h.trans (List.prefix_append _ _)).trans (List.prefix_append _ _)

theorem cancel_grows (cfg : Config) {k : State → State} (hk : Grows k) (st : State)
    (outs : List Output) (h : outs <+: st.outputs) :
    outs <+: (cancel cfg k st).outputs := by
  unfold cancel
  cases st.cancelCommands with
  | none => exact h
  | some cs => exact cancelCommandsOf_grows cfg hk cs st outs h

theorem runOp_grows (cfg : Config) {k : State → State} (hk : Grows k) (id : Nat) (st : State)
    (op : Op) (outs : List Output) (h : outs <+: st.outputs) :
    outs <+: (runOp cfg k id st op).outputs := by
  cases op with
  | callback args => exact onCompletion_grows cfg hk _ _ _ _ _ outs h
  | registerCommand => exact h
  | completeCommand => exact completeCommand_grows cfg hk _ outs h
  | cancel => exact cancel_grows cfg hk _ outs h

theorem runOps_grows (cfg : Config) {k : State → State} (hk : Grows k) (id : Nat)
    (ops : List Op) (st : State) (outs : List Output) (h : outs <+: st.outputs) :
    outs <+: (ops.foldl (runOp cfg k id) st).outputs := by
  induction ops generalizing st with
  | nil => exact h
  | cons op ops ih => exact ih _ (runOp_grows cfg hk id st op outs h)

theorem callFn_grows (cfg : Config) {k : State → State} (hk : Grows k) (id : Nat)
    (fn : Action) (which : Fn) (args : Args) (st : State) (outs : List Output)
    (h : outs <+: st.outputs ++ [Output.fnCalled id which args]) :
    outs <+: (callFn cfg k id fn which args st).outputs := by
  unfold callFn
  have h2 := runOps_grows cfg hk id fn.ops
    { st.out (Output.fnCalled id which args) with started := Function.update st.started id true }
    outs h
  cases fn.ret <;> exact h2

theorem execCommandSet_grows (cfg : Config) {k : State → State} (hk : Grows k)
    (cs : CommandSet) (validate : Option ValidateHook) (fn : Action) (which : Fn) (args : Args)
    (st : State) (outs : List Output) (h : outs <+: st.outputs) :
    outs <+: (execCommandSet cfg k cs validate fn which args st).outputs := by
  unfold execCommandSet
  cases validate with
  | none =>
    apply callFn_grows cfg hk
    exact h.trans (List.prefix_append _ _)
  | some v =>
    cases v with
    | throws e =>
      apply onCompletion_grows cfg hk
      exact h.trans (List.prefix_append _ _)
    | returns v =>
      simp only []
      split_ifs <;> first
        | exact onCompletion_grows cfg hk _ _ _ _ _ outs (h.trans (List.prefix_append _ _))
        | exact callFn_grows cfg hk _ _ _ _ _ outs
            ((h.trans (List.prefix_append _ _)).trans (List.prefix_append _ _))

theorem invoke_grows (cfg : Config) {k : State → State} (hk : Grows k) (item : Item)
    (match_ : CommandObject) (pipes : List CommandObject) (validate : Option ValidateHook)
    (fn : Action) (which : Fn) (args : Args) (st : State) (outs : List Output)
    (h : outs <+: st.outputs) :
    outs <+: (invoke cfg k item match_ pipes validate fn which args st).outputs := by
  unfold invoke
  cases hs : item.style with
  | sync f =>
    simp only []
    cases fn.sync <;>
      exact callback_grows cfg hk _ _ _ _ _ outs (h.trans (List.prefix_append _ _))
  | callback => exact execCommandSet_grows cfg hk _ _ _ _ _ _ outs h
  | promise => exact execCommandSet_grows cfg hk _ _ _ _ _ _ outs h

theorem exec_grows (cfg : Config) {k : State → State} (hk : Grows k) (item : Item)
    (st : State) (outs : List Output) (h : outs <+: st.outputs) :
    outs <+: (_exec cfg k item st).outputs := by
  unfold _exec
  simp only []
  cases cfg.parseCommand (match activeMode st with
    | some m => m
    | none => item.command) with
  | noMatch => exact callback_grows cfg hk _ _ _ _ _ outs (h.trans (List.prefix_append _ _))
  | argsError msg =>
    simp only []
    apply callback_grows cfg hk
    simp only [State.out]
    split_ifs
    · exact (h.trans (List.prefix_append _ _)).trans (List.prefix_append _ _)
    · exact h.trans (List.prefix_append _ _)
  | pipeError msg =>
    simp only []
    apply callback_grows cfg hk
    simp only [State.out]
    split_ifs
    · exact (h.trans (List.prefix_append _ _)).trans (List.prefix_append _ _)
    · exact h.trans (List.prefix_append _ _)
  | ok name match_ help pipes =>
    simp only []
    split
    · exact callback_grows cfg hk _ _ _ _ _ outs (h.trans (List.prefix_append _ _))
    · split_ifs <;> first
        | exact invoke_grows cfg hk _ _ _ _ _ _ _ _ outs h
        | exact callback_grows cfg hk _ _ _ _ _ outs (h.trans (List.prefix_append _ _))
        | (apply invoke_grows cfg hk
           unfold modeDelimiter
           split_ifs <;> exact h)

theorem execQueueItem_grows (cfg : Config) {k : State → State} (hk : Grows k) (item : Item)
    (st : State) (outs : List Output) (h : outs <+: st.outputs) :
    outs <+: (_execQueueItem cfg k item st).outputs :=
  exec_grows cfg hk item _ outs h

theorem queueHandler_grows (cfg : Config) (n : Nat) : Grows (_queueHandler cfg n) := by
  induction n with
  | zero => intro st outs h; exact h
  | succ n ih =>
    intro st outs h
    unfold _queueHandler
    split
    · exact execQueueItem_grows cfg ih _ _ outs h
    · exact h

theorem step_grows (cfg : Config) (st : State) (ev : Event) (outs : List Output)
    (h : outs <+: st.outputs) : outs <+: (step cfg st ev).outputs := by
  cases ev with
  | exec cmd cb => exact queueHandler_grows cfg _ _ outs h
  | execSync cmd fatal => exact execQueueItem_grows cfg (queueHandler_grows cfg _) _ _ outs h
  | actionCallback id args =>
    simp only [step]
    split_ifs
    · exact onCompletion_grows cfg (queueHandler_grows cfg _) _ _ _ _ _ outs h
    · exact h
  | promiseResolved id data =>
    simp only [step]
    split_ifs
    · exact onCompletion_grows cfg (queueHandler_grows cfg _) _ _ _ _ _ outs h
    · exact h
  | promiseRejected id err =>
    simp only [step]
    split_ifs
    · exact onCompletion_grows cfg (queueHandler_grows cfg _) _ _ _ _ _ outs h
    · exact h
  | cancelCommands => exact cancel_grows cfg (queueHandler_grows cfg _) _ outs h
  | registerCommand => exact h
  | completeCommand => exact completeCommand_grows cfg (queueHandler_grows cfg _) _ outs h

/-! ### The fan-in counters -/

theorem callback_count (cfg : Config) {k : State → State} (hk : KeepsCount k) (cmd : Item)
    (err msg : Val) (argus : Option (List Val)) (st : State) (h : CountOk st) :
    CountOk (callback cfg k cmd err msg argus st) := by
  rw [callback_eq]
  unfold continueWith
  cases cmd.style with
  | sync f => exact h
  | callback => exact hk _ h
  | promise => exact hk _ h

theorem commandSetCallback_count (cfg : Config) {k : State → State} (hk : KeepsCount k)
    (cs : CommandSet) (st : State) (h : CountOk st) :
    CountOk (commandSetCallback cfg k cs st) := by
  unfold commandSetCallback
  have h2 : CountOk (callback cfg k cs.wrapper (st.response cs.wrapper.id).error
      (st.response cs.wrapper.id).data (st.response cs.wrapper.id).args
      { (if (st.response cs.wrapper.id).error.truthy then
          (st.out (Output.stackLogged cs.wrapper.id)).out
            (Output.emitted Emitted.client_command_error cs.wrapper.id)
        else st.out (Output.emitted Emitted.client_command_executed cs.wrapper.id)) with
        cancelCommands := none }) := by
    apply callback_count cfg hk
    split_ifs <;> exact h
  exact h2

theorem completeCommand_count (cfg : Config) {k : State → State} (hk : KeepsCount k)
    (st : State) (_h : CountOk st) : CountOk (completeCommand cfg k st) := by
  unfold completeCommand
  simp only []
  split_ifs with hle
  · cases hcs : st._commandSetCallback with
    | none => simp [hcs, CountOk]
    | some cs =>
      simp only [hcs]
      refine commandSetCallback_count cfg hk cs _ ?_
      simp [CountOk]
  · unfold CountOk at *
    simp only [not_le] at hle
    exact Nat.le_of_lt hle

theorem onCompletion_count (cfg : Config) {k : State → State} (hk : KeepsCount k) (id : Nat)
    (err data : Val) (argus : Option (List Val)) (st : State) (h : CountOk st) :
    CountOk (onCompletion cfg k id err data argus st) := by
  unfold onCompletion
  exact completeCommand_count cfg hk _ h

theorem cancelCommandsOf_count (cfg : Config) {k : State → State} (hk : KeepsCount k)
    (cs : CommandSet) (st : State) : CountOk (cancelCommandsOf cfg k cs st) := by
  unfold cancelCommandsOf
  apply callback_count cfg hk
  simp [CountOk, State.out]

theorem cancel_count (cfg : Config) {k : State → State} (hk : KeepsCount k) (st : State)
    (h : CountOk st) : CountOk (cancel cfg k st) := by
  unfold cancel
  cases st.cancelCommands with
  | none => exact h
  | some cs => exact cancelCommandsOf_count cfg hk cs st

theorem runOp_count (cfg : Config) {k : State → State} (hk : KeepsCount k) (id : Nat)
    (st : State) (op : Op) (h : CountOk st) : CountOk (runOp cfg k id st op) := by
  cases op with
  | callback args => exact onCompletion_count cfg hk _ _ _ _ _ h
  | registerCommand => exact Nat.le_succ_of_le h
  | completeCommand => exact completeCommand_count cfg hk _ h
  | cancel => exact cancel_count cfg hk _ h

theorem runOps_count (cfg : Config) {k : State → State} (hk : KeepsCount k) (id : Nat)
    (ops : List Op) (st : State) (h : CountOk st) :
    CountOk (ops.foldl (runOp cfg k id) st) := by
  induction ops generalizing st with
  | nil => exact h
  | cons op ops ih => exact ih _ (runOp_count cfg hk id st op h)

theorem callFn_count (cfg : Config) {k : State → State} (hk : KeepsCount k) (id : Nat)
    (fn : Action) (which : Fn) (args : Args) (st : State) (h : CountOk st) :
    CountOk (callFn cfg k id fn which args st) := by
  unfold callFn
  have h2 := runOps_count cfg hk id fn.ops
    { st.out (Output.fnCalled id which args) with started := Function.update st.started id true }
    h
  cases fn.ret <;> exact h2

theorem execCommandSet_count (cfg : Config) {k : State → State} (hk : KeepsCount k)
    (cs : CommandSet) (validate : Option ValidateHook) (fn : Action) (which : Fn) (args : Args)
    (st : State) : CountOk (execCommandSet cfg k cs validate fn which args st) := by
  unfold execCommandSet
  cases validate with
  | none => exact callFn_count cfg hk _ _ _ _ _ (by simp [CountOk])
  | some v =>
    cases v with
    | throws e => exact onCompletion_count cfg hk _ _ _ _ _ (by simp [CountOk, State.out])
    | returns v =>
      simp only []
      split_ifs <;> first
        | exact onCompletion_count cfg hk _ _ _ _ _ (by simp [CountOk, State.out])
        | exact callFn_count cfg hk _ _ _ _ _ (by simp [CountOk, State.out])

theorem invoke_count (cfg : Config) {k : State → State} (hk : KeepsCount k) (item : Item)
    (match_ : CommandObject) (pipes : List CommandObject) (validate : Option ValidateHook)
    (fn : Action) (which : Fn) (args : Args) (st : State) (h : CountOk st) :
    CountOk (invoke cfg k item match_ pipes validate fn which args st) := by
  unfold invoke
  cases hs : item.style with
  | sync f =>
    simp only []
    cases fn.sync <;> exact callback_count cfg hk _ _ _ _ _ h
  | callback => exact execCommandSet_count cfg hk _ _ _ _ _ _
  | promise => exact execCommandSet_count cfg hk _ _ _ _ _ _

theorem exec_count (cfg : Config) {k : State → State} (hk : KeepsCount k) (item : Item)
    (st : State) (h : CountOk st) : CountOk (_exec cfg k item st) := by
  unfold _exec
  simp only []
  cases cfg.parseCommand (match activeMode st with
    | some m => m
    | none => item.command) with
  | noMatch => exact callback_count cfg hk _ _ _ _ _ h
  | argsError msg =>
    simp only []
    apply callback_count cfg hk
    split_ifs <;> exact h
  | pipeError msg =>
    simp only []
    apply callback_count cfg hk
    split_ifs <;> exact h
  | ok name match_ help pipes =>
    simp only []
    split
    · exact callback_count cfg hk _ _ _ _ _ h
    · split_ifs <;> first
        | exact invoke_count cfg hk _ _ _ _ _ _ _ _ h
        | exact callback_count cfg hk _ _ _ _ _ h
        | (apply invoke_count cfg hk
           unfold modeDelimiter
           split_ifs <;> exact h)

theorem queueHandler_count (cfg : Config) (n : Nat) : KeepsCount (_queueHandler cfg n) := by
  induction n with
  | zero => intro st h; exact h
  | succ n ih =>
    intro st h
    unfold _queueHandler
    split
    · exact exec_count cfg ih _ _ h
    · exact h

theorem step_count (cfg : Config) (st : State) (ev : Event) (h : CountOk st) :
    CountOk (step cfg st ev) := by
  cases ev with
  | exec cmd cb => exact queueHandler_count cfg _ _ h
  | execSync cmd fatal => exact exec_count cfg (queueHandler_count cfg _) _ _ h
  | actionCallback id args =>
    simp only [step]
    split_ifs
    · exact onCompletion_count cfg (queueHandler_count cfg _) _ _ _ _ _ h
    · exact h
  | promiseResolved id data =>
    simp only [step]
    split_ifs
    · exact onCompletion_count cfg (queueHandler_count cfg _) _ _ _ _ _ h
    · exact h
  | promiseRejected id err =>
    simp only [step]
    split_ifs
    · exact onCompletion_count cfg (queueHandler_count cfg _) _ _ _ _ _ h
    · exact h
  | cancelCommands => exact cancel_count cfg (queueHandler_count cfg _) _ h
  | registerCommand => exact Nat.le_succ_of_le h
  | completeCommand => exact completeCommand_count cfg (queueHandler_count cfg _) _ h

theorem foldl_step_count (cfg : Config) (events : List Event) (st : State) (h : CountOk st) :
    CountOk (events.foldl (step cfg) st) := by
  induction events generalizing st with
  | nil => exact h
  | cons ev evs ih => exact ih _ (step_count cfg st ev h)


/-! ### Hygiene of the request ids -/

theorem delivers_id {o : Output} {i : Nat} (h : o.delivers i = true) : o.id = i := by
  cases o <;> simp_all [Output.delivers, Output.id]

theorem neutral_delivers {o : Output} (h : o.neutral = true) (i : Nat) :
    o.delivers i = false := by
  cases o <;> simp_all [Output.delivers, Output.neutral]

theorem Frame.refl (st : State) : Frame st st :=
  ⟨rfl, fun _ h => h⟩

theorem Frame.trans {a b c : State} (h1 : Frame a b) (h2 : Frame b c) : Frame a c :=
  ⟨h2.1.trans h1.1, fun j hj => h1.2 j (h2.2 j hj)⟩

theorem undelivered_append {outs l : List Output} {i : Nat} (h : undelivered outs i)
    (hl : ∀ o ∈ l, o.delivers i = false) : undelivered (outs ++ l) i := by
  intro o ho
  rcases List.mem_append.mp ho with h1 | h1
  · exact h o h1
  · exact hl o h1

theorem undelivered_of_fresh {outs : List Output} {i : Nat} (h : ∀ o ∈ outs, o.id ≠ i) :
    undelivered outs i := by
  intro o ho
  by_contra hd
  exact h o ho (delivers_id (by simpa using hd))

theorem filter_delivers_eq_nil {outs : List Output} {i : Nat} (h : undelivered outs i) :
    outs.filter (Output.delivers i) = [] := by
  rw [List.filter_eq_nil_iff]
  intro o ho
  simp [h o ho]

/-- Outputs that deliver nothing and start nothing keep the hygiene. -/
theorem Hyg.hyg_append_neutral {cfg : Config} {q : List Item} {n : Nat} {outs : List Output}
    (h : Hyg cfg q n outs) (l : List Output)
    (hl : ∀ o ∈ l, o.neutral = true ∧ o.id < n ∧ o.id ∉ queuedIds q) :
    Hyg cfg q n (outs ++ l) := by
  refine ⟨h.nodup, h.qlt, ?_, ?_, ?_, ?_⟩
  · intro o ho
    rcases List.mem_append.mp ho with h1 | h1
    · exact h.qfresh o h1
    · exact (hl o h1).2.2
  · intro o ho
    rcases List.mem_append.mp ho with h1 | h1
    · exact h.olt o h1
    · exact (hl o h1).2.1
  · intro i
    have : l.filter (Output.delivers i) = [] := by
      rw [List.filter_eq_nil_iff]
      intro o ho
      simp [neutral_delivers (hl o ho).1 i]
    rw [List.filter_append, this, List.append_nil]
    exact h.once i
  · intro item a e hv
    rcases List.mem_append.mp hv with h1 | h1
    · obtain ⟨h2, h3⟩ := h.vt item a e h1
      refine ⟨List.mem_append_left _ h2, ?_⟩
      intro w b hf
      rcases List.mem_append.mp hf with h4 | h4
      · exact h3 w b h4
      · have := (hl _ h4).1
        simp [Output.neutral] at this
    · have := (hl _ h1).1
      simp [Output.neutral] at this

/-- Calling a function of a request whose validate hook did not throw keeps the hygiene. -/
theorem Hyg.append_fn {cfg : Config} {q : List Item} {n : Nat} {outs : List Output}
    (h : Hyg cfg q n outs) (i : Nat) (w : Fn) (a : Args) (hlt : i < n) (hq : i ∉ queuedIds q)
    (hv : ∀ item b e, Output.validateCalled item b (ValidateHook.throws e) ∈ outs →
      item.id ≠ i) :
    Hyg cfg q n (outs ++ [Output.fnCalled i w a]) := by
  refine ⟨h.nodup, h.qlt, ?_, ?_, ?_, ?_⟩
  · intro o ho
    rcases List.mem_append.mp ho with h1 | h1
    · exact h.qfresh o h1
    · rw [List.mem_singleton.mp h1]; exact hq
  · intro o ho
    rcases List.mem_append.mp ho with h1 | h1
    · exact h.olt o h1
    · rw [List.mem_singleton.mp h1]; exact hlt
  · intro j
    rw [List.filter_append]
    simpa [Output.delivers] using h.once j
  · intro item b e hv1
    rcases List.mem_append.mp hv1 with h1 | h1
    · obtain ⟨h2, h3⟩ := h.vt item b e h1
      refine ⟨List.mem_append_left _ h2, ?_⟩
      intro w2 b2 hf
      rcases List.mem_append.mp hf with h4 | h4
      · exact h3 w2 b2 h4
      · have h5 := List.mem_singleton.mp h4
        injection h5 with h6
        exact hv item b e h1 h6
    · have h5 := List.mem_singleton.mp h1
      cases h5

/-- Delivering the completion of a request not yet delivered keeps the hygiene. -/
theorem Hyg.append_delivery {cfg : Config} {q : List Item} {n : Nat} {outs : List Output}
    (h : Hyg cfg q n outs) (cmd : Item) (err msg : Val) (argus : Option (List Val))
    (hlt : cmd.id < n) (hq : cmd.id ∉ queuedIds q) (hu : undelivered outs cmd.id) :
    Hyg cfg q n (outs ++ [completionOutput cfg cmd err msg argus]) := by
  refine ⟨h.nodup, h.qlt, ?_, ?_, ?_, ?_⟩
  · intro o ho
    rcases List.mem_append.mp ho with h1 | h1
    · exact h.qfresh o h1
    · rw [List.mem_singleton.mp h1, completionOutput_id]; exact hq
  · intro o ho
    rcases List.mem_append.mp ho with h1 | h1
    · exact h.olt o h1
    · rw [List.mem_singleton.mp h1, completionOutput_id]; exact hlt
  · intro j
    rw [List.filter_append]
    by_cases hj : cmd.id = j
    · subst hj
      rw [filter_delivers_eq_nil hu]
      simp [List.filter_cons, completionOutput_delivers]
    · have : [completionOutput cfg cmd err msg argus].filter (Output.delivers j) = [] := by
        simp [List.filter_cons, completionOutput_delivers, hj]
      rw [this, List.append_nil]
      exact h.once j
  · intro item b e hv1
    rcases List.mem_append.mp hv1 with h1 | h1
    · obtain ⟨h2, h3⟩ := h.vt item b e h1
      refine ⟨List.mem_append_left _ h2, ?_⟩
      intro w2 b2 hf
      rcases List.mem_append.mp hf with h4 | h4
      · exact h3 w2 b2 h4
      · have h5 := List.mem_singleton.mp h4
        have h6 := congrArg (Output.starts item.id) h5
        rw [completionOutput_starts] at h6
        simp [Output.starts] at h6
    · have h5 := List.mem_singleton.mp h1
      have h6 := congrArg Output.neutral h5
      have h7 : (completionOutput cfg cmd err msg argus).delivers cmd.id = true := by
        rw [completionOutput_delivers]; simp
      have h8 := congrArg (Output.delivers cmd.id) h5
      rw [h7] at h8
      simp [Output.delivers] at h8


/-- A validate hook that throws for a request without output, followed by outputs that
deliver nothing and by the completion with the thrown value, keeps the hygiene. -/
theorem Hyg.append_throw {cfg : Config} {q : List Item} {n : Nat} {outs : List Output}
    (h : Hyg cfg q n outs) (item : Item) (a : Args) (e : Val) (l : List Output)
    (hlt : item.id < n) (hq : item.id ∉ queuedIds q) (hf : ∀ o ∈ outs, o.id ≠ item.id)
    (hl : ∀ o ∈ l, o.neutral = true ∧ o.id = item.id) :
    Hyg cfg q n (outs ++ [Output.validateCalled item a (ValidateHook.throws e)] ++ l ++
      [completionOutput cfg item e Val.undefined none]) := by
  have hid : ∀ o ∈ outs ++ [Output.validateCalled item a (ValidateHook.throws e)] ++ l ++
      [completionOutput cfg item e Val.undefined none], o ∈ outs ∨ o.id = item.id := by
    intro o ho
    simp only [List.mem_append, List.mem_singleton] at ho
    rcases ho with ((h1 | h1) | h1) | h1
    · exact Or.inl h1
    · right; rw [h1]; rfl
    · exact Or.inr (hl o h1).2
    · right; rw [h1, completionOutput_id]
  have hnf : ∀ o ∈ outs ++ [Output.validateCalled item a (ValidateHook.throws e)] ++ l ++
      [completionOutput cfg item e Val.undefined none], ∀ i w b, o = Output.fnCalled i w b →
        o ∈ outs := by
    intro o ho i w b hob
    simp only [List.mem_append, List.mem_singleton] at ho
    rcases ho with ((h1 | h1) | h1) | h1
    · exact h1
    · rw [h1] at hob; cases hob
    · have := (hl o h1).1
      rw [hob] at this
      simp [Output.neutral] at this
    · have h6 := congrArg (Output.starts i) (h1.symm.trans hob)
      rw [completionOutput_starts] at h6
      simp [Output.starts] at h6
  refine ⟨h.nodup, h.qlt, ?_, ?_, ?_, ?_⟩
  · intro o ho
    rcases hid o ho with h1 | h1
    · exact h.qfresh o h1
    · rw [h1]; exact hq
  · intro o ho
    rcases hid o ho with h1 | h1
    · exact h.olt o h1
    · rw [h1]; exact hlt
  · intro j
    have hmid : ([Output.validateCalled item a (ValidateHook.throws e)] ++ l).filter
        (Output.delivers j) = [] := by
      rw [List.filter_eq_nil_iff]
      intro o ho
      simp only [List.mem_append, List.mem_singleton] at ho
      rcases ho with h1 | h1
      · rw [h1]; simp [Output.delivers]
      · simp [neutral_delivers (hl o h1).1 j]
    rw [List.append_assoc outs, List.filter_append, List.filter_append, hmid, List.append_nil]
    by_cases hj : item.id = j
    · subst hj
      rw [filter_delivers_eq_nil (undelivered_of_fresh hf)]
      simp [List.filter_cons, completionOutput_delivers]
    · have : [completionOutput cfg item e Val.undefined none].filter (Output.delivers j) = [] := by
        simp [List.filter_cons, completionOutput_delivers, hj]
      rw [this, List.append_nil]
      exact h.once j
  · intro it b e2 hv1
    have hcases : Output.validateCalled it b (ValidateHook.throws e2) ∈ outs ∨
        (it = item ∧ e2 = e) := by
      simp only [List.mem_append, List.mem_singleton] at hv1
      rcases hv1 with ((h1 | h1) | h1) | h1
      · exact Or.inl h1
      · right
        injection h1 with h2 h3 h4
        injection h4 with h5
        exact ⟨h2, h5⟩
      · have := (hl _ h1).1
        simp [Output.neutral] at this
      · exfalso
        have h7 : (completionOutput cfg item e Val.undefined none).delivers item.id = true := by
          rw [completionOutput_delivers]; simp
        rw [← h1] at h7
        simp [Output.delivers] at h7
    rcases hcases with h1 | ⟨h1, h2⟩
    · obtain ⟨h2, h3⟩ := h.vt it b e2 h1
      refine ⟨?_, ?_⟩
      · simp only [List.mem_append]
        exact Or.inl (Or.inl (Or.inl h2))
      · intro w2 b2 hfn
        exact h3 w2 b2 (hnf _ hfn _ _ _ rfl)
    · subst h1; subst h2
      refine ⟨?_, ?_⟩
      · simp only [List.mem_append, List.mem_singleton]
        exact Or.inr trivial
      · intro w2 b2 hfn
        exact hf _ (hnf _ hfn _ _ _ rfl) rfl

theorem Hyg.hyg_pop {cfg : Config} {item : Item} {rest : List Item} {n : Nat} {outs : List Output}
    (h : Hyg cfg (item :: rest) n outs) :
    Hyg cfg rest n outs ∧ item.id < n ∧ item.id ∉ queuedIds rest ∧ ∀ o ∈ outs, o.id ≠ item.id := by
  have hn := h.nodup
  simp only [queuedIds, List.map_cons, List.nodup_cons] at hn
  refine ⟨⟨hn.2, ?_, ?_, h.olt, h.once, h.vt⟩, ?_, hn.1, ?_⟩
  · intro j hj
    exact h.qlt j (List.mem_cons_of_mem _ hj)
  · intro o ho hq
    exact h.qfresh o ho (List.mem_cons_of_mem _ hq)
  · exact h.qlt item.id (List.mem_cons_self _ _)
  · intro o ho heq
    refine h.qfresh o ho ?_
    rw [heq]
    exact List.mem_cons_self _ _

theorem Hyg.hyg_push {cfg : Config} {q : List Item} {n : Nat} {outs : List Output}
    (h : Hyg cfg q n outs) (item : Item) (hid : item.id = n) :
    Hyg cfg (q ++ [item]) (n + 1) outs := by
  refine ⟨?_, ?_, ?_, ?_, h.once, h.vt⟩
  · simp only [queuedIds, List.map_append, List.map_cons, List.map_nil]
    rw [List.nodup_append]
    refine ⟨h.nodup, List.nodup_singleton _, ?_⟩
    intro j hj hj2
    rw [List.mem_singleton] at hj2
    have := h.qlt j hj
    omega
  · intro j hj
    simp only [queuedIds, List.map_append, List.map_cons, List.map_nil, List.mem_append,
      List.mem_singleton] at hj
    rcases hj with h1 | h1
    · exact Nat.lt_succ_of_lt (h.qlt j h1)
    · omega
  · intro o ho hq
    simp only [queuedIds, List.map_append, List.map_cons, List.map_nil, List.mem_append,
      List.mem_singleton] at hq
    rcases hq with h1 | h1
    · exact h.qfresh o ho h1
    · have := h.olt o ho
      omega
  · intro o ho
    exact Nat.lt_succ_of_lt (h.olt o ho)

theorem Hyg.bump {cfg : Config} {q : List Item} {n : Nat} {outs : List Output}
    (h : Hyg cfg q n outs) : Hyg cfg q (n + 1) outs :=
  ⟨h.nodup, fun j hj => Nat.lt_succ_of_lt (h.qlt j hj), h.qfresh,
    fun o ho => Nat.lt_succ_of_lt (h.olt o ho), h.once, h.vt⟩

theorem Held.held_append {q : List Item} {n : Nat} {outs : List Output} {c : Option CommandSet}
    (h : Held q n outs c) (l : List Output)
    (hl : ∀ cs, c = some cs → ∀ o ∈ l, o.delivers cs.wrapper.id = false) :
    Held q n (outs ++ l) c := by
  intro cs hcs
  obtain ⟨h1, h2, h3⟩ := h cs hcs
  exact ⟨h1, h2, undelivered_append h3 (hl cs hcs)⟩

theorem Held.held_append_neutral {q : List Item} {n : Nat} {outs : List Output}
    {c : Option CommandSet} (h : Held q n outs c) (l : List Output)
    (hl : ∀ o ∈ l, o.neutral = true) : Held q n (outs ++ l) c :=
  h.held_append l (fun cs _ o ho => neutral_delivers (hl o ho) cs.wrapper.id)

theorem Held.held_none (q : List Item) (n : Nat) (outs : List Output) : Held q n outs none := by
  intro cs hcs
  cases hcs

theorem Held.held_frame {q q2 : List Item} {n : Nat} {outs : List Output} {c : Option CommandSet}
    (h : Held q n outs c) (hq : ∀ j ∈ queuedIds q2, j ∈ queuedIds q) : Held q2 n outs c := by
  intro cs hcs
  obtain ⟨h1, h2, h3⟩ := h cs hcs
  exact ⟨h1, fun hm => h2 (hq _ hm), h3⟩

theorem hookCalls_spec (mk : Nat → Output) (has : CommandObject → Bool) (i : Nat)
    (hmk : ∀ m, (mk m).neutral = true ∧ (mk m).id = i) (chain : List CommandObject) (m : Nat) :
    ∀ o ∈ hookCalls mk has chain m, o.neutral = true ∧ o.id = i := by
  induction chain generalizing m with
  | nil => intro o ho; cases ho
  | cons c cs ih =>
    intro o ho
    simp only [hookCalls, List.mem_append] at ho
    rcases ho with h1 | h1
    · split_ifs at h1
      · rw [List.mem_singleton.mp h1]; exact hmk m
      · cases h1
    · exact ih (m + 1) o h1


theorem continueWith_hyg {cfg : Config} {k : State → State} (hk : KeepsHyg cfg k)
    (cmd : Item) : KeepsHyg cfg (continueWith k cmd) := by
  unfold continueWith
  cases cmd.style with
  | sync f => exact fun st h => ⟨h, Frame.refl st, fun hr => hr⟩
  | callback => exact hk
  | promise => exact hk

theorem callback_hyg (cfg : Config) {k : State → State} (hk : KeepsHyg cfg k) (cmd : Item)
    (err msg : Val) (argus : Option (List Val)) (st : State) (h : HygW cfg st)
    (hlt : cmd.id < st.nextId) (hq : cmd.id ∉ queuedIds st._queue)
    (hu : undelivered st.outputs cmd.id)
    (hc : ∀ cs, st.cancelCommands = some cs → cs.wrapper.id ≠ cmd.id) :
    HygW cfg (callback cfg k cmd err msg argus st) ∧
      Frame st (callback cfg k cmd err msg argus st) ∧
      (Ready st → NotCsc cmd.id st → Ready (callback cfg k cmd err msg argus st)) := by
  rw [callback_eq]
  have hd : ∀ cs : CommandSet, cs.wrapper.id ≠ cmd.id →
      ∀ o ∈ [completionOutput cfg cmd err msg argus], o.delivers cs.wrapper.id = false := by
    intro cs hne o ho
    rw [List.mem_singleton.mp ho, completionOutput_delivers]
    simpa using Ne.symm hne
  have h1 : HygW cfg { st with
      _command := none
      outputs := st.outputs ++ [completionOutput cfg cmd err msg argus] } :=
    ⟨h.1.append_delivery cmd err msg argus hlt hq hu,
      h.2.held_append _ (fun cs hcs => hd cs (hc cs hcs))⟩
  obtain ⟨h2, h3, h4⟩ := continueWith_hyg hk cmd _ h1
  refine ⟨h2, h3, ?_⟩
  intro hr hn
  exact h4 (Held.held_append hr _ (fun cs hcs => hd cs (hn cs hcs)))

theorem commandSetCallback_hyg (cfg : Config) {k : State → State} (hk : KeepsHyg cfg k)
    (cs : CommandSet) (st : State) (h : HygW cfg st) (hlt : cs.wrapper.id < st.nextId)
    (hq : cs.wrapper.id ∉ queuedIds st._queue) (hu : undelivered st.outputs cs.wrapper.id) :
    HygW cfg (commandSetCallback cfg k cs st) ∧ Frame st (commandSetCallback cfg k cs st) := by
  unfold commandSetCallback
  simp only []
  have key : ∀ l : List Output, (∀ o ∈ l, o.neutral = true ∧ o.id = cs.wrapper.id) →
      ∀ st1 : State, st1 = { st with outputs := st.outputs ++ l, cancelCommands := none } →
      ∀ (err msg : Val) (argus : Option (List Val)),
        HygW cfg (callback cfg k cs.wrapper err msg argus st1) ∧
          Frame st (callback cfg k cs.wrapper err msg argus st1) := by
    intro l hl st1 hst1 err msg argus
    subst hst1
    have h1 : HygW cfg { st with outputs := st.outputs ++ l, cancelCommands := none } :=
      ⟨h.1.hyg_append_neutral l (fun o ho => ⟨(hl o ho).1, by rw [(hl o ho).2]; exact hlt,
        by rw [(hl o ho).2]; exact hq⟩), Held.held_none _ _ _⟩
    obtain ⟨h2, h3, _⟩ := callback_hyg cfg hk cs.wrapper err msg argus _ h1 hlt hq
      (undelivered_append hu (fun o ho => neutral_delivers (hl o ho).1 _))
      (fun cs2 hcs2 => by cases hcs2)
    exact ⟨h2, h3⟩
  have hdone := hookCalls_spec (Output.doneCalled cs.wrapper.id) (fun c => c._done)
    cs.wrapper.id (fun m => ⟨rfl, rfl⟩) cs.chain 0
  have fin : ∀ st3 : State, HygW cfg st3 ∧ Frame st st3 →
      HygW cfg { st3 with outputs :=
        (st3.outputs ++ hookCalls (Output.doneCalled cs.wrapper.id) (fun c => c._done) cs.chain 0) } ∧
      Frame st { st3 with outputs :=
        (st3.outputs ++ hookCalls (Output.doneCalled cs.wrapper.id) (fun c => c._done) cs.chain 0) } := by
    intro st3 h3
    refine ⟨⟨h3.1.1.hyg_append_neutral _ (fun o ho => ⟨(hdone o ho).1, ?_, ?_⟩),
      h3.1.2.held_append_neutral _ (fun o ho => (hdone o ho).1)⟩, h3.2⟩
    · rw [(hdone o ho).2, h3.2.1]; exact hlt
    · rw [(hdone o ho).2]; exact fun hm => hq (h3.2.2 _ hm)
  apply fin
  split_ifs
  · refine key [Output.stackLogged cs.wrapper.id,
      Output.emitted Emitted.client_command_error cs.wrapper.id] ?_ _ ?_ _ _ _
    · intro o ho
      simp only [List.mem_cons, List.mem_singleton, List.not_mem_nil, or_false] at ho
      rcases ho with h1 | h1 <;> (rw [h1]; exact ⟨rfl, rfl⟩)
    · simp [State.out]
  · refine key [Output.emitted Emitted.client_command_executed cs.wrapper.id] ?_ _ ?_ _ _ _
    · intro o ho
      rw [List.mem_singleton.mp ho]; exact ⟨rfl, rfl⟩
    · simp [State.out]

theorem completeCommand_hyg (cfg : Config) {k : State → State} (hk : KeepsHyg cfg k)
    (st : State) (h : HygW cfg st) (hr : Ready st) :
    HygW cfg (completeCommand cfg k st) ∧ Frame st (completeCommand cfg k st) ∧
      Ready (completeCommand cfg k st) := by
  unfold completeCommand
  simp only []
  split_ifs with hle
  · cases hcs : st._commandSetCallback with
    | none =>
      simp only [hcs]
      exact ⟨h, Frame.refl st, Held.held_none _ _ _⟩
    | some cs =>
      simp only [hcs]
      obtain ⟨h1, h2, h3⟩ := hr cs hcs
      obtain ⟨h4, h5⟩ := commandSetCallback_hyg cfg hk cs
        { st with
          _registeredCommands := 0
          _completedCommands := 0
          _commandSetCallback := some cs } h h1 h2 h3
      exact ⟨h4, h5, Held.held_none _ _ _⟩
  · exact ⟨h, Frame.refl st, hr⟩

theorem onCompletion_hyg (cfg : Config) {k : State → State} (hk : KeepsHyg cfg k) (id : Nat)
    (err data : Val) (argus : Option (List Val)) (st : State) (h : HygW cfg st)
    (hr : Ready st) :
    HygW cfg (onCompletion cfg k id err data argus st) ∧
      Frame st (onCompletion cfg k id err data argus st) ∧
      Ready (onCompletion cfg k id err data argus st) := by
  unfold onCompletion
  exact completeCommand_hyg cfg hk _ h hr

theorem cancelCommandsOf_hyg (cfg : Config) {k : State → State} (hk : KeepsHyg cfg k)
    (cs : CommandSet) (st : State) (h : HygW cfg st) (hlt : cs.wrapper.id < st.nextId)
    (hq : cs.wrapper.id ∉ queuedIds st._queue) (hu : undelivered st.outputs cs.wrapper.id) :
    HygW cfg (cancelCommandsOf cfg k cs st) ∧ Frame st (cancelCommandsOf cfg k cs st) ∧
      Ready (cancelCommandsOf cfg k cs st) := by
  unfold cancelCommandsOf
  simp only []
  have key : ∀ l : List Output, (∀ o ∈ l, o.neutral = true ∧ o.id = cs.wrapper.id) →
      ∀ st1 : State, st1 = { st with
        outputs := st.outputs ++ l
        cancelCommands := none
        _commandSetCallback := none
        _registeredCommands := 0
        _completedCommands := 0 } →
      ∀ (err msg : Val) (argus : Option (List Val)),
        HygW cfg (callback cfg k cs.wrapper err msg argus st1) ∧
          Frame st (callback cfg k cs.wrapper err msg argus st1) ∧
          Ready (callback cfg k cs.wrapper err msg argus st1) := by
    intro l hl st1 hst1 err msg argus
    subst hst1
    have h1 : HygW cfg { st with
        outputs := st.outputs ++ l
        cancelCommands := none
        _commandSetCallback := none
        _registeredCommands := 0
        _completedCommands := 0 } :=
      ⟨h.1.hyg_append_neutral l (fun o ho => ⟨(hl o ho).1, by rw [(hl o ho).2]; exact hlt,
        by rw [(hl o ho).2]; exact hq⟩), Held.held_none _ _ _⟩
    obtain ⟨h2, h3, h4⟩ := callback_hyg cfg hk cs.wrapper err msg argus _ h1 hlt hq
      (undelivered_append hu (fun o ho => neutral_delivers (hl o ho).1 _))
      (fun cs2 hcs2 => by cases hcs2)
    exact ⟨h2, h3, h4 (Held.held_none _ _ _) (fun cs2 hcs2 => by cases hcs2)⟩
  have hcan := hookCalls_spec (Output.cancelCalled cs.wrapper.id) (fun c => c._cancel)
    cs.wrapper.id (fun m => ⟨rfl, rfl⟩) cs.chain 0
  split_ifs
  · refine key (hookCalls (Output.cancelCalled cs.wrapper.id) (fun c => c._cancel) cs.chain 0 ++
      [Output.promiseCancelled cs.wrapper.id,
        Output.emitted Emitted.client_command_cancelled cs.wrapper.id]) ?_ _ ?_ _ _ _
    · intro o ho
      simp only [List.mem_append, List.mem_cons, List.mem_singleton, List.not_mem_nil,
        or_false] at ho
      rcases ho with h1 | h1 | h1
      · exact hcan o h1
      · rw [h1]; exact ⟨rfl, rfl⟩
      · rw [h1]; exact ⟨rfl, rfl⟩
    · simp [State.out]
  · refine key (hookCalls (Output.cancelCalled cs.wrapper.id) (fun c => c._cancel) cs.chain 0 ++
      [Output.emitted Emitted.client_command_cancelled cs.wrapper.id]) ?_ _ ?_ _ _ _
    · intro o ho
      simp only [List.mem_append, List.mem_singleton] at ho
      rcases ho with h1 | h1
      · exact hcan o h1
      · rw [h1]; exact ⟨rfl, rfl⟩
    · simp [State.out]

theorem cancel_hyg (cfg : Config) {k : State → State} (hk : KeepsHyg cfg k) (st : State)
    (h : HygW cfg st) (hr : Ready st) :
    HygW cfg (cancel cfg k st) ∧ Frame st (cancel cfg k st) ∧ Ready (cancel cfg k st) := by
  unfold cancel
  cases hcs : st.cancelCommands with
  | none => exact ⟨h, Frame.refl st, hr⟩
  | some cs =>
    obtain ⟨h1, h2, h3⟩ := h.2 cs hcs
    exact cancelCommandsOf_hyg cfg hk cs st h h1 h2 h3

theorem runOp_hyg (cfg : Config) {k : State → State} (hk : KeepsHyg cfg k) (id : Nat)
    (st : State) (op : Op) (h : HygW cfg st) (hr : Ready st) :
    HygW cfg (runOp cfg k id st op) ∧ Frame st (runOp cfg k id st op) ∧
      Ready (runOp cfg k id st op) := by
  cases op with
  | callback args => exact onCompletion_hyg cfg hk _ _ _ _ _ h hr
  | registerCommand => exact ⟨h, Frame.refl st, hr⟩
  | completeCommand => exact completeCommand_hyg cfg hk _ h hr
  | cancel => exact cancel_hyg cfg hk _ h hr

theorem runOps_hyg (cfg : Config) {k : State → State} (hk : KeepsHyg cfg k) (id : Nat)
    (ops : List Op) (st : State) (h : HygW cfg st) (hr : Ready st) :
    HygW cfg (ops.foldl (runOp cfg k id) st) ∧ Frame st (ops.foldl (runOp cfg k id) st) ∧
      Ready (ops.foldl (runOp cfg k id) st) := by
  induction ops generalizing st with
  | nil => exact ⟨h, Frame.refl st, hr⟩
  | cons op ops ih =>
    obtain ⟨h1, h2, h3⟩ := runOp_hyg cfg hk id st op h hr
    obtain ⟨h4, h5, h6⟩ := ih _ h1 h3
    exact ⟨h4, h2.trans h5, h6⟩

theorem callFn_hyg (cfg : Config) {k : State → State} (hk : KeepsHyg cfg k) (id : Nat)
    (fn : Action) (which : Fn) (args : Args) (st : State) (h : HygW cfg st) (hr : Ready st)
    (hlt : id < st.nextId) (hq : id ∉ queuedIds st._queue)
    (hv : ∀ item b e, Output.validateCalled item b (ValidateHook.throws e) ∈ st.outputs →
      item.id ≠ id) :
    HygW cfg (callFn cfg k id fn which args st) ∧ Frame st (callFn cfg k id fn which args st) ∧
      Ready (callFn cfg k id fn which args st) := by
  unfold callFn
  have hnd : ∀ (c : Option CommandSet), ∀ cs, c = some cs →
      ∀ o ∈ [Output.fnCalled id which args], o.delivers cs.wrapper.id = false := by
    intro c cs _ o ho
    rw [List.mem_singleton.mp ho]; rfl
  have h1 : HygW cfg { st.out (Output.fnCalled id which args) with
      started := Function.update st.started id true } :=
    ⟨h.1.append_fn id which args hlt hq hv, h.2.held_append _ (hnd _)⟩
  have h2 : Ready { st.out (Output.fnCalled id which args) with
      started := Function.update st.started id true } :=
    Held.held_append hr _ (hnd _)
  obtain ⟨h3, h4, h5⟩ := runOps_hyg cfg hk id fn.ops _ h1 h2
  cases fn.ret <;> exact ⟨h3, h4, h5⟩


theorem Same.hygW {cfg : Config} {st r : State} (hs : Same st r) (h : HygW cfg st) :
    HygW cfg r := by
  obtain ⟨h1, h2, h3, h4, h5, _⟩ := hs
  unfold HygW
  rw [h1, h2, h3, h5]
  exact h

theorem Same.ready {st r : State} (hs : Same st r) (h : Ready st) : Ready r := by
  obtain ⟨h1, h2, h3, h4, h5, _⟩ := hs
  unfold Ready
  rw [h1, h2, h4, h5]
  exact h

theorem Same.freshIn {item : Item} {st r : State} (hs : Same st r) (h : FreshIn item st) :
    FreshIn item r := by
  obtain ⟨h1, h2, h3, h4, h5, _⟩ := hs
  unfold FreshIn
  rw [h1, h2, h3, h5]
  exact h

theorem Same.notCsc {id : Nat} {st r : State} (hs : Same st r) (h : NotCsc id st) :
    NotCsc id r := by
  obtain ⟨h1, h2, h3, h4, h5, _⟩ := hs
  unfold NotCsc
  rw [h4]
  exact h

theorem Same.same_frame {st r t : State} (hs : Same st r) (h : Frame r t) : Frame st t := by
  obtain ⟨h1, h2, h3, h4, h5, _⟩ := hs
  unfold Frame at *
  rw [h1, h2] at h
  exact h

theorem same_modeDelimiter (d : JSString) (m : Option JSString) (st : State) :
    Same st (modeDelimiter d { st with _mode := m }) := by
  unfold modeDelimiter
  split_ifs <;> exact ⟨rfl, rfl, rfl, rfl, rfl, rfl⟩

/-- A completion delivered to a request without output, after outputs that deliver
nothing, keeps the hygiene. -/
theorem callback_fresh_hyg (cfg : Config) {k : State → State} (hk : KeepsHyg cfg k)
    (item : Item) (err msg : Val) (argus : Option (List Val)) (st st1 : State)
    (l : List Output) (h : HygW cfg st) (hf : FreshIn item st)
    (hl : ∀ o ∈ l, o.neutral = true ∧ o.id = item.id)
    (hq : st1._queue = st._queue) (hn : st1.nextId = st.nextId)
    (hc : st1.cancelCommands = st.cancelCommands)
    (hs : st1._commandSetCallback = st._commandSetCallback)
    (ho : st1.outputs = st.outputs ++ l) :
    HygW cfg (callback cfg k item err msg argus st1) ∧
      Frame st (callback cfg k item err msg argus st1) ∧
      (Ready st → NotCsc item.id st → Ready (callback cfg k item err msg argus st1)) := by
  obtain ⟨f1, f2, f3, f4⟩ := hf
  have h1 : HygW cfg st1 := by
    unfold HygW
    rw [hq, hn, hc, ho]
    exact ⟨h.1.hyg_append_neutral l (fun o ho => ⟨(hl o ho).1, by rw [(hl o ho).2]; exact f1,
      by rw [(hl o ho).2]; exact f2⟩), h.2.held_append_neutral l (fun o ho => (hl o ho).1)⟩
  have hu : undelivered st1.outputs item.id := by
    rw [ho]
    exact undelivered_append (undelivered_of_fresh f3)
      (fun o ho => neutral_delivers (hl o ho).1 _)
  obtain ⟨h2, h3, h4⟩ := callback_hyg cfg hk item err msg argus st1 h1 (by rw [hn]; exact f1)
    (by rw [hq]; exact f2) hu (by rw [hc]; exact f4)
  refine ⟨h2, ?_, ?_⟩
  · unfold Frame at *
    rw [hq, hn] at h3
    exact h3
  · intro hr hnc
    apply h4
    · unfold Ready
      rw [hq, hn, hs, ho]
      exact Held.held_append_neutral hr l (fun o ho => (hl o ho).1)
    · unfold NotCsc
      rw [hs]
      exact hnc

/-- What `execCommandSet` does when the validate hook throws `e`: the command set completes
at once with `e`, the queue handler runs, then the done hooks. -/
theorem execCommandSet_throws (cfg : Config) (k : State → State) (cs : CommandSet) (e : Val)
    (fn : Action) (which : Fn) (args : Args) (st : State) :
    execCommandSet cfg k cs (some (ValidateHook.throws e)) fn which args st =
      { continueWith k cs.wrapper (validateThrowState cfg cs e args st) with
        outputs := ((continueWith k cs.wrapper (validateThrowState cfg cs e args st)).outputs ++
          hookCalls (Output.doneCalled cs.wrapper.id) (fun c => c._done) cs.chain 0)
        _commandSetCallback := none } := by
  by_cases he : e.truthy = true
  · unfold execCommandSet onCompletion completeCommand commandSetCallback validateThrowState
    simp only [State.out, Function.update_same, he, if_true, Nat.zero_add, le_refl]
    rw [callback_eq]
    simp only [List.append_assoc, List.cons_append, List.nil_append]
  · have he2 : e.truthy = false := by simpa using he
    unfold execCommandSet onCompletion completeCommand commandSetCallback validateThrowState
    simp only [State.out, Function.update_same, he2, Bool.false_eq_true, if_false, Nat.zero_add,
      le_refl, if_true]
    rw [callback_eq]


theorem validateThrowState_hyg (cfg : Config) (cs : CommandSet) (e : Val) (args : Args)
    (st : State) (h : HygW cfg st) (hlt : cs.wrapper.id < st.nextId)
    (hq : cs.wrapper.id ∉ queuedIds st._queue) (hf : ∀ o ∈ st.outputs, o.id ≠ cs.wrapper.id) :
    HygW cfg (validateThrowState cfg cs e args st) := by
  refine ⟨?_, Held.held_none _ _ _⟩
  refine h.1.append_throw cs.wrapper args e _ hlt hq hf ?_
  intro o ho
  split_ifs at ho
  · simp only [List.mem_cons, List.mem_singleton, List.not_mem_nil, or_false] at ho
    rcases ho with h1 | h1 <;> (rw [h1]; exact ⟨rfl, rfl⟩)
  · rw [List.mem_singleton.mp ho]; exact ⟨rfl, rfl⟩

theorem execCommandSet_hyg (cfg : Config) {k : State → State} (hk : KeepsHyg cfg k)
    (cs : CommandSet) (validate : Option ValidateHook) (fn : Action) (which : Fn) (args : Args)
    (st : State) (h : HygW cfg st) (hlt : cs.wrapper.id < st.nextId)
    (hq : cs.wrapper.id ∉ queuedIds st._queue) (hf : ∀ o ∈ st.outputs, o.id ≠ cs.wrapper.id) :
    HygW cfg (execCommandSet cfg k cs validate fn which args st) ∧
      Frame st (execCommandSet cfg k cs validate fn which args st) ∧
      Ready (execCommandSet cfg k cs validate fn which args st) := by
  have hheld : Held st._queue st.nextId st.outputs (some cs) := by
    intro cs2 hcs2
    cases hcs2
    exact ⟨hlt, hq, undelivered_of_fresh hf⟩
  have hnv : ∀ item b e, Output.validateCalled item b (ValidateHook.throws e) ∈ st.outputs →
      item.id ≠ cs.wrapper.id := fun item b e hm => hf _ hm
  cases validate with
  | none =>
    unfold execCommandSet
    exact callFn_hyg cfg hk cs.wrapper.id fn which args _ ⟨h.1, hheld⟩ hheld hlt hq hnv
  | some v =>
    cases v with
    | throws e =>
      rw [execCommandSet_throws]
      have h1 := validateThrowState_hyg cfg cs e args st h hlt hq hf
      obtain ⟨h2, h3, _⟩ := continueWith_hyg hk cs.wrapper _ h1
      have hdone := hookCalls_spec (Output.doneCalled cs.wrapper.id) (fun c => c._done)
        cs.wrapper.id (fun m => ⟨rfl, rfl⟩) cs.chain 0
      have h3b : Frame st (continueWith k cs.wrapper (validateThrowState cfg cs e args st)) := h3
      refine ⟨⟨h2.1.hyg_append_neutral _ (fun o ho => ⟨(hdone o ho).1, ?_, ?_⟩),
        h2.2.held_append_neutral _ (fun o ho => (hdone o ho).1)⟩, h3b, Held.held_none _ _ _⟩
      · rw [(hdone o ho).2, h3b.1]; exact hlt
      · rw [(hdone o ho).2]; exact fun hm => hq (h3b.2 _ hm)
    | returns v =>
      unfold execCommandSet
      simp only []
      have hn : ∀ o ∈ [Output.validateCalled cs.wrapper args (ValidateHook.returns v)],
          o.neutral = true := by
        intro o ho
        rw [List.mem_singleton.mp ho]; rfl
      have hn2 : ∀ o ∈ [Output.validateCalled cs.wrapper args (ValidateHook.returns v)],
          o.neutral = true ∧ o.id < st.nextId ∧ o.id ∉ queuedIds st._queue := by
        intro o ho
        rw [List.mem_singleton.mp ho]; exact ⟨rfl, hlt, hq⟩
      have hA : HygW cfg ({ st with
          _registeredCommands := 1
          _completedCommands := 0
          cancelCommands := some cs
          _commandSetCallback := some cs
          response :=
            (Function.update st.response cs.wrapper.id
              { error := Val.undefined, data := Val.undefined, args := none }) }.out
          (Output.validateCalled cs.wrapper args (ValidateHook.returns v))) :=
        ⟨h.1.hyg_append_neutral _ hn2, hheld.held_append_neutral _ hn⟩
      have hB : Ready ({ st with
          _registeredCommands := 1
          _completedCommands := 0
          cancelCommands := some cs
          _commandSetCallback := some cs
          response :=
            (Function.update st.response cs.wrapper.id
              { error := Val.undefined, data := Val.undefined, args := none }) }.out
          (Output.validateCalled cs.wrapper args (ValidateHook.returns v))) :=
        hheld.held_append_neutral _ hn
      by_cases hv : v ≠ Val.bool true ∧ v ≠ Val.undefined
      · rw [if_pos hv]
        obtain ⟨a1, a2, a3⟩ := onCompletion_hyg cfg hk cs.wrapper.id
          (if v.truthy = true then v else Val.null) Val.undefined none _ hA hB
        exact ⟨a1, a2, a3⟩
      · rw [if_neg hv]
        obtain ⟨a1, a2, a3⟩ := callFn_hyg cfg hk cs.wrapper.id fn which args _ hA hB hlt hq
          (by
            intro item b e hm
            rcases List.mem_append.mp hm with h1 | h1
            · exact hnv item b e h1
            · have := List.mem_singleton.mp h1
              injection this with _ _ h4
              cases h4)
        exact ⟨a1, a2, a3⟩

theorem invoke_hyg (cfg : Config) {k : State → State} (hk : KeepsHyg cfg k) (item : Item)
    (match_ : CommandObject) (pipes : List CommandObject) (validate : Option ValidateHook)
    (fn : Action) (which : Fn) (args : Args) (st : State) (h : HygW cfg st)
    (hf : FreshIn item st) :
    HygW cfg (invoke cfg k item match_ pipes validate fn which args st) ∧
      Frame st (invoke cfg k item match_ pipes validate fn which args st) ∧
      (Ready st → NotCsc item.id st →
        Ready (invoke cfg k item match_ pipes validate fn which args st)) := by
  obtain ⟨f1, f2, f3, f4⟩ := hf
  have hasync : HygW cfg (execCommandSet cfg k { wrapper := item, chain := match_ :: pipes }
        validate fn which args st) ∧
      Frame st (execCommandSet cfg k { wrapper := item, chain := match_ :: pipes }
        validate fn which args st) ∧
      (Ready st → NotCsc item.id st → Ready (execCommandSet cfg k
        { wrapper := item, chain := match_ :: pipes } validate fn which args st)) := by
    obtain ⟨h1, h2, h3⟩ := execCommandSet_hyg cfg hk { wrapper := item, chain := match_ :: pipes }
      validate fn which args st h f1 f2 f3
    exact ⟨h1, h2, fun _ _ => h3⟩
  unfold invoke
  cases hs : item.style with
  | sync f =>
    simp only []
    have hnd : ∀ (c : Option CommandSet), ∀ cs, c = some cs →
        ∀ o ∈ [Output.fnCalled item.id which args], o.delivers cs.wrapper.id = false := by
      intro c cs _ o ho
      rw [List.mem_singleton.mp ho]; rfl
    have h1 : HygW cfg (st.out (Output.fnCalled item.id which args)) :=
      ⟨h.1.append_fn item.id which args f1 f2 (fun it b e hm => f3 _ hm), h.2.held_append _ (hnd _)⟩
    have hu : undelivered (st.out (Output.fnCalled item.id which args)).outputs item.id :=
      undelivered_append (undelivered_of_fresh f3)
        (fun o ho => by rw [List.mem_singleton.mp ho]; rfl)
    have key : ∀ (err msg : Val),
        HygW cfg (callback cfg k item err msg none (st.out (Output.fnCalled item.id which args))) ∧
        Frame st (callback cfg k item err msg none
          (st.out (Output.fnCalled item.id which args))) ∧
        (Ready st → NotCsc item.id st → Ready (callback cfg k item err msg none
          (st.out (Output.fnCalled item.id which args)))) := by
      intro err msg
      obtain ⟨h2, h3, h4⟩ := callback_hyg cfg hk item err msg none _ h1 f1 f2 hu f4
      exact ⟨h2, h3, fun hr hn => h4 (Held.held_append hr _ (hnd _)) hn⟩
    cases fn.sync <;> exact key _ _
  | callback => exact hasync
  | promise => exact hasync

theorem exec_hyg (cfg : Config) {k : State → State} (hk : KeepsHyg cfg k) (item : Item)
    (st : State) (h : HygW cfg st) (hf : FreshIn item st) :
    HygW cfg (_exec cfg k item st) ∧ Frame st (_exec cfg k item st) ∧
      (Ready st → NotCsc item.id st → Ready (_exec cfg k item st)) := by
  have hhelp : ∀ o ∈ [Output.helpLogged item.id], o.neutral = true ∧ o.id = item.id := by
    intro o ho
    rw [List.mem_singleton.mp ho]; exact ⟨rfl, rfl⟩
  have hinv : ∀ (st1 : State), Same st st1 → ∀ (match_ : CommandObject)
      (pipes : List CommandObject) (validate : Option ValidateHook) (fn : Action)
      (which : Fn) (args : Args),
      HygW cfg (invoke cfg k item match_ pipes validate fn which args st1) ∧
      Frame st (invoke cfg k item match_ pipes validate fn which args st1) ∧
      (Ready st → NotCsc item.id st →
        Ready (invoke cfg k item match_ pipes validate fn which args st1)) := by
    intro st1 hs match_ pipes validate fn which args
    obtain ⟨h1, h2, h3⟩ := invoke_hyg cfg hk item match_ pipes validate fn which args st1
      (hs.hygW h) (hs.freshIn hf)
    exact ⟨h1, hs.same_frame h2, fun hr hn => h3 (hs.ready hr) (hs.notCsc hn)⟩
  have key : ∀ P : State → Prop,
      (∀ r, (HygW cfg r ∧ Frame st r ∧ (Ready st → NotCsc item.id st → Ready r)) → P r) →
        P (_exec cfg k item st) := by
    intro P hP
    unfold _exec
    simp only []
    split
    · exact hP _ (callback_fresh_hyg cfg hk item _ _ _ st (st.out (Output.helpLogged item.id))
        [Output.helpLogged item.id] h hf hhelp rfl rfl rfl rfl rfl)
    · rename_i msg _
      split_ifs
      · refine hP _ (callback_fresh_hyg cfg hk item _ _ _ st
          ((st.out (Output.logged item.id msg)).out (Output.helpLogged item.id))
          [Output.logged item.id msg, Output.helpLogged item.id] h hf ?_ rfl rfl rfl rfl ?_)
        · intro o ho
          simp only [List.mem_cons, List.mem_singleton, List.not_mem_nil, or_false] at ho
          rcases ho with h1 | h1 <;> (rw [h1]; exact ⟨rfl, rfl⟩)
        · simp [State.out]
      · exact hP _ (callback_fresh_hyg cfg hk item _ _ _ st
          (st.out (Output.helpLogged item.id))
          [Output.helpLogged item.id] h hf hhelp rfl rfl rfl rfl rfl)
    · rename_i msg _
      split_ifs
      · refine hP _ (callback_fresh_hyg cfg hk item _ _ _ st
          ((st.out (Output.logged item.id msg)).out (Output.helpLogged item.id))
          [Output.logged item.id msg, Output.helpLogged item.id] h hf ?_ rfl rfl rfl rfl ?_)
        · intro o ho
          simp only [List.mem_cons, List.mem_singleton, List.not_mem_nil, or_false] at ho
          rcases ho with h1 | h1 <;> (rw [h1]; exact ⟨rfl, rfl⟩)
        · simp [State.out]
      · exact hP _ (callback_fresh_hyg cfg hk item _ _ _ st
          (st.out (Output.helpLogged item.id))
          [Output.helpLogged item.id] h hf hhelp rfl rfl rfl rfl rfl)
    · rename_i name match_ help pipes hparse
      have hexit : ∀ o ∈ [Output.emitted Emitted.mode_exit item.id],
          o.neutral = true ∧ o.id = item.id := by
        intro o ho
        rw [List.mem_singleton.mp ho]; exact ⟨rfl, rfl⟩
      split
      · exact hP _ (callback_fresh_hyg cfg hk item _ _ _ st
          (st.out (Output.helpLogged item.id))
          [Output.helpLogged item.id] h hf hhelp rfl rfl rfl rfl rfl)
      · by_cases h1 : match_._mode = true ∧ activeMode st = none
        · rw [if_pos h1]
          exact hP _ (hinv _ (same_modeDelimiter _ _ st) _ _ _ _ _ _)
        · rw [if_neg h1]
          by_cases h2 : (activeMode st).isSome = true
          · rw [if_pos h2]
            by_cases h3 : trim item.command = ofString "exit"
            · rw [if_pos h3]
              exact hP _ (callback_fresh_hyg cfg hk item _ _ _ st (_exitMode item.id st)
                [Output.emitted Emitted.mode_exit item.id] h hf hexit rfl rfl rfl rfl rfl)
            · rw [if_neg h3]
              exact hP _ (hinv st ⟨rfl, rfl, rfl, rfl, rfl, rfl⟩ _ _ _ _ _ _)
          · rw [if_neg h2]
            exact hP _ (hinv st ⟨rfl, rfl, rfl, rfl, rfl, rfl⟩ _ _ _ _ _ _)
  exact key _ (fun r hr => hr)

theorem queueHandler_hyg (cfg : Config) (n : Nat) : KeepsHyg cfg (_queueHandler cfg n) := by
  induction n with
  | zero => intro st h; exact ⟨h, Frame.refl st, fun hr => hr⟩
  | succ n ih =>
    intro st h
    unfold _queueHandler
    split
    · rename_i item rest hq hc
      have hpop : Hyg cfg (item :: rest) st.nextId st.outputs := by
        rw [← hq]; exact h.1
      obtain ⟨p1, p2, p3, p4⟩ := hpop.hyg_pop
      have hsub : ∀ j ∈ queuedIds rest, j ∈ queuedIds st._queue := by
        intro j hj
        rw [hq]
        exact List.mem_cons_of_mem _ hj
      have hitem : item.id ∈ queuedIds st._queue := by
        rw [hq]
        exact List.mem_cons_self _ _
      have h1 : HygW cfg { st with _queue := rest, _command := some item } :=
        ⟨p1, h.2.held_frame hsub⟩
      have hf : FreshIn item { st with _queue := rest, _command := some item } :=
        ⟨p2, p3, p4, fun cs hcs heq => (h.2 cs hcs).2.1 (heq ▸ hitem)⟩
      obtain ⟨h2, h3, h4⟩ := exec_hyg cfg ih item _ h1 hf
      refine ⟨h2, ⟨h3.1, fun j hj => hsub j (h3.2 j hj)⟩, ?_⟩
      intro hr
      refine h4 (Held.held_frame hr hsub) ?_
      intro cs hcs heq
      exact (hr cs hcs).2.1 (heq ▸ hitem)
    · exact ⟨h, Frame.refl st, fun hr => hr⟩

theorem step_hyg (cfg : Config) (st : State) (ev : Event) (h : HygW cfg st) (hr : Ready st) :
    HygW cfg (step cfg st ev) ∧ Ready (step cfg st ev) := by
  have hbump : ∀ {c : Option CommandSet} {q : List Item} (item : Item),
      Held st._queue st.nextId st.outputs c → item.id = st.nextId → q = st._queue ++ [item] →
        Held q (st.nextId + 1) st.outputs c := by
    intro c q item hc hid hqe cs hcs
    obtain ⟨c1, c2, c3⟩ := hc cs hcs
    refine ⟨Nat.lt_succ_of_lt c1, ?_, c3⟩
    rw [hqe]
    simp only [queuedIds, List.map_append, List.map_cons, List.map_nil, List.mem_append,
      List.mem_singleton, not_or]
    exact ⟨c2, by omega⟩
  cases ev with
  | exec cmd cb =>
    simp only [step]
    generalize hitem : ({
      id := st.nextId
      command := cmd
      style := if cb = true then Style.callback else Style.promise } : Item) = item
    have hid : item.id = st.nextId := by rw [← hitem]
    have h1 : HygW cfg { st with _queue := st._queue ++ [item], nextId := st.nextId + 1 } :=
      ⟨h.1.hyg_push _ hid, hbump _ h.2 hid rfl⟩
    obtain ⟨h2, _, h4⟩ := queueHandler_hyg cfg _ _ h1
    exact ⟨h2, h4 (hbump _ hr hid rfl)⟩
  | execSync cmd fatal =>
    simp only [step, _execQueueItem]
    have hb : ∀ {c : Option CommandSet}, Held st._queue st.nextId st.outputs c →
        Held st._queue (st.nextId + 1) st.outputs c :=
      fun hc cs hcs => ⟨Nat.lt_succ_of_lt (hc cs hcs).1, (hc cs hcs).2⟩
    have h1 : HygW cfg { st with
        nextId := st.nextId + 1
        _command := some { id := st.nextId, command := cmd, style := Style.sync fatal } } :=
      ⟨h.1.bump, hb h.2⟩
    have hf : FreshIn { id := st.nextId, command := cmd, style := Style.sync fatal }
        { st with
          nextId := st.nextId + 1
          _command := some { id := st.nextId, command := cmd, style := Style.sync fatal } } := by
      refine ⟨Nat.lt_succ_self _, ?_, ?_, ?_⟩
      · intro hm
        exact Nat.lt_irrefl _ (h.1.qlt _ hm)
      · intro o ho heq
        have := h.1.olt o ho
        simp only [] at heq
        omega
      · intro cs hcs heq
        have := (h.2 cs hcs).1
        simp only [] at heq
        omega
    obtain ⟨h2, _, h4⟩ := exec_hyg cfg (queueHandler_hyg cfg _) _ _ h1 hf
    refine ⟨h2, h4 (hb hr) ?_⟩
    intro cs hcs heq
    have := (hr cs hcs).1
    simp only [] at heq
    omega
  | actionCallback id args =>
    simp only [step]
    split_ifs
    · obtain ⟨h2, _, h4⟩ := onCompletion_hyg cfg (queueHandler_hyg cfg _) id
        (args.getD 0 Val.undefined) (args.getD 1 Val.undefined) (some args) st h hr
      exact ⟨h2, h4⟩
    · exact ⟨h, hr⟩
  | promiseResolved id data =>
    simp only [step]
    split_ifs
    · obtain ⟨h2, _, h4⟩ := onCompletion_hyg cfg (queueHandler_hyg cfg _) id
        Val.undefined data none { st with settled := Function.update st.settled id true } h hr
      exact ⟨h2, h4⟩
    · exact ⟨h, hr⟩
  | promiseRejected id err =>
    simp only [step]
    split_ifs
    · obtain ⟨h2, _, h4⟩ := onCompletion_hyg cfg (queueHandler_hyg cfg _) id
        (Val.bool true) err none { st with settled := Function.update st.settled id true } h hr
      exact ⟨h2, h4⟩
    · exact ⟨h, hr⟩
  | cancelCommands =>
    obtain ⟨h2, _, h4⟩ := cancel_hyg cfg (queueHandler_hyg cfg (st._queue.length + 1)) st h hr
    exact ⟨h2, h4⟩
  | registerCommand => exact ⟨h, hr⟩
  | completeCommand =>
    obtain ⟨h2, _, h4⟩ := completeCommand_hyg cfg (queueHandler_hyg cfg (st._queue.length + 1))
      st h hr
    exact ⟨h2, h4⟩

theorem init_hyg (cfg : Config) : HygW cfg (State.init cfg) ∧ Ready (State.init cfg) := by
  refine ⟨⟨⟨List.nodup_nil, ?_, ?_, ?_, ?_, ?_⟩, Held.held_none _ _ _⟩, Held.held_none _ _ _⟩
  · intro j hj; cases hj
  · intro o ho; cases ho
  · intro o ho; cases ho
  · intro i; exact Nat.zero_le _
  · intro item a e hm; cases hm

theorem foldl_step_hyg (cfg : Config) (events : List Event) (st : State) (h : HygW cfg st)
    (hr : Ready st) :
    HygW cfg (events.foldl (step cfg) st) ∧ Ready (events.foldl (step cfg) st) := by
  induction events generalizing st with
  | nil => exact ⟨h, hr⟩
  | cons ev evs ih =>
    obtain ⟨h1, h2⟩ := step_hyg cfg st ev h hr
    exact ih _ h1 h2

theorem filter_eq_singleton_of_length_le_one {α : Type} (p : α → Bool) (l : List α) (x : α)
    (hx : x ∈ l) (hp : p x = true) (hlen : (l.filter p).length ≤ 1) : l.filter p = [x] := by
  have hm : x ∈ l.filter p := List.mem_filter.mpr ⟨hx, hp⟩
  match hl : l.filter p, hm, hlen with
  | [y], hm, _ => rw [List.mem_singleton.mp hm]
  | [], hm, _ => cases hm
  | _ :: _ :: _, _, hlen => simp at hlen


/-! ### One active request at a time -/

theorem starts_id {o : Output} {i : Nat} (h : o.starts i = true) : o.id = i := by
  cases o <;> simp_all [Output.starts, Output.id]

theorem starts_eq {o : Output} {i : Nat} (h : o.starts i = true) :
    ∃ w a, o = Output.fnCalled i w a := by
  cases o <;> simp_all [Output.starts]

theorem active_of_append {outs l : List Output} {i : Nat} (hl : ∀ o ∈ l, o.starts i = false)
    (h : active (outs ++ l) i) : active outs i := by
  obtain ⟨⟨o, ho, hs⟩, hd⟩ := h
  refine ⟨⟨o, ?_, hs⟩, fun o2 ho2 => hd o2 (List.mem_append_left _ ho2)⟩
  rcases List.mem_append.mp ho with h1 | h1
  · exact h1
  · rw [hl o h1] at hs
    cases hs

theorem prefix_of_concat_prefix_append {pre outs l : List Output} {x : Output}
    (h : pre ++ [x] <+: outs ++ l) : pre ++ [x] <+: outs ∨ x ∈ l := by
  induction l using List.reverseRecOn with
  | nil => left; simpa using h
  | append_singleton l y ih =>
    rw [← List.append_assoc] at h
    rcases List.prefix_concat_iff.mp h with h1 | h1
    · right
      have := List.append_inj_right' h1 rfl
      simp only [List.cons.injEq, and_true] at this
      rw [this]
      exact List.mem_append_right _ (List.mem_singleton_self _)
    · rcases ih h1 with h2 | h2
      · exact Or.inl h2
      · exact Or.inr (List.mem_append_left _ h2)

theorem Serial.serial_append {outs : List Output} (h : Serial outs) (l : List Output)
    (hl : ∀ o ∈ l, ∀ i, o.starts i = false) : Serial (outs ++ l) := by
  intro pre j w a hp
  rcases prefix_of_concat_prefix_append hp with h1 | h1
  · exact h pre j w a h1
  · have := hl _ h1 j
    simp [Output.starts] at this

theorem Serial.mono {pre outs : List Output} (h : Serial outs) (hp : pre <+: outs) :
    Serial pre :=
  fun p j w a hpj => h p j w a (hpj.trans hp)

/-- In serialized outputs at most one request is active. -/
theorem Serial.at_most_one {outs : List Output} (h : Serial outs) {i j : Nat}
    (hi : active outs i) (hj : active outs j) : i = j := by
  have key : ∀ {i j : Nat}, active outs i → active outs j → i < j → False := by
    intro i j hi hj hlt
    obtain ⟨⟨oi, hoi, hsi⟩, hdi⟩ := hi
    obtain ⟨⟨oj, hoj, hsj⟩, _⟩ := hj
    obtain ⟨wi, ai, rfl⟩ := starts_eq hsi
    obtain ⟨wj, aj, rfl⟩ := starts_eq hsj
    obtain ⟨s, t, hst⟩ := List.append_of_mem hoi
    have hpi : s ++ [Output.fnCalled i wi ai] <+: outs := by
      rw [hst]
      exact ⟨t, by simp⟩
    have hj2 : Output.fnCalled j wj aj ∈ s ++ Output.fnCalled i wi ai :: t := hst ▸ hoj
    rcases List.mem_append.mp hj2 with h1 | h1
    · have := (h s i wi ai hpi).2 _ h1 j (by simp [Output.starts])
      omega
    · rcases List.mem_cons.mp h1 with h2 | h2
      · injection h2 with h3
        omega
      · obtain ⟨t1, t2, ht⟩ := List.append_of_mem h2
        have hpj : (s ++ Output.fnCalled i wi ai :: t1) ++ [Output.fnCalled j wj aj] <+: outs := by
          rw [hst, ht]
          exact ⟨t2, by simp⟩
        refine (h _ j wj aj hpj).1 i ⟨⟨Output.fnCalled i wi ai, ?_, hsi⟩, ?_⟩
        · simp
        · intro o ho
          refine hdi o ?_
          rw [hst, ht]
          simp only [List.mem_append, List.mem_cons] at ho ⊢
          tauto
  rcases Nat.lt_trichotomy i j with h1 | h1 | h1
  · exact (key hi hj h1).elim
  · exact h1
  · exact (key hj hi h1).elim

theorem Act.act_append {q : List Item} {n : Nat} {outs : List Output} {cmd : Option Item}
    (h : Act q n outs cmd) (l : List Output)
    (hl : ∀ o ∈ l, (∀ i, o.starts i = false) ∧ Below q n o.id) : Act q n (outs ++ l) cmd := by
  refine ⟨h.sorted, h.qlt, ?_, h.cur, ?_, h.serial.serial_append l (fun o ho => (hl o ho).1)⟩
  · intro o ho
    rcases List.mem_append.mp ho with h1 | h1
    · exact h.below o h1
    · exact (hl o h1).2
  · intro i hi
    exact h.act i (active_of_append (fun o ho => (hl o ho).1 i) hi)

theorem Act.deliver {q : List Item} {n : Nat} {outs : List Output} {cmd : Option Item}
    (h : Act q n outs cmd) (cfg : Config) (c : Item) (err msg : Val)
    (argus : Option (List Val)) (ha : ∀ i, active outs i → i = c.id) (hb : Below q n c.id) :
    Act q n (outs ++ [completionOutput cfg c err msg argus]) none := by
  have hns : ∀ o ∈ [completionOutput cfg c err msg argus], ∀ i, o.starts i = false := by
    intro o ho i
    rw [List.mem_singleton.mp ho, completionOutput_starts]
  refine ⟨h.sorted, h.qlt, ?_, ?_, ?_, h.serial.serial_append _ hns⟩
  · intro o ho
    rcases List.mem_append.mp ho with h1 | h1
    · exact h.below o h1
    · rw [List.mem_singleton.mp h1, completionOutput_id]; exact hb
  · intro it hit
    cases hit
  · intro i hi
    exfalso
    have h1 := ha i (active_of_append (fun o ho => hns o ho i) hi)
    have h2 := hi.2 (completionOutput cfg c err msg argus)
      (List.mem_append_right _ (List.mem_singleton_self _))
    rw [completionOutput_delivers, h1] at h2
    simp at h2

theorem Act.start {q : List Item} {n : Nat} {outs : List Output} {it : Item}
    (h : Act q n outs (some it)) (w : Fn) (a : Args)
    (hf : ∀ o ∈ outs, ∀ i, o.starts i = true → i < it.id) :
    Act q n (outs ++ [Output.fnCalled it.id w a]) (some it) := by
  have hna : ∀ i, ¬ active outs i := by
    intro i hi
    obtain ⟨it2, h1, h2⟩ := h.act i hi
    cases h1
    obtain ⟨⟨o, ho, hs⟩, _⟩ := hi
    have := hf o ho i hs
    omega
  refine ⟨h.sorted, h.qlt, ?_, h.cur, ?_, ?_⟩
  · intro o ho
    rcases List.mem_append.mp ho with h1 | h1
    · exact h.below o h1
    · rw [List.mem_singleton.mp h1]; exact h.cur it rfl
  · intro i hi
    refine ⟨it, rfl, ?_⟩
    obtain ⟨⟨o, ho, hs⟩, hd⟩ := hi
    rcases List.mem_append.mp ho with h1 | h1
    · exact (hna i ⟨⟨o, h1, hs⟩, fun o2 ho2 => hd o2 (List.mem_append_left _ ho2)⟩).elim
    · rw [List.mem_singleton.mp h1] at hs
      simpa [Output.starts] using hs
  · intro pre j w2 a2 hp
    rcases List.prefix_concat_iff.mp hp with h1 | h1
    · have h2 := List.append_inj_left' h1 rfl
      have h3 := List.append_inj_right' h1 rfl
      simp only [List.cons.injEq, and_true] at h3
      injection h3 with h4
      subst h2
      subst h4
      exact ⟨hna, hf⟩
    · exact h.serial pre j w2 a2 h1

theorem Act.act_pop {item : Item} {rest : List Item} {n : Nat} {outs : List Output}
    (h : Act (item :: rest) n outs none) :
    Act rest n outs (some item) ∧ ∀ o ∈ outs, o.id < item.id := by
  have hs := h.sorted
  simp only [queuedIds, List.map_cons, List.pairwise_cons] at hs
  refine ⟨⟨hs.2, ?_, ?_, ?_, ?_, h.serial⟩, ?_⟩
  · intro j hj
    exact h.qlt j (List.mem_cons_of_mem _ hj)
  · intro o ho
    exact ⟨(h.below o ho).1, fun j hj => (h.below o ho).2 j (List.mem_cons_of_mem _ hj)⟩
  · intro it hit
    cases hit
    exact ⟨h.qlt _ (List.mem_cons_self _ _), hs.1⟩
  · intro i hi
    obtain ⟨it, h1, _⟩ := h.act i hi
    cases h1
  · intro o ho
    exact (h.below o ho).2 _ (List.mem_cons_self _ _)

theorem Act.act_push {q : List Item} {n : Nat} {outs : List Output} {cmd : Option Item}
    (h : Act q n outs cmd) (item : Item) (hid : item.id = n) :
    Act (q ++ [item]) (n + 1) outs cmd := by
  have hb : ∀ i, Below q n i → Below (q ++ [item]) (n + 1) i := by
    intro i hi
    refine ⟨Nat.lt_succ_of_lt hi.1, ?_⟩
    intro j hj
    simp only [queuedIds, List.map_append, List.map_cons, List.map_nil, List.mem_append,
      List.mem_singleton] at hj
    rcases hj with h1 | h1
    · exact hi.2 j h1
    · have := hi.1
      omega
  refine ⟨?_, ?_, fun o ho => hb _ (h.below o ho), fun it hit => hb _ (h.cur it hit), h.act,
    h.serial⟩
  · simp only [queuedIds, List.map_append, List.map_cons, List.map_nil]
    rw [List.pairwise_append]
    refine ⟨h.sorted, List.pairwise_singleton _ _, ?_⟩
    intro a ha b hb2
    rw [List.mem_singleton] at hb2
    have := h.qlt a ha
    omega
  · intro j hj
    simp only [queuedIds, List.map_append, List.map_cons, List.map_nil, List.mem_append,
      List.mem_singleton] at hj
    rcases hj with h1 | h1
    · exact Nat.lt_succ_of_lt (h.qlt j h1)
    · omega

theorem Below.below_frame {q q2 : List Item} {n : Nat} {i : Nat} (h : Below q n i)
    (hq : ∀ j ∈ queuedIds q2, j ∈ queuedIds q) : Below q2 n i :=
  ⟨h.1, fun j hj => h.2 j (hq j hj)⟩

theorem HeldA.heldA_none (cmd : Option Item) : HeldA cmd none := by
  intro cs hcs
  cases hcs


theorem continueWith_act {k : State → State} (hk : KeepsAct k) (cmd : Item) :
    KeepsAct (continueWith k cmd) := by
  unfold continueWith
  cases cmd.style with
  | sync f => exact fun st h => ⟨h, Frame.refl st, fun hr => hr⟩
  | callback => exact hk
  | promise => exact hk

theorem callback_act (cfg : Config) {k : State → State} (hk : KeepsAct k) (cmd : Item)
    (err msg : Val) (argus : Option (List Val)) (st : State)
    (h : Act st._queue st.nextId st.outputs st._command) (hc : st.cancelCommands = none)
    (ha : ∀ i, active st.outputs i → i = cmd.id) (hb : Below st._queue st.nextId cmd.id) :
    ActW (callback cfg k cmd err msg argus st) ∧
      Frame st (callback cfg k cmd err msg argus st) ∧
      (st._commandSetCallback = none → ActS (callback cfg k cmd err msg argus st)) := by
  rw [callback_eq]
  have h1 : ActW { st with
      _command := none
      outputs := st.outputs ++ [completionOutput cfg cmd err msg argus] } := by
    refine ⟨h.deliver cfg cmd err msg argus ha hb, ?_⟩
    intro cs hcs
    rw [hc] at hcs
    cases hcs
  obtain ⟨h2, h3, h4⟩ := continueWith_act hk cmd _ h1
  refine ⟨h2, h3, ?_⟩
  intro hn
  apply h4
  intro cs hcs
  rw [hn] at hcs
  cases hcs

theorem hookCalls_no_start (mk : Nat → Output) (has : CommandObject → Bool) (i : Nat)
    (hmk : ∀ m, (∀ j, (mk m).starts j = false) ∧ (mk m).id = i) (chain : List CommandObject)
    (m : Nat) : ∀ o ∈ hookCalls mk has chain m, (∀ j, o.starts j = false) ∧ o.id = i := by
  induction chain generalizing m with
  | nil => intro o ho; cases ho
  | cons c cs ih =>
    intro o ho
    simp only [hookCalls, List.mem_append] at ho
    rcases ho with h1 | h1
    · split_ifs at h1
      · rw [List.mem_singleton.mp h1]; exact hmk m
      · cases h1
    · exact ih (m + 1) o h1

theorem commandSetCallback_act (cfg : Config) {k : State → State} (hk : KeepsAct k)
    (cs : CommandSet) (st : State) (h : ActW st) (hcmd : st._command = some cs.wrapper) :
    ActW (commandSetCallback cfg k cs st) ∧ Frame st (commandSetCallback cfg k cs st) := by
  unfold commandSetCallback
  simp only []
  have hb : Below st._queue st.nextId cs.wrapper.id := h.1.cur _ hcmd
  have hact : ∀ i, active st.outputs i → i = cs.wrapper.id := by
    intro i hi
    obtain ⟨it, h1, h2⟩ := h.1.act i hi
    rw [hcmd] at h1
    cases h1
    exact h2.symm
  have key : ∀ l : List Output, (∀ o ∈ l, (∀ j, o.starts j = false) ∧ o.id = cs.wrapper.id) →
      ∀ st1 : State, st1 = { st with outputs := st.outputs ++ l, cancelCommands := none } →
      ∀ (err msg : Val) (argus : Option (List Val)),
        ActW (callback cfg k cs.wrapper err msg argus st1) ∧
          Frame st (callback cfg k cs.wrapper err msg argus st1) := by
    intro l hl st1 hst1 err msg argus
    subst hst1
    have h1 : Act st._queue st.nextId (st.outputs ++ l) st._command :=
      h.1.act_append l (fun o ho => ⟨(hl o ho).1, by rw [(hl o ho).2]; exact hb⟩)
    obtain ⟨h2, h3, _⟩ := callback_act cfg hk cs.wrapper err msg argus
      { st with outputs := st.outputs ++ l, cancelCommands := none } h1 rfl
      (fun i hi => hact i (active_of_append (fun o ho => (hl o ho).1 i) hi)) hb
    exact ⟨h2, h3⟩
  have hdone := hookCalls_no_start (Output.doneCalled cs.wrapper.id) (fun c => c._done)
    cs.wrapper.id (fun m => ⟨fun j => rfl, rfl⟩) cs.chain 0
  have fin : ∀ st3 : State, ActW st3 ∧ Frame st st3 →
      ActW { st3 with outputs :=
        (st3.outputs ++ hookCalls (Output.doneCalled cs.wrapper.id) (fun c => c._done) cs.chain 0) } ∧
      Frame st { st3 with outputs :=
        (st3.outputs ++ hookCalls (Output.doneCalled cs.wrapper.id) (fun c => c._done) cs.chain 0) } := by
    intro st3 h3
    refine ⟨⟨h3.1.1.act_append _ (fun o ho => ⟨(hdone o ho).1, ?_⟩), h3.1.2⟩, h3.2⟩
    rw [(hdone o ho).2]
    exact ⟨by rw [h3.2.1]; exact hb.1, fun j hj => hb.2 j (h3.2.2 j hj)⟩
  apply fin
  split_ifs
  · refine key [Output.stackLogged cs.wrapper.id,
      Output.emitted Emitted.client_command_error cs.wrapper.id] ?_ _ ?_ _ _ _
    · intro o ho
      simp only [List.mem_cons, List.mem_singleton, List.not_mem_nil, or_false] at ho
      rcases ho with h1 | h1 <;> (rw [h1]; exact ⟨fun j => rfl, rfl⟩)
    · simp [State.out]
  · refine key [Output.emitted Emitted.client_command_executed cs.wrapper.id] ?_ _ ?_ _ _ _
    · intro o ho
      rw [List.mem_singleton.mp ho]; exact ⟨fun j => rfl, rfl⟩
    · simp [State.out]

theorem completeCommand_act (cfg : Config) {k : State → State} (hk : KeepsAct k)
    (st : State) (h : ActW st) (hr : ActS st) :
    ActW (completeCommand cfg k st) ∧ Frame st (completeCommand cfg k st) ∧
      ActS (completeCommand cfg k st) := by
  unfold completeCommand
  simp only []
  split_ifs with hle
  · cases hcs : st._commandSetCallback with
    | none =>
      simp only [hcs]
      exact ⟨h, Frame.refl st, HeldA.heldA_none _⟩
    | some cs =>
      simp only [hcs]
      obtain ⟨h4, h5⟩ := commandSetCallback_act cfg hk cs
        { st with
          _registeredCommands := 0
          _completedCommands := 0
          _commandSetCallback := some cs } h (hr cs hcs)
      exact ⟨h4, h5, HeldA.heldA_none _⟩
  · exact ⟨h, Frame.refl st, hr⟩

theorem onCompletion_act (cfg : Config) {k : State → State} (hk : KeepsAct k) (id : Nat)
    (err data : Val) (argus : Option (List Val)) (st : State) (h : ActW st) (hr : ActS st) :
    ActW (onCompletion cfg k id err data argus st) ∧
      Frame st (onCompletion cfg k id err data argus st) ∧
      ActS (onCompletion cfg k id err data argus st) := by
  unfold onCompletion
  exact completeCommand_act cfg hk _ h hr

theorem cancelCommandsOf_act (cfg : Config) {k : State → State} (hk : KeepsAct k)
    (cs : CommandSet) (st : State) (h : ActW st) (hcmd : st._command = some cs.wrapper) :
    ActW (cancelCommandsOf cfg k cs st) ∧ Frame st (cancelCommandsOf cfg k cs st) ∧
      ActS (cancelCommandsOf cfg k cs st) := by
  unfold cancelCommandsOf
  simp only []
  have hb : Below st._queue st.nextId cs.wrapper.id := h.1.cur _ hcmd
  have hact : ∀ i, active st.outputs i → i = cs.wrapper.id := by
    intro i hi
    obtain ⟨it, h1, h2⟩ := h.1.act i hi
    rw [hcmd] at h1
    cases h1
    exact h2.symm
  have key : ∀ l : List Output, (∀ o ∈ l, (∀ j, o.starts j = false) ∧ o.id = cs.wrapper.id) →
      ∀ st1 : State, st1 = { st with
        outputs := st.outputs ++ l
        cancelCommands := none
        _commandSetCallback := none
        _registeredCommands := 0
        _completedCommands := 0 } →
      ∀ (err msg : Val) (argus : Option (List Val)),
        ActW (callback cfg k cs.wrapper err msg argus st1) ∧
          Frame st (callback cfg k cs.wrapper err msg argus st1) ∧
          ActS (callback cfg k cs.wrapper err msg argus st1) := by
    intro l hl st1 hst1 err msg argus
    subst hst1
    have h1 : Act st._queue st.nextId (st.outputs ++ l) st._command :=
      h.1.act_append l (fun o ho => ⟨(hl o ho).1, by rw [(hl o ho).2]; exact hb⟩)
    obtain ⟨h2, h3, h4⟩ := callback_act cfg hk cs.wrapper err msg argus
      { st with
        outputs := st.outputs ++ l
        cancelCommands := none
        _commandSetCallback := none
        _registeredCommands := 0
        _completedCommands := 0 } h1 rfl
      (fun i hi => hact i (active_of_append (fun o ho => (hl o ho).1 i) hi)) hb
    exact ⟨h2, h3, h4 rfl⟩
  have hcan := hookCalls_no_start (Output.cancelCalled cs.wrapper.id) (fun c => c._cancel)
    cs.wrapper.id (fun m => ⟨fun j => rfl, rfl⟩) cs.chain 0
  split_ifs
  · refine key (hookCalls (Output.cancelCalled cs.wrapper.id) (fun c => c._cancel) cs.chain 0 ++
      [Output.promiseCancelled cs.wrapper.id,
        Output.emitted Emitted.client_command_cancelled cs.wrapper.id]) ?_ _ ?_ _ _ _
    · intro o ho
      simp only [List.mem_append, List.mem_cons, List.mem_singleton, List.not_mem_nil,
        or_false] at ho
      rcases ho with h1 | h1 | h1
      · exact hcan o h1
      · rw [h1]; exact ⟨fun j => rfl, rfl⟩
      · rw [h1]; exact ⟨fun j => rfl, rfl⟩
    · simp [State.out]
  · refine key (hookCalls (Output.cancelCalled cs.wrapper.id) (fun c => c._cancel) cs.chain 0 ++
      [Output.emitted Emitted.client_command_cancelled cs.wrapper.id]) ?_ _ ?_ _ _ _
    · intro o ho
      simp only [List.mem_append, List.mem_singleton] at ho
      rcases ho with h1 | h1
      · exact hcan o h1
      · rw [h1]; exact ⟨fun j => rfl, rfl⟩
    · simp [State.out]

theorem cancel_act (cfg : Config) {k : State → State} (hk : KeepsAct k) (st : State)
    (h : ActW st) (hr : ActS st) :
    ActW (cancel cfg k st) ∧ Frame st (cancel cfg k st) ∧ ActS (cancel cfg k st) := by
  unfold cancel
  cases hcs : st.cancelCommands with
  | none => exact ⟨h, Frame.refl st, hr⟩
  | some cs => exact cancelCommandsOf_act cfg hk cs st h (h.2 cs hcs)

theorem runOp_act (cfg : Config) {k : State → State} (hk : KeepsAct k) (id : Nat)
    (st : State) (op : Op) (h : ActW st) (hr : ActS st) :
    ActW (runOp cfg k id st op) ∧ Frame st (runOp cfg k id st op) ∧
      ActS (runOp cfg k id st op) := by
  cases op with
  | callback args => exact onCompletion_act cfg hk _ _ _ _ _ h hr
  | registerCommand => exact ⟨h, Frame.refl st, hr⟩
  | completeCommand => exact completeCommand_act cfg hk _ h hr
  | cancel => exact cancel_act cfg hk _ h hr

theorem runOps_act (cfg : Config) {k : State → State} (hk : KeepsAct k) (id : Nat)
    (ops : List Op) (st : State) (h : ActW st) (hr : ActS st) :
    ActW (ops.foldl (runOp cfg k id) st) ∧ Frame st (ops.foldl (runOp cfg k id) st) ∧
      ActS (ops.foldl (runOp cfg k id) st) := by
  induction ops generalizing st with
  | nil => exact ⟨h, Frame.refl st, hr⟩
  | cons op ops ih =>
    obtain ⟨h1, h2, h3⟩ := runOp_act cfg hk id st op h hr
    obtain ⟨h4, h5, h6⟩ := ih _ h1 h3
    exact ⟨h4, h2.trans h5, h6⟩

theorem callFn_act (cfg : Config) {k : State → State} (hk : KeepsAct k) (it : Item)
    (fn : Action) (which : Fn) (args : Args) (st : State) (h : ActW st) (hr : ActS st)
    (hcmd : st._command = some it)
    (hf : ∀ o ∈ st.outputs, ∀ i, o.starts i = true → i < it.id) :
    ActW (callFn cfg k it.id fn which args st) ∧
      Frame st (callFn cfg k it.id fn which args st) ∧
      ActS (callFn cfg k it.id fn which args st) := by
  unfold callFn
  have h0 : Act st._queue st.nextId st.outputs (some it) := hcmd ▸ h.1
  have h1 : ActW { st.out (Output.fnCalled it.id which args) with
      started := Function.update st.started it.id true } := by
    refine ⟨?_, h.2⟩
    show Act st._queue st.nextId (st.outputs ++ [Output.fnCalled it.id which args]) st._command
    rw [hcmd]
    exact h0.start which args hf
  have h2 : ActS { st.out (Output.fnCalled it.id which args) with
      started := Function.update st.started it.id true } := hr
  obtain ⟨h3, h4, h5⟩ := runOps_act cfg hk it.id fn.ops _ h1 h2
  cases fn.ret <;> exact ⟨h3, h4, h5⟩

theorem execCommandSet_act (cfg : Config) {k : State → State} (hk : KeepsAct k)
    (cs : CommandSet) (validate : Option ValidateHook) (fn : Action) (which : Fn) (args : Args)
    (st : State) (h : Act st._queue st.nextId st.outputs st._command)
    (hcmd : st._command = some cs.wrapper)
    (hf : ∀ o ∈ st.outputs, ∀ i, o.starts i = true → i < cs.wrapper.id) :
    ActW (execCommandSet cfg k cs validate fn which args st) ∧
      Frame st (execCommandSet cfg k cs validate fn which args st) ∧
      ActS (execCommandSet cfg k cs validate fn which args st) := by
  have hheld : HeldA st._command (some cs) := by
    intro cs2 hcs2
    cases hcs2
    exact hcmd
  have hb : Below st._queue st.nextId cs.wrapper.id := h.cur _ hcmd
  have hv : ∀ hook, ∀ o ∈ [Output.validateCalled cs.wrapper args hook],
      (∀ i, o.starts i = false) ∧ Below st._queue st.nextId o.id := by
    intro hook o ho
    rw [List.mem_singleton.mp ho]
    exact ⟨fun i => rfl, hb⟩
  have hA : ∀ hook, ActW ({ st with
      _registeredCommands := 1
      _completedCommands := 0
      cancelCommands := some cs
      _commandSetCallback := some cs
      response :=
        (Function.update st.response cs.wrapper.id
          { error := Val.undefined, data := Val.undefined, args := none }) }.out
      (Output.validateCalled cs.wrapper args hook)) :=
    fun hook => ⟨h.act_append _ (hv hook), hheld⟩
  have hB : ∀ hook, ActS ({ st with
      _registeredCommands := 1
      _completedCommands := 0
      cancelCommands := some cs
      _commandSetCallback := some cs
      response :=
        (Function.update st.response cs.wrapper.id
          { error := Val.undefined, data := Val.undefined, args := none }) }.out
      (Output.validateCalled cs.wrapper args hook)) :=
    fun hook => hheld
  have hf2 : ∀ hook, ∀ o ∈ st.outputs ++ [Output.validateCalled cs.wrapper args hook],
      ∀ i, o.starts i = true → i < cs.wrapper.id := by
    intro hook o ho i hs
    rcases List.mem_append.mp ho with h1 | h1
    · exact hf o h1 i hs
    · rw [List.mem_singleton.mp h1] at hs
      cases hs
  cases validate with
  | none =>
    unfold execCommandSet
    obtain ⟨a1, a2, a3⟩ := callFn_act cfg hk cs.wrapper fn which args
      { st with
        _registeredCommands := 1
        _completedCommands := 0
        cancelCommands := some cs
        _commandSetCallback := some cs
        response :=
          (Function.update st.response cs.wrapper.id
            { error := Val.undefined, data := Val.undefined, args := none }) }
      ⟨h, hheld⟩ hheld hcmd hf
    exact ⟨a1, a2, a3⟩
  | some v =>
    cases v with
    | throws e =>
      unfold execCommandSet
      obtain ⟨a1, a2, a3⟩ := onCompletion_act cfg hk cs.wrapper.id e Val.undefined none _
        (hA (ValidateHook.throws e)) (hB (ValidateHook.throws e))
      exact ⟨a1, a2, a3⟩
    | returns v =>
      unfold execCommandSet
      simp only []
      by_cases hv2 : v ≠ Val.bool true ∧ v ≠ Val.undefined
      · rw [if_pos hv2]
        obtain ⟨a1, a2, a3⟩ := onCompletion_act cfg hk cs.wrapper.id
          (if v.truthy = true then v else Val.null) Val.undefined none _
          (hA (ValidateHook.returns v)) (hB (ValidateHook.returns v))
        exact ⟨a1, a2, a3⟩
      · rw [if_neg hv2]
        obtain ⟨a1, a2, a3⟩ := callFn_act cfg hk cs.wrapper fn which args _
          (hA (ValidateHook.returns v)) (hB (ValidateHook.returns v)) hcmd
          (hf2 (ValidateHook.returns v))
        exact ⟨a1, a2, a3⟩


/-- A completion delivered to the current command after outputs that start nothing keeps
the activity invariant. -/
theorem callback_fresh_act (cfg : Config) {k : State → State} (hk : KeepsAct k)
    (item : Item) (err msg : Val) (argus : Option (List Val)) (st st1 : State)
    (l : List Output) (h : Act st._queue st.nextId st.outputs st._command)
    (hcmd : st._command = some item) (hcanc : st.cancelCommands = none)
    (hl : ∀ o ∈ l, (∀ j, o.starts j = false) ∧ o.id = item.id)
    (hq : st1._queue = st._queue) (hn : st1.nextId = st.nextId)
    (hc : st1.cancelCommands = st.cancelCommands)
    (hs : st1._commandSetCallback = st._commandSetCallback)
    (ho : st1.outputs = st.outputs ++ l) (hm : st1._command = st._command) :
    ActW (callback cfg k item err msg argus st1) ∧
      Frame st (callback cfg k item err msg argus st1) ∧
      (st._commandSetCallback = none → ActS (callback cfg k item err msg argus st1)) := by
  have hb : Below st._queue st.nextId item.id := h.cur _ hcmd
  have h1 : Act st1._queue st1.nextId st1.outputs st1._command := by
    rw [hq, hn, ho, hm]
    exact h.act_append l (fun o ho => ⟨(hl o ho).1, by rw [(hl o ho).2]; exact hb⟩)
  have hact : ∀ i, active st1.outputs i → i = item.id := by
    intro i hi
    rw [ho] at hi
    obtain ⟨it, h2, h3⟩ := h.act i (active_of_append (fun o ho => (hl o ho).1 i) hi)
    rw [hcmd] at h2
    cases h2
    exact h3.symm
  obtain ⟨h2, h3, h4⟩ := callback_act cfg hk item err msg argus st1 h1 (by rw [hc]; exact hcanc)
    hact (by rw [hq, hn]; exact hb)
  refine ⟨h2, ?_, fun hn2 => h4 (by rw [hs]; exact hn2)⟩
  unfold Frame at *
  rw [hq, hn] at h3
  exact h3

theorem invoke_act (cfg : Config) {k : State → State} (hk : KeepsAct k) (item : Item)
    (match_ : CommandObject) (pipes : List CommandObject) (validate : Option ValidateHook)
    (fn : Action) (which : Fn) (args : Args) (st : State)
    (h : Act st._queue st.nextId st.outputs st._command) (hcmd : st._command = some item)
    (hcanc : st.cancelCommands = none)
    (hf : ∀ o ∈ st.outputs, ∀ i, o.starts i = true → i < item.id) :
    ActW (invoke cfg k item match_ pipes validate fn which args st) ∧
      Frame st (invoke cfg k item match_ pipes validate fn which args st) ∧
      (st._commandSetCallback = none →
        ActS (invoke cfg k item match_ pipes validate fn which args st)) := by
  have hasync : ActW (execCommandSet cfg k { wrapper := item, chain := match_ :: pipes }
        validate fn which args st) ∧
      Frame st (execCommandSet cfg k { wrapper := item, chain := match_ :: pipes }
        validate fn which args st) ∧
      (st._commandSetCallback = none → ActS (execCommandSet cfg k
        { wrapper := item, chain := match_ :: pipes } validate fn which args st)) := by
    obtain ⟨h1, h2, h3⟩ := execCommandSet_act cfg hk { wrapper := item, chain := match_ :: pipes }
      validate fn which args st h hcmd hf
    exact ⟨h1, h2, fun _ => h3⟩
  unfold invoke
  cases hs : item.style with
  | sync f =>
    simp only []
    have h0 : Act st._queue st.nextId st.outputs (some item) := hcmd ▸ h
    have h1 : Act st._queue st.nextId (st.outputs ++ [Output.fnCalled item.id which args])
        st._command := by
      rw [hcmd]
      exact h0.start which args hf
    have hact : ∀ i, active (st.outputs ++ [Output.fnCalled item.id which args]) i →
        i = item.id := by
      intro i hi
      obtain ⟨it, h2, h3⟩ := h1.act i hi
      rw [hcmd] at h2
      cases h2
      exact h3.symm
    have key : ∀ (err msg : Val),
        ActW (callback cfg k item err msg none (st.out (Output.fnCalled item.id which args))) ∧
        Frame st (callback cfg k item err msg none
          (st.out (Output.fnCalled item.id which args))) ∧
        (st._commandSetCallback = none → ActS (callback cfg k item err msg none
          (st.out (Output.fnCalled item.id which args)))) := by
      intro err msg
      obtain ⟨h2, h3, h4⟩ := callback_act cfg hk item err msg none
        (st.out (Output.fnCalled item.id which args)) h1 hcanc hact (h.cur _ hcmd)
      exact ⟨h2, h3, h4⟩
    cases fn.sync <;> exact key _ _
  | callback => exact hasync
  | promise => exact hasync

theorem exec_act (cfg : Config) {k : State → State} (hk : KeepsAct k) (item : Item)
    (st : State) (h : Act st._queue st.nextId st.outputs st._command)
    (hcmd : st._command = some item) (hcanc : st.cancelCommands = none)
    (hf : ∀ o ∈ st.outputs, ∀ i, o.starts i = true → i < item.id) :
    ActW (_exec cfg k item st) ∧ Frame st (_exec cfg k item st) ∧
      (st._commandSetCallback = none → ActS (_exec cfg k item st)) := by
  have hhelp : ∀ o ∈ [Output.helpLogged item.id],
      (∀ j, o.starts j = false) ∧ o.id = item.id := by
    intro o ho
    rw [List.mem_singleton.mp ho]; exact ⟨fun j => rfl, rfl⟩
  have hexit : ∀ o ∈ [Output.emitted Emitted.mode_exit item.id],
      (∀ j, o.starts j = false) ∧ o.id = item.id := by
    intro o ho
    rw [List.mem_singleton.mp ho]; exact ⟨fun j => rfl, rfl⟩
  have hinv : ∀ (st1 : State), Same st st1 → ∀ (match_ : CommandObject)
      (pipes : List CommandObject) (validate : Option ValidateHook) (fn : Action)
      (which : Fn) (args : Args),
      ActW (invoke cfg k item match_ pipes validate fn which args st1) ∧
      Frame st (invoke cfg k item match_ pipes validate fn which args st1) ∧
      (st._commandSetCallback = none →
        ActS (invoke cfg k item match_ pipes validate fn which args st1)) := by
    intro st1 hs match_ pipes validate fn which args
    obtain ⟨s1, s2, s3, s4, s5, s6⟩ := hs
    obtain ⟨h1, h2, h3⟩ := invoke_act cfg hk item match_ pipes validate fn which args st1
      (by rw [s1, s2, s5, s6]; exact h) (by rw [s6]; exact hcmd) (by rw [s3]; exact hcanc)
      (by rw [s5]; exact hf)
    refine ⟨h1, ?_, fun hn => h3 (by rw [s4]; exact hn)⟩
    unfold Frame at *
    rw [s1, s2] at h2
    exact h2
  have key : ∀ P : State → Prop,
      (∀ r, (ActW r ∧ Frame st r ∧ (st._commandSetCallback = none → ActS r)) → P r) →
        P (_exec cfg k item st) := by
    intro P hP
    unfold _exec
    simp only []
    split
    · exact hP _ (callback_fresh_act cfg hk item _ _ _ st (st.out (Output.helpLogged item.id))
        [Output.helpLogged item.id] h hcmd hcanc hhelp rfl rfl rfl rfl rfl rfl)
    · rename_i msg _
      split_ifs
      · refine hP _ (callback_fresh_act cfg hk item _ _ _ st
          ((st.out (Output.logged item.id msg)).out (Output.helpLogged item.id))
          [Output.logged item.id msg, Output.helpLogged item.id] h hcmd hcanc ?_
          rfl rfl rfl rfl ?_ rfl)
        · intro o ho
          simp only [List.mem_cons, List.mem_singleton, List.not_mem_nil, or_false] at ho
          rcases ho with h1 | h1 <;> (rw [h1]; exact ⟨fun j => rfl, rfl⟩)
        · simp [State.out]
      · exact hP _ (callback_fresh_act cfg hk item _ _ _ st
          (st.out (Output.helpLogged item.id))
          [Output.helpLogged item.id] h hcmd hcanc hhelp rfl rfl rfl rfl rfl rfl)
    · rename_i msg _
      split_ifs
      · refine hP _ (callback_fresh_act cfg hk item _ _ _ st
          ((st.out (Output.logged item.id msg)).out (Output.helpLogged item.id))
          [Output.logged item.id msg, Output.helpLogged item.id] h hcmd hcanc ?_
          rfl rfl rfl rfl ?_ rfl)
        · intro o ho
          simp only [List.mem_cons, List.mem_singleton, List.not_mem_nil, or_false] at ho
          rcases ho with h1 | h1 <;> (rw [h1]; exact ⟨fun j => rfl, rfl⟩)
        · simp [State.out]
      · exact hP _ (callback_fresh_act cfg hk item _ _ _ st
          (st.out (Output.helpLogged item.id))
          [Output.helpLogged item.id] h hcmd hcanc hhelp rfl rfl rfl rfl rfl rfl)
    · rename_i name match_ help pipes hparse
      split
      · exact hP _ (callback_fresh_act cfg hk item _ _ _ st
          (st.out (Output.helpLogged item.id))
          [Output.helpLogged item.id] h hcmd hcanc hhelp rfl rfl rfl rfl rfl rfl)
      · by_cases h1 : match_._mode = true ∧ activeMode st = none
        · rw [if_pos h1]
          exact hP _ (hinv _ (same_modeDelimiter _ _ st) _ _ _ _ _ _)
        · rw [if_neg h1]
          by_cases h2 : (activeMode st).isSome = true
          · rw [if_pos h2]
            by_cases h3 : trim item.command = ofString "exit"
            · rw [if_pos h3]
              exact hP _ (callback_fresh_act cfg hk item _ _ _ st (_exitMode item.id st)
                [Output.emitted Emitted.mode_exit item.id] h hcmd hcanc hexit
                rfl rfl rfl rfl rfl rfl)
            · rw [if_neg h3]
              exact hP _ (hinv st ⟨rfl, rfl, rfl, rfl, rfl, rfl⟩ _ _ _ _ _ _)
          · rw [if_neg h2]
            exact hP _ (hinv st ⟨rfl, rfl, rfl, rfl, rfl, rfl⟩ _ _ _ _ _ _)
  exact key _ (fun r hr => hr)

theorem queueHandler_act (cfg : Config) (n : Nat) : KeepsAct (_queueHandler cfg n) := by
  induction n with
  | zero => intro st h; exact ⟨h, Frame.refl st, fun hr => hr⟩
  | succ n ih =>
    intro st h
    unfold _queueHandler
    split
    · rename_i item rest hq hc
      have hpop : Act (item :: rest) st.nextId st.outputs none := by
        rw [← hq, ← hc]; exact h.1
      obtain ⟨p1, p2⟩ := hpop.act_pop
      have hsub : ∀ j ∈ queuedIds rest, j ∈ queuedIds st._queue := by
        intro j hj
        rw [hq]
        exact List.mem_cons_of_mem _ hj
      have hcanc : st.cancelCommands = none := by
        cases hcc : st.cancelCommands with
        | none => rfl
        | some cs =>
          have := h.2 cs hcc
          rw [hc] at this
          cases this
      obtain ⟨h2, h3, h4⟩ := exec_act cfg ih item
        { st with _queue := rest, _command := some item } p1 rfl hcanc
        (fun o ho i hs => by rw [← starts_id hs]; exact p2 o ho)
      refine ⟨h2, ⟨h3.1, fun j hj => hsub j (h3.2 j hj)⟩, ?_⟩
      intro hr
      apply h4
      cases hcc : st._commandSetCallback with
      | none => rfl
      | some cs =>
        have := hr cs hcc
        rw [hc] at this
        cases this
    · exact ⟨h, Frame.refl st, fun hr => hr⟩

theorem step_act (cfg : Config) (st : State) (ev : Event) (hev : ev.isExecSync = false)
    (h : ActW st) (hr : ActS st) : ActW (step cfg st ev) ∧ ActS (step cfg st ev) := by
  cases ev with
  | exec cmd cb =>
    simp only [step]
    generalize hitem : ({
      id := st.nextId
      command := cmd
      style := if cb = true then Style.callback else Style.promise } : Item) = item
    have hid : item.id = st.nextId := by rw [← hitem]
    have h1 : ActW { st with _queue := st._queue ++ [item], nextId := st.nextId + 1 } :=
      ⟨h.1.act_push _ hid, h.2⟩
    obtain ⟨h2, _, h4⟩ := queueHandler_act cfg _ _ h1
    exact ⟨h2, h4 hr⟩
  | execSync cmd fatal => cases hev
  | actionCallback id args =>
    simp only [step]
    split_ifs
    · obtain ⟨h2, _, h4⟩ := onCompletion_act cfg (queueHandler_act cfg _) id
        (args.getD 0 Val.undefined) (args.getD 1 Val.undefined) (some args) st h hr
      exact ⟨h2, h4⟩
    · exact ⟨h, hr⟩
  | promiseResolved id data =>
    simp only [step]
    split_ifs
    · obtain ⟨h2, _, h4⟩ := onCompletion_act cfg (queueHandler_act cfg _) id
        Val.undefined data none { st with settled := Function.update st.settled id true } h hr
      exact ⟨h2, h4⟩
    · exact ⟨h, hr⟩
  | promiseRejected id err =>
    simp only [step]
    split_ifs
    · obtain ⟨h2, _, h4⟩ := onCompletion_act cfg (queueHandler_act cfg _) id
        (Val.bool true) err none { st with settled := Function.update st.settled id true } h hr
      exact ⟨h2, h4⟩
    · exact ⟨h, hr⟩
  | cancelCommands =>
    obtain ⟨h2, _, h4⟩ := cancel_act cfg (queueHandler_act cfg (st._queue.length + 1)) st h hr
    exact ⟨h2, h4⟩
  | registerCommand => exact ⟨h, hr⟩
  | completeCommand =>
    obtain ⟨h2, _, h4⟩ := completeCommand_act cfg (queueHandler_act cfg (st._queue.length + 1))
      st h hr
    exact ⟨h2, h4⟩

theorem init_act (cfg : Config) : ActW (State.init cfg) ∧ ActS (State.init cfg) := by
  refine ⟨⟨⟨List.Pairwise.nil, ?_, ?_, ?_, ?_, ?_⟩, HeldA.heldA_none _⟩, HeldA.heldA_none _⟩
  · intro j hj; cases hj
  · intro o ho; cases ho
  · intro it hit; cases hit
  · intro i hi
    obtain ⟨⟨o, ho, _⟩, _⟩ := hi
    cases ho
  · intro pre j w a hp
    have := hp.length_le
    simp [State.init] at this

theorem foldl_step_act (cfg : Config) (events : List Event)
    (hev : ∀ ev ∈ events, ev.isExecSync = false) (st : State) (h : ActW st) (hr : ActS st) :
    ActW (events.foldl (step cfg) st) ∧ ActS (events.foldl (step cfg) st) := by
  induction events generalizing st with
  | nil => exact ⟨h, hr⟩
  | cons ev evs ih =>
    obtain ⟨h1, h2⟩ := step_act cfg st ev (hev ev (List.mem_cons_self _ _)) h hr
    exact ih (fun e he => hev e (List.mem_cons_of_mem _ he)) _ h1 h2


/-! ### The queue never grows inside the engine -/

theorem continueWith_shrinks {k : State → State} (hk : Shrinks k) (cmd : Item) :
    Shrinks (continueWith k cmd) := by
  intro st L h
  unfold continueWith
  cases cmd.style with
  | sync f => exact h
  | callback => exact hk st L h
  | promise => exact hk st L h

theorem callback_shrinks (cfg : Config) {k : State → State} (hk : Shrinks k) (cmd : Item)
    (err msg : Val) (argus : Option (List Val)) (st : State) (L : Nat)
    (h : st._queue.length ≤ L) :
    (callback cfg k cmd err msg argus st)._queue.length ≤ L := by
  rw [callback_eq]
  exact continueWith_shrinks hk cmd _ L h

theorem commandSetCallback_shrinks (cfg : Config) {k : State → State} (hk : Shrinks k)
    (cs : CommandSet) (st : State) (L : Nat) (h : st._queue.length ≤ L) :
    (commandSetCallback cfg k cs st)._queue.length ≤ L := by
  unfold commandSetCallback
  apply callback_shrinks cfg hk
  simp only [State.out]
  split_ifs
  · exact h
  · exact h

theorem completeCommand_shrinks (cfg : Config) {k : State → State} (hk : Shrinks k) (st : State)
    (L : Nat) (h : st._queue.length ≤ L) :
    (completeCommand cfg k st)._queue.length ≤ L := by
  unfold completeCommand
  simp only []
  split_ifs
  · cases hcs : st._commandSetCallback with
    | none => simpa [hcs] using h
    | some cs =>
      simp only [hcs]
      exact commandSetCallback_shrinks cfg hk cs _ L h
  · exact h

theorem onCompletion_shrinks (cfg : Config) {k : State → State} (hk : Shrinks k) (id : Nat)
    (err data : Val) (argus : Option (List Val)) (st : State) (L : Nat)
    (h : st._queue.length ≤ L) :
    (onCompletion cfg k id err data argus st)._queue.length ≤ L := by
  unfold onCompletion
  exact completeCommand_shrinks cfg hk _ L h

theorem cancelCommandsOf_shrinks (cfg : Config) {k : State → State} (hk : Shrinks k)
    (cs : CommandSet) (st : State) (L : Nat) (h : st._queue.length ≤ L) :
    (cancelCommandsOf cfg k cs st)._queue.length ≤ L := by
  unfold cancelCommandsOf
  apply callback_shrinks cfg hk
  simp only [State.out]
  split_ifs
  · exact h
  · exact h

theorem cancel_shrinks (cfg : Config) {k : State → State} (hk : Shrinks k) (st : State)
    (L : Nat) (h : st._queue.length ≤ L) :
    (cancel cfg k st)._queue.length ≤ L := by
  unfold cancel
  cases st.cancelCommands with
  | none => exact h
  | some cs => exact cancelCommandsOf_shrinks cfg hk cs st L h

theorem runOp_shrinks (cfg : Config) {k : State → State} (hk : Shrinks k) (id : Nat) (st : State)
    (op : Op) (L : Nat) (h : st._queue.length ≤ L) :
    (runOp cfg k id st op)._queue.length ≤ L := by
  cases op with
  | callback args => exact onCompletion_shrinks cfg hk _ _ _ _ _ L h
  | registerCommand => exact h
  | completeCommand => exact completeCommand_shrinks cfg hk _ L h
  | cancel => exact cancel_shrinks cfg hk _ L h

theorem runOps_shrinks (cfg : Config) {k : State → State} (hk : Shrinks k) (id : Nat)
    (ops : List Op) (st : State) (L : Nat) (h : st._queue.length ≤ L) :
    (ops.foldl (runOp cfg k id) st)._queue.length ≤ L := by
  induction ops generalizing st with
  | nil => exact h
  | cons op ops ih => exact ih _ (runOp_shrinks cfg hk id st op L h)

theorem callFn_shrinks (cfg : Config) {k : State → State} (hk : Shrinks k) (id : Nat)
    (fn : Action) (which : Fn) (args : Args) (st : State) (L : Nat)
    (h : st._queue.length ≤ L) :
    (callFn cfg k id fn which args st)._queue.length ≤ L := by
  unfold callFn
  have h2 := runOps_shrinks cfg hk id fn.ops
    { st.out (Output.fnCalled id which args) with started := Function.update st.started id true }
    L h
  cases fn.ret <;> exact h2

theorem execCommandSet_shrinks (cfg : Config) {k : State → State} (hk : Shrinks k)
    (cs : CommandSet) (validate : Option ValidateHook) (fn : Action) (which : Fn) (args : Args)
    (st : State) (L : Nat) (h : st._queue.length ≤ L) :
    (execCommandSet cfg k cs validate fn which args st)._queue.length ≤ L := by
  unfold execCommandSet
  cases validate with
  | none =>
    apply callFn_shrinks cfg hk
    exact h
  | some v =>
    cases v with
    | throws e =>
      apply onCompletion_shrinks cfg hk
      exact h
    | returns v =>
      simp only []
      split_ifs <;> first
        | exact onCompletion_shrinks cfg hk _ _ _ _ _ L h
        | exact callFn_shrinks cfg hk _ _ _ _ _ L
            h

theorem invoke_shrinks (cfg : Config) {k : State → State} (hk : Shrinks k) (item : Item)
    (match_ : CommandObject) (pipes : List CommandObject) (validate : Option ValidateHook)
    (fn : Action) (which : Fn) (args : Args) (st : State) (L : Nat)
    (h : st._queue.length ≤ L) :
    (invoke cfg k item match_ pipes validate fn which args st)._queue.length ≤ L := by
  unfold invoke
  cases hs : item.style with
  | sync f =>
    simp only []
    cases fn.sync <;>
      exact callback_shrinks cfg hk _ _ _ _ _ L h
  | callback => exact execCommandSet_shrinks cfg hk _ _ _ _ _ _ L h
  | promise => exact execCommandSet_shrinks cfg hk _ _ _ _ _ _ L h

theorem exec_shrinks (cfg : Config) {k : State → State} (hk : Shrinks k) (item : Item)
    (st : State) (L : Nat) (h : st._queue.length ≤ L) :
    (_exec cfg k item st)._queue.length ≤ L := by
  unfold _exec
  simp only []
  split
  · exact callback_shrinks cfg hk _ _ _ _ _ L h
  · apply callback_shrinks cfg hk
    simp only [State.out]
    split_ifs <;> exact h
  · apply callback_shrinks cfg hk
    simp only [State.out]
    split_ifs <;> exact h
  · split
    · exact callback_shrinks cfg hk _ _ _ _ _ L h
    · split_ifs <;> first
        | exact invoke_shrinks cfg hk _ _ _ _ _ _ _ _ L h
        | exact callback_shrinks cfg hk _ _ _ _ _ L h
        | (apply invoke_shrinks cfg hk
           unfold modeDelimiter
           split_ifs <;> exact h)

theorem execQueueItem_shrinks (cfg : Config) {k : State → State} (hk : Shrinks k) (item : Item)
    (st : State) (L : Nat) (h : st._queue.length ≤ L) :
    (_execQueueItem cfg k item st)._queue.length ≤ L :=
  exec_shrinks cfg hk item _ L h

theorem queueHandler_shrinks (cfg : Config) (n : Nat) : Shrinks (_queueHandler cfg n) := by
  induction n with
  | zero => intro st L h; exact h
  | succ n ih =>
    intro st L h
    unfold _queueHandler
    split
    · rename_i item rest hq hc
      refine execQueueItem_shrinks cfg ih _ _ L ?_
      rw [hq] at h
      exact Nat.le_of_succ_le h
    · exact h


/-! ### The nesting bound of the queue handler -/

theorem continueWith_agree {L : Nat} {k1 k2 : State → State} (ha : AgreeOn L k1 k2)
    (cmd : Item) : AgreeOn L (continueWith k1 cmd) (continueWith k2 cmd) := by
  intro st h
  unfold continueWith
  cases cmd.style with
  | sync f => rfl
  | callback => exact ha st h
  | promise => exact ha st h

theorem callback_agree (cfg : Config) {L : Nat} {k1 k2 : State → State}
    (ha : AgreeOn L k1 k2) (cmd : Item) (err msg : Val) (argus : Option (List Val))
    (st : State) (h : st._queue.length ≤ L) :
    callback cfg k1 cmd err msg argus st = callback cfg k2 cmd err msg argus st := by
  rw [callback_eq, callback_eq]
  exact continueWith_agree ha cmd _ h

theorem commandSetCallback_agree (cfg : Config) {L : Nat} {k1 k2 : State → State}
    (ha : AgreeOn L k1 k2) (cs : CommandSet) (st : State) (h : st._queue.length ≤ L) :
    commandSetCallback cfg k1 cs st = commandSetCallback cfg k2 cs st := by
  unfold commandSetCallback
  simp only []
  rw [callback_agree cfg ha]
  simp only [State.out]
  split_ifs <;> exact h

theorem completeCommand_agree (cfg : Config) {L : Nat} {k1 k2 : State → State}
    (ha : AgreeOn L k1 k2) (st : State) (h : st._queue.length ≤ L) :
    completeCommand cfg k1 st = completeCommand cfg k2 st := by
  unfold completeCommand
  simp only []
  split_ifs
  · cases hcs : st._commandSetCallback with
    | none => rfl
    | some cs =>
      simp only []
      rw [commandSetCallback_agree cfg ha]
      exact h
  · rfl

theorem onCompletion_agree (cfg : Config) {L : Nat} {k1 k2 : State → State}
    (ha : AgreeOn L k1 k2) (id : Nat) (err data : Val) (argus : Option (List Val))
    (st : State) (h : st._queue.length ≤ L) :
    onCompletion cfg k1 id err data argus st = onCompletion cfg k2 id err data argus st := by
  unfold onCompletion
  exact completeCommand_agree cfg ha _ h

theorem cancelCommandsOf_agree (cfg : Config) {L : Nat} {k1 k2 : State → State}
    (ha : AgreeOn L k1 k2) (cs : CommandSet) (st : State) (h : st._queue.length ≤ L) :
    cancelCommandsOf cfg k1 cs st = cancelCommandsOf cfg k2 cs st := by
  unfold cancelCommandsOf
  simp only []
  apply callback_agree cfg ha
  simp only [State.out]
  split_ifs <;> exact h

theorem cancel_agree (cfg : Config) {L : Nat} {k1 k2 : State → State}
    (ha : AgreeOn L k1 k2) (st : State) (h : st._queue.length ≤ L) :
    cancel cfg k1 st = cancel cfg k2 st := by
  unfold cancel
  cases st.cancelCommands with
  | none => rfl
  | some cs => exact cancelCommandsOf_agree cfg ha cs st h

theorem runOp_agree (cfg : Config) {L : Nat} {k1 k2 : State → State}
    (ha : AgreeOn L k1 k2) (id : Nat) (st : State) (op : Op) (h : st._queue.length ≤ L) :
    runOp cfg k1 id st op = runOp cfg k2 id st op := by
  cases op with
  | callback args => exact onCompletion_agree cfg ha _ _ _ _ _ h
  | registerCommand => rfl
  | completeCommand => exact completeCommand_agree cfg ha _ h
  | cancel => exact cancel_agree cfg ha _ h

theorem runOps_agree (cfg : Config) {L : Nat} {k1 k2 : State → State} (hs : Shrinks k1)
    (ha : AgreeOn L k1 k2) (id : Nat) (ops : List Op) (st : State)
    (h : st._queue.length ≤ L) :
    ops.foldl (runOp cfg k1 id) st = ops.foldl (runOp cfg k2 id) st := by
  induction ops generalizing st with
  | nil => rfl
  | cons op ops ih =>
    simp only [List.foldl_cons]
    rw [← runOp_agree cfg ha id st op h]
    exact ih _ (runOp_shrinks cfg hs id st op L h)

theorem callFn_agree (cfg : Config) {L : Nat} {k1 k2 : State → State} (hs : Shrinks k1)
    (ha : AgreeOn L k1 k2) (id : Nat) (fn : Action) (which : Fn) (args : Args) (st : State)
    (h : st._queue.length ≤ L) :
    callFn cfg k1 id fn which args st = callFn cfg k2 id fn which args st := by
  unfold callFn
  have h1 := runOps_agree cfg hs ha id fn.ops
    { st.out (Output.fnCalled id which args) with started := Function.update st.started id true }
    h
  simp only []
  rw [h1]

theorem execCommandSet_agree (cfg : Config) {L : Nat} {k1 k2 : State → State}
    (hs : Shrinks k1) (ha : AgreeOn L k1 k2) (cs : CommandSet)
    (validate : Option ValidateHook) (fn : Action) (which : Fn) (args : Args) (st : State)
    (h : st._queue.length ≤ L) :
    execCommandSet cfg k1 cs validate fn which args st =
      execCommandSet cfg k2 cs validate fn which args st := by
  unfold execCommandSet
  cases validate with
  | none => exact callFn_agree cfg hs ha _ _ _ _ _ h
  | some v =>
    cases v with
    | throws e => exact onCompletion_agree cfg ha _ _ _ _ _ h
    | returns v =>
      simp only []
      split_ifs <;> first
        | exact onCompletion_agree cfg ha _ _ _ _ _ h
        | exact callFn_agree cfg hs ha _ _ _ _ _ h

theorem invoke_agree (cfg : Config) {L : Nat} {k1 k2 : State → State} (hs : Shrinks k1)
    (ha : AgreeOn L k1 k2) (item : Item) (match_ : CommandObject)
    (pipes : List CommandObject) (validate : Option ValidateHook) (fn : Action) (which : Fn)
    (args : Args) (st : State) (h : st._queue.length ≤ L) :
    invoke cfg k1 item match_ pipes validate fn which args st =
      invoke cfg k2 item match_ pipes validate fn which args st := by
  unfold invoke
  cases hst : item.style with
  | sync f =>
    simp only []
    cases fn.sync <;> exact callback_agree cfg ha _ _ _ _ _ h
  | callback => exact execCommandSet_agree cfg hs ha _ _ _ _ _ _ h
  | promise => exact execCommandSet_agree cfg hs ha _ _ _ _ _ _ h

theorem exec_agree (cfg : Config) {L : Nat} {k1 k2 : State → State} (hs : Shrinks k1)
    (ha : AgreeOn L k1 k2) (item : Item) (st : State) (h : st._queue.length ≤ L) :
    _exec cfg k1 item st = _exec cfg k2 item st := by
  unfold _exec
  simp only []
  split
  · exact callback_agree cfg ha _ _ _ _ _ h
  · apply callback_agree cfg ha
    simp only [State.out]
    split_ifs <;> exact h
  · apply callback_agree cfg ha
    simp only [State.out]
    split_ifs <;> exact h
  · split
    · exact callback_agree cfg ha _ _ _ _ _ h
    · split_ifs <;> first
        | exact invoke_agree cfg hs ha _ _ _ _ _ _ _ _ h
        | exact callback_agree cfg ha _ _ _ _ _ h
        | (apply invoke_agree cfg hs ha
           unfold modeDelimiter
           split_ifs <;> exact h)

/-- Enough fuel: with more nesting allowed than the queue has entries, the queue handler
does not depend on the bound. -/
theorem queueHandler_fuel (cfg : Config) (n : Nat) :
    ∀ (m : Nat) (st : State), st._queue.length < n → st._queue.length < m →
      _queueHandler cfg n st = _queueHandler cfg m st := by
  induction n with
  | zero => intro m st h1; omega
  | succ n ih =>
    intro m st h1 h2
    cases m with
    | zero => omega
    | succ m =>
      unfold _queueHandler
      split
      · rename_i item rest hq hc
        rw [hq] at h1 h2
        simp only [List.length_cons] at h1 h2
        unfold _execQueueItem
        refine exec_agree cfg (queueHandler_shrinks cfg n) ?_ item _ (Nat.le_refl rest.length)
        intro s hs
        exact ih m s (by omega) (by omega)
      · rfl

/-- The bound used by the engine's functions is enough for every state whose queue is not
longer than the queue of the state in which the handler was made. -/
theorem handler_fuel (cfg : Config) (st s : State) (n : Nat)
    (h : s._queue.length ≤ st._queue.length) (hn : st._queue.length < n) :
    _queueHandler cfg n s = handler cfg st s :=
  queueHandler_fuel cfg n (st._queue.length + 1) s (by omega) (by omega)

/-! ## Claims about the execution engine -/

/-- C9 fails on the code: request 1 is queued behind request 0 and is started inside the
completion callback of request 0; when `completeCommand` returns from that callback it sets
`_commandSetCallback` to `undefined`.  The action of request 1 then completes, which makes
the completed counter equal to the registered counter 1, and no fan-in fires: request 1 is
never delivered. -/
theorem queued_request_never_completes :
    (run exampleConfig [Event.exec (ofString "slow") true, Event.exec (ofString "slow") true,
        Event.actionCallback 0 []])._registeredCommands = 1 ∧
      (run exampleConfig [Event.exec (ofString "slow") true, Event.exec (ofString "slow") true,
        Event.actionCallback 0 []])._completedCommands = 0 ∧
      (run exampleConfig [Event.exec (ofString "slow") true, Event.exec (ofString "slow") true,
        Event.actionCallback 0 []])._commandSetCallback = none ∧
      (run exampleConfig [Event.exec (ofString "slow") true, Event.exec (ofString "slow") true,
        Event.actionCallback 0 [], Event.actionCallback 1 []]).outputs =
        [Output.fnCalled 0 Fn.action Args.parsed,
          Output.emitted Emitted.client_command_executed 0,
          Output.callerCallback 0 [],
          Output.fnCalled 1 Fn.action Args.parsed,
          Output.doneCalled 0 0] := by
  decide

/-- C10 fails on the code: request 0 is cancelled, which starts the queued request 1; the
cancelled action then calls its completion callback, and this calls back the caller of
request 1, whose own action has not completed. -/
theorem stale_completion_calls_back_next_request :
    (run exampleConfig [Event.exec (ofString "slow") true, Event.exec (ofString "slow") true,
        Event.cancelCommands]).outputs =
        [Output.fnCalled 0 Fn.action Args.parsed,
          Output.cancelCalled 0 0,
          Output.emitted Emitted.client_command_cancelled 0,
          Output.callerCallback 0 [Val.undefined, Val.undefined],
          Output.fnCalled 1 Fn.action Args.parsed] ∧
      (run exampleConfig [Event.exec (ofString "slow") true, Event.exec (ofString "slow") true,
        Event.cancelCommands, Event.actionCallback 0 [Val.undefined, Val.num 5]]).outputs =
        [Output.fnCalled 0 Fn.action Args.parsed,
          Output.cancelCalled 0 0,
          Output.emitted Emitted.client_command_cancelled 0,
          Output.callerCallback 0 [Val.undefined, Val.undefined],
          Output.fnCalled 1 Fn.action Args.parsed,
          Output.emitted Emitted.client_command_executed 1,
          Output.callerCallback 1 [Val.undefined, Val.undefined],
          Output.doneCalled 1 0] := by
  decide

/-- C13: for an `execSync` call whose line resolves to a command (in a mode the line goes
to the mode command as raw text) and that calls the action, that is, which neither enters a
mode nor is the `exit` of a mode nor asks for help: the action is called, and when it
returns `v`, `execSync` returns `v`; when it throws a truthy `e` (an Error), `execSync`
throws, namely `new Error(e)`, if and only if `options.fatal === true` or the engine's
`_fatal` flag is set, and otherwise returns `e` itself (a falsy thrown value is not seen as
an error: `execSync` returns `undefined`). -/
theorem execSync_returns_or_throws (cfg : Config) (st : State) (line : JSString) (fatal : Bool)
    (name : JSString) (c : CommandObject) (pipes : List CommandObject)
    (hparse : cfg.parseCommand (match activeMode st with
      | some m => m
      | none => line) = ParseOutcome.ok name c false pipes)
    (hentry : ¬(c._mode = true ∧ activeMode st = none))
    (hexit : (activeMode st).isSome = true → trim line ≠ ofString "exit") :
    (step cfg st (Event.execSync line fatal)).outputs =
      st.outputs ++
        [Output.fnCalled st.nextId Fn.action
            (if (activeMode st).isSome = true then Args.raw line else Args.parsed),
          match c._fn.sync with
          | SyncResult.returns v => Output.returned st.nextId v
          | SyncResult.throws e =>
            if e.truthy = true then
              if fatal = true ∨ cfg._fatal = true then Output.threw st.nextId (Val.newError e)
              else Output.returned st.nextId e
            else Output.returned st.nextId Val.undefined] := by
  cases hact : activeMode st with
  | none =>
    have hm : ∀ (cmd : Option Item) (n : Nat),
        activeMode { st with nextId := n, _command := cmd } = none := fun _ _ => hact
    simp only [hact] at hparse hentry
    have hc : c._mode = false := by simpa using hentry
    cases hs : c._fn.sync with
    | returns v =>
      simp [step, _execQueueItem, _exec, hm, hparse, hc, invoke, hs, callback, State.out,
        Val.truthy]
    | throws e =>
      by_cases htruthy : e.truthy = true
      · simp only [step, _execQueueItem, _exec, hm, hparse, hc, invoke, hs, callback, State.out,
          htruthy]
        by_cases hf : fatal = true ∨ cfg._fatal = true
        · simp [hf]
        · simp [hf]
      · simp [step, _execQueueItem, _exec, hm, hparse, hc, invoke, hs, callback, State.out,
          htruthy]
  | some m =>
    have hm : ∀ (cmd : Option Item) (n : Nat),
        activeMode { st with nextId := n, _command := cmd } = some m := fun _ _ => hact
    have hx : trim line ≠ ofString "exit" := hexit (by rw [hact]; rfl)
    simp only [hact] at hparse
    cases hs : c._fn.sync with
    | returns v =>
      simp [step, _execQueueItem, _exec, hm, hparse, hx, invoke, hs, callback, State.out,
        Val.truthy]
    | throws e =>
      by_cases htruthy : e.truthy = true
      · simp only [step, _execQueueItem, _exec, hm, hparse, hx, invoke, hs, callback, State.out,
          htruthy]
        by_cases hf : fatal = true ∨ cfg._fatal = true
        · simp [hf]
        · simp [hf]
      · simp [step, _execQueueItem, _exec, hm, hparse, hx, invoke, hs, callback, State.out,
          htruthy]

/-- Witness for C13: a synchronous `slow` returns what the action returns; a synchronous
`fail`, whose action throws the Error 9, returns the Error without the fatal option and
throws a new Error made from it with the fatal option. -/
theorem execSync_returns_or_throws_witness :
    (step sampleConfig (State.init sampleConfig) (Event.execSync (ofString "slow") false)).outputs =
        [Output.fnCalled 0 Fn.action Args.parsed, Output.returned 0 Val.undefined] ∧
      (step sampleConfig (State.init sampleConfig)
          (Event.execSync (ofString "fail") false)).outputs =
        [Output.fnCalled 0 Fn.action Args.parsed, Output.returned 0 (Val.obj 9)] ∧
      (step sampleConfig (State.init sampleConfig)
          (Event.execSync (ofString "fail") true)).outputs =
        [Output.fnCalled 0 Fn.action Args.parsed,
          Output.threw 0 (Val.newError (Val.obj 9))] :=
  ⟨execSync_returns_or_throws sampleConfig (State.init sampleConfig) (ofString "slow") false
      (ofString "slow") slowCommand [] (by decide) (by decide) (by decide),
    execSync_returns_or_throws sampleConfig (State.init sampleConfig) (ofString "fail") false
      (ofString "fail") throwingCommand [] (by decide) (by decide) (by decide),
    execSync_returns_or_throws sampleConfig (State.init sampleConfig) (ofString "fail") true
      (ofString "fail") throwingCommand [] (by decide) (by decide) (by decide)⟩

/-- C8: after every sequence of engine events, which include the start of a command set
(`exec`), `registerCommand`, `completeCommand` and `cancelCommands` (directly, from a running
action, or nested inside a completion callback), the session's counters satisfy
`_registeredCommands >= _completedCommands >= 0`. -/
theorem counters_ordered (cfg : Config) (events : List Event) :
    0 ≤ (run cfg events)._completedCommands ∧
      (run cfg events)._completedCommands ≤ (run cfg events)._registeredCommands :=
  ⟨Nat.zero_le _, foldl_step_count cfg events (State.init cfg) (Nat.le_refl 0)⟩

/-- C7 as stated fails for `execSync`: issued while request 0 is active, the synchronous
request 1 is not queued, its action is called at once, and at that moment both requests are
active. -/
theorem execSync_starts_while_another_is_active :
    (run exampleConfig [Event.exec (ofString "slow") true,
        Event.execSync (ofString "slow") false]).outputs =
        [Output.fnCalled 0 Fn.action Args.parsed, Output.fnCalled 1 Fn.action Args.parsed] ++
          [Output.returned 1 Val.undefined] ∧
      active [Output.fnCalled 0 Fn.action Args.parsed, Output.fnCalled 1 Fn.action Args.parsed]
        0 ∧
      active [Output.fnCalled 0 Fn.action Args.parsed, Output.fnCalled 1 Fn.action Args.parsed]
        1 := by
  decide

/-- C7 (amended): in every run in which requests are issued through `exec` only, at every
moment at most one request is active; whenever a function of a request is called no request
is active; and functions are called in the order in which their requests were issued (ids
number the requests in that order). -/
theorem exec_requests_run_one_at_a_time (cfg : Config) (events : List Event)
    (hev : ∀ ev ∈ events, ev.isExecSync = false) :
    (∀ pre, pre <+: (run cfg events).outputs →
        ∀ i j, active pre i → active pre j → i = j) ∧
      (∀ pre j w a, pre ++ [Output.fnCalled j w a] <+: (run cfg events).outputs →
        (∀ i, ¬ active pre i) ∧ ∀ i w2 a2, Output.fnCalled i w2 a2 ∈ pre → i < j) := by
  obtain ⟨hy, _⟩ := foldl_step_act cfg events hev (State.init cfg) (init_act cfg).1
    (init_act cfg).2
  refine ⟨?_, ?_⟩
  · intro pre hp i j hi hj
    exact (hy.1.serial.mono hp).at_most_one hi hj
  · intro pre j w a hp
    obtain ⟨h1, h2⟩ := hy.1.serial pre j w a hp
    exact ⟨h1, fun i w2 a2 hm => h2 _ hm i (by simp [Output.starts])⟩

/-- Witness for C7 (amended): two requests issued back to back, then the completion of the
first. -/
theorem exec_requests_run_one_at_a_time_witness :
    (∀ pre, pre <+: (run exampleConfig [Event.exec (ofString "slow") true,
          Event.exec (ofString "slow") true, Event.actionCallback 0 []]).outputs →
        ∀ i j, active pre i → active pre j → i = j) ∧
      (∀ pre j w a, pre ++ [Output.fnCalled j w a] <+:
          (run exampleConfig [Event.exec (ofString "slow") true,
            Event.exec (ofString "slow") true, Event.actionCallback 0 []]).outputs →
        (∀ i, ¬ active pre i) ∧ ∀ i w2 a2, Output.fnCalled i w2 a2 ∈ pre → i < j) :=
  exec_requests_run_one_at_a_time exampleConfig
    [Event.exec (ofString "slow") true, Event.exec (ofString "slow") true,
      Event.actionCallback 0 []] (by decide)

/-- C11 as stated fails when a request is waiting: the cancellation calls back the caller,
which starts the waiting request, and when `cancelCommands` returns the registered counter
is 1 again. -/
theorem cancel_with_waiting_request_leaves_counter_one :
    (run exampleConfig [Event.exec (ofString "slow | slow") true,
        Event.exec (ofString "slow") true, Event.cancelCommands]).outputs =
        [Output.fnCalled 0 Fn.action Args.parsed,
          Output.cancelCalled 0 0,
          Output.cancelCalled 0 1,
          Output.emitted Emitted.client_command_cancelled 0,
          Output.callerCallback 0 [Val.undefined, Val.undefined],
          Output.fnCalled 1 Fn.action Args.parsed] ∧
      (run exampleConfig [Event.exec (ofString "slow | slow") true,
        Event.exec (ofString "slow") true, Event.cancelCommands])._registeredCommands = 1 := by
  decide

/-- C11 (amended): `cancelCommands` of an outstanding command set calls the cancel hook of
every stage that has one exactly once, in chain order from the root, then a `cancel` method
of the returned promise, resets both counters to zero and calls back the caller; the queue
handler `k` takes over from that state.  When no request is waiting the counters are zero
when `cancelCommands` returns. -/
theorem cancel_calls_hooks_in_chain_order (cfg : Config) (k : State → State) (st : State)
    (cs : CommandSet) (hcs : st.cancelCommands = some cs)
    (hasync : cs.wrapper.style = Style.callback ∨ cs.wrapper.style = Style.promise) :
    (∃ st' : State, cancel cfg k st = k st' ∧
      st'.outputs = st.outputs ++
        ((cs.chain.enum.filter (fun p => p.2._cancel)).map
          (fun p => Output.cancelCalled cs.wrapper.id p.1)) ++
        (if st.res cs.wrapper.id = some true then [Output.promiseCancelled cs.wrapper.id]
          else []) ++
        [Output.emitted Emitted.client_command_cancelled cs.wrapper.id,
          completionOutput cfg cs.wrapper Val.undefined Val.undefined none] ∧
      st'._registeredCommands = 0 ∧ st'._completedCommands = 0 ∧
      st'.cancelCommands = none ∧ st'._commandSetCallback = none ∧ st'._queue = st._queue) ∧
      (st._queue = [] → ∀ n,
        (cancel cfg (_queueHandler cfg n) st)._registeredCommands = 0 ∧
          (cancel cfg (_queueHandler cfg n) st)._completedCommands = 0) := by
  have hcont : continueWith k cs.wrapper = k := by
    unfold continueWith
    rcases hasync with h | h <;> rw [h]
  have key : ∀ k' : State → State, continueWith k' cs.wrapper = k' →
      cancel cfg k' st = k' { st with
        _command := none
        cancelCommands := none
        _commandSetCallback := none
        _registeredCommands := 0
        _completedCommands := 0
        outputs := st.outputs ++
          ((cs.chain.enum.filter (fun p => p.2._cancel)).map
            (fun p => Output.cancelCalled cs.wrapper.id p.1)) ++
          (if st.res cs.wrapper.id = some true then [Output.promiseCancelled cs.wrapper.id]
            else []) ++
          [Output.emitted Emitted.client_command_cancelled cs.wrapper.id,
            completionOutput cfg cs.wrapper Val.undefined Val.undefined none] } := by
    intro k' hk'
    unfold cancel
    rw [hcs]
    simp only [cancelCommandsOf, callback_eq, hk', hookCalls_eq, List.enum, State.out]
    congr 1
    by_cases hres : st.res cs.wrapper.id = some true <;> simp [hres]
  refine ⟨⟨_, key k hcont, rfl, rfl, rfl, rfl, rfl, rfl⟩, ?_⟩
  intro hq n
  have hcontq : continueWith (_queueHandler cfg n) cs.wrapper = _queueHandler cfg n := by
    unfold continueWith
    rcases hasync with h | h <;> rw [h]
  rw [key (_queueHandler cfg n) hcontq]
  cases n with
  | zero => exact ⟨rfl, rfl⟩
  | succ n =>
    unfold _queueHandler
    simp [hq]

/-- Witness for C11 (amended): cancelling the piped `slow | slow`. -/
theorem cancel_calls_hooks_in_chain_order_witness :
    (∃ st' : State,
      cancel exampleConfig (fun s => s)
          (run exampleConfig [Event.exec (ofString "slow | slow") true]) = (fun s => s) st' ∧
      st'.outputs = (run exampleConfig [Event.exec (ofString "slow | slow") true]).outputs ++
        ((pipedSet.chain.enum.filter (fun p => p.2._cancel)).map
          (fun p => Output.cancelCalled pipedSet.wrapper.id p.1)) ++
        (if (run exampleConfig [Event.exec (ofString "slow | slow") true]).res
            pipedSet.wrapper.id = some true then
          [Output.promiseCancelled pipedSet.wrapper.id]
          else []) ++
        [Output.emitted Emitted.client_command_cancelled pipedSet.wrapper.id,
          completionOutput exampleConfig pipedSet.wrapper Val.undefined Val.undefined none] ∧
      st'._registeredCommands = 0 ∧ st'._completedCommands = 0 ∧
      st'.cancelCommands = none ∧ st'._commandSetCallback = none ∧
      st'._queue = (run exampleConfig [Event.exec (ofString "slow | slow") true])._queue) ∧
      ((run exampleConfig [Event.exec (ofString "slow | slow") true])._queue = [] → ∀ n,
        (cancel exampleConfig (_queueHandler exampleConfig n)
            (run exampleConfig [Event.exec (ofString "slow | slow") true]))._registeredCommands
            = 0 ∧
          (cancel exampleConfig (_queueHandler exampleConfig n)
            (run exampleConfig [Event.exec (ofString "slow | slow") true]))._completedCommands
            = 0) :=
  cancel_calls_hooks_in_chain_order exampleConfig (fun s => s)
    (run exampleConfig [Event.exec (ofString "slow | slow") true])
    pipedSet (by decide) (Or.inl rfl)

/-- C12 as stated fails: the caller is called back before the done hook fires. -/
theorem done_hook_fires_after_caller_callback :
    (run exampleConfig [Event.exec (ofString "slow") true,
        Event.actionCallback 0 [Val.undefined, Val.num 1]]).outputs =
        [Output.fnCalled 0 Fn.action Args.parsed,
          Output.emitted Emitted.client_command_executed 0,
          Output.callerCallback 0 [Val.undefined, Val.num 1],
          Output.doneCalled 0 0] := by
  decide

/-- C12 (amended): when a command set completes (the `completeCommand` call that makes
completed equal to registered, with the set's callback in place), the caller is called back
with the final error and value first; after that, and after whatever the queue handler does,
the done hook of every stage that has one fires, in chain order from the root. -/
theorem done_hooks_follow_caller_callback (cfg : Config) (k : State → State) (st : State)
    (cs : CommandSet) (hk : Grows k) (hcs : st._commandSetCallback = some cs)
    (hdone : st._registeredCommands = st._completedCommands + 1)
    (hasync : cs.wrapper.style = Style.callback ∨ cs.wrapper.style = Style.promise) :
    ∃ before mid : List Output,
      (completeCommand cfg k st).outputs =
        st.outputs ++ before ++
          [completionOutput cfg cs.wrapper (st.response cs.wrapper.id).error
            (st.response cs.wrapper.id).data (st.response cs.wrapper.id).args] ++ mid ++
          ((cs.chain.enum.filter (fun p => p.2._done)).map
            (fun p => Output.doneCalled cs.wrapper.id p.1)) ∧
      ∀ o ∈ before, ∀ i, o.delivers i = false := by
  have hcont : continueWith k cs.wrapper = k := by
    unfold continueWith
    rcases hasync with h | h <;> rw [h]
  have hle : st._registeredCommands ≤ st._completedCommands + 1 := by omega
  unfold completeCommand
  simp only [hle, if_true, hcs, commandSetCallback, callback_eq, hcont, hookCalls_eq,
    List.enum, State.out]
  by_cases herr : (st.response cs.wrapper.id).error.truthy = true
  · simp only [herr, if_true]
    obtain ⟨mid, hmid⟩ := hk _ _ (List.prefix_refl _)
    refine ⟨[Output.stackLogged cs.wrapper.id,
      Output.emitted Emitted.client_command_error cs.wrapper.id], mid, ?_, ?_⟩
    · rw [← hmid]
      simp
    · intro o ho i
      simp only [List.mem_cons, List.mem_singleton, List.not_mem_nil, or_false] at ho
      rcases ho with rfl | rfl <;> rfl
  · simp only [herr, if_false]
    obtain ⟨mid, hmid⟩ := hk _ _ (List.prefix_refl _)
    refine ⟨[Output.emitted Emitted.client_command_executed cs.wrapper.id], mid, ?_, ?_⟩
    · rw [← hmid]
      simp
    · intro o ho i
      simp only [List.mem_singleton] at ho
      subst ho
      rfl

/-- Witness for C12 (amended): the completion of the piped `slow | slow`. -/
theorem done_hooks_follow_caller_callback_witness :
    ∃ before mid : List Output,
      (completeCommand exampleConfig (fun s => s)
          (run exampleConfig [Event.exec (ofString "slow | slow") true])).outputs =
        (run exampleConfig [Event.exec (ofString "slow | slow") true]).outputs ++ before ++
          [completionOutput exampleConfig pipedSet.wrapper
            ((run exampleConfig [Event.exec (ofString "slow | slow") true]).response
              pipedSet.wrapper.id).error
            ((run exampleConfig [Event.exec (ofString "slow | slow") true]).response
              pipedSet.wrapper.id).data
            ((run exampleConfig [Event.exec (ofString "slow | slow") true]).response
              pipedSet.wrapper.id).args] ++ mid ++
          ((pipedSet.chain.enum.filter (fun p => p.2._done)).map
            (fun p => Output.doneCalled pipedSet.wrapper.id p.1)) ∧
      ∀ o ∈ before, ∀ i, o.delivers i = false :=
  done_hooks_follow_caller_callback exampleConfig (fun s => s)
    (run exampleConfig [Event.exec (ofString "slow | slow") true]) pipedSet
    (fun _ _ h => h) (by decide) (by decide) (Or.inl rfl)

/-- C14 fails on the code: with promise-style `exec`, when the validate hook throws the
object 7, or the action passes the object 9 to its completion callback, the promise is
rejected with `undefined` (the `msg` argument of `callback`), not with the error; only an
action's rejected promise hands its error over. -/
theorem promise_rejected_without_the_error :
    (run exampleConfig [Event.exec (ofString "guarded") false]).outputs =
        [Output.validateCalled { id := 0, command := ofString "guarded", style := Style.promise }
            Args.parsed (ValidateHook.throws (Val.obj 7)),
          Output.stackLogged 0,
          Output.emitted Emitted.client_command_error 0,
          Output.rejected 0 Val.undefined,
          Output.doneCalled 0 0] ∧
      (run exampleConfig [Event.exec (ofString "slow") false,
        Event.actionCallback 0 [Val.obj 9]]).outputs =
        [Output.fnCalled 0 Fn.action Args.parsed,
          Output.stackLogged 0,
          Output.emitted Emitted.client_command_error 0,
          Output.rejected 0 Val.undefined,
          Output.doneCalled 0 0] ∧
      (run exampleConfig [Event.exec (ofString "later") false,
        Event.promiseRejected 0 (Val.obj 9)]).outputs =
        [Output.fnCalled 0 Fn.action Args.parsed,
          Output.stackLogged 0,
          Output.emitted Emitted.client_command_error 0,
          Output.rejected 0 (Val.obj 9),
          Output.doneCalled 0 0] := by
  decide

/-- C16 as stated fails when it is a piped command that fails: for `slow | short`, whose
piped command lacks its required argument, the message and help are logged and `execSync`
returns `undefined`, not the message; for `slow | nothing`, whose piped command does not
resolve, help is logged and `execSync` returns `undefined`, not `'Invalid command.'`. -/
theorem failing_pipe_completes_without_message :
    (run sampleConfig [Event.execSync (ofString "slow | short") false]).outputs =
        [Output.logged 0 missingArgument, Output.helpLogged 0,
          Output.returned 0 Val.undefined] ∧
      (run sampleConfig [Event.execSync (ofString "slow | nothing") false]).outputs =
        [Output.helpLogged 0, Output.returned 0 Val.undefined] := by
  decide

/-- C16 (amended): `_exec` parses the line, or in a mode the name of the mode.  When no
command resolves, or the arguments of the resolved command do not build, it logs help (after
the message, if there is one) and completes the request with no error and with the parser's
message, `'Invalid command.'` for no command; when a piped command does not resolve or does
not build, it logs the same and completes the request with no error and no value.  In each
case no validate hook, init or action is called, and `k` (the queue handler) takes over.
The completion is `execSync` returning the value, the caller's callback receiving
`(undefined, value)`, or the promise resolved with the value. -/
theorem parse_failure_completes_with_message (cfg : Config) (k : State → State) (item : Item)
    (st : State) :
    (cfg.parseCommand (match activeMode st with
        | some m => m
        | none => item.command) = ParseOutcome.noMatch →
      _exec cfg k item st = continueWith k item { st with
        _command := none
        outputs := st.outputs ++ [Output.helpLogged item.id,
          completionOutput cfg item Val.undefined (Val.str (ofString "Invalid command.")) none] }) ∧
      (∀ msg, cfg.parseCommand (match activeMode st with
          | some m => m
          | none => item.command) = ParseOutcome.argsError msg →
        _exec cfg k item st = continueWith k item { st with
          _command := none
          outputs := st.outputs ++ (if msg.truthy then [Output.logged item.id msg] else []) ++
            [Output.helpLogged item.id, completionOutput cfg item Val.undefined msg none] }) ∧
      (∀ msg, cfg.parseCommand (match activeMode st with
          | some m => m
          | none => item.command) = ParseOutcome.pipeError msg →
        _exec cfg k item st = continueWith k item { st with
          _command := none
          outputs := st.outputs ++ (if msg.truthy then [Output.logged item.id msg] else []) ++
            [Output.helpLogged item.id,
              completionOutput cfg item Val.undefined Val.undefined none] }) ∧
      (∀ value, completionOutput cfg item Val.undefined value none =
        match item.style with
        | Style.sync _ => Output.returned item.id value
        | Style.callback => Output.callerCallback item.id [Val.undefined, value]
        | Style.promise => Output.resolved item.id value) := by
  refine ⟨?_, ?_, ?_, ?_⟩
  · intro hparse
    cases hact : activeMode st <;> simp only [hact] at hparse <;>
      simp only [_exec, hact, hparse, callback_eq, State.out, List.append_assoc,
        List.singleton_append]
  · intro msg hparse
    cases hact : activeMode st <;> simp only [hact] at hparse <;>
      simp only [_exec, hact, hparse, callback_eq] <;>
      by_cases hmsg : msg.truthy = true <;> simp [hmsg, State.out]
  · intro msg hparse
    cases hact : activeMode st <;> simp only [hact] at hparse <;>
      simp only [_exec, hact, hparse, callback_eq] <;>
      by_cases hmsg : msg.truthy = true <;> simp [hmsg, State.out]
  · intro value
    unfold completionOutput
    cases item.style <;> simp [Val.truthy]

/-- Witness for C16 (amended), on the fresh engine: `execSync('nothing')` returns
`'Invalid command.'`; `exec('short', cb)` logs the message and help and calls back with
`(undefined, message)`; `exec('slow | short')` logs the same and resolves the promise with
`undefined`. -/
theorem parse_failure_completes_with_message_witness :
    (_exec sampleConfig (fun s => s)
        { id := 0, command := ofString "nothing", style := Style.sync false }
        (State.init sampleConfig)).outputs =
        [Output.helpLogged 0, Output.returned 0 (Val.str (ofString "Invalid command."))] ∧
      (_exec sampleConfig (fun s => s)
        { id := 0, command := ofString "short", style := Style.callback }
        (State.init sampleConfig)).outputs =
        [Output.logged 0 missingArgument, Output.helpLogged 0,
          Output.callerCallback 0 [Val.undefined, missingArgument]] ∧
      (_exec sampleConfig (fun s => s)
        { id := 0, command := ofString "slow | short", style := Style.promise }
        (State.init sampleConfig)).outputs =
        [Output.logged 0 missingArgument, Output.helpLogged 0,
          Output.resolved 0 Val.undefined] :=
  ⟨congrArg State.outputs
      ((parse_failure_completes_with_message sampleConfig (fun s => s)
        { id := 0, command := ofString "nothing", style := Style.sync false }
        (State.init sampleConfig)).1 (by decide)),
    congrArg State.outputs
      ((parse_failure_completes_with_message sampleConfig (fun s => s)
        { id := 0, command := ofString "short", style := Style.callback }
        (State.init sampleConfig)).2.1 missingArgument (by decide)),
    congrArg State.outputs
      ((parse_failure_completes_with_message sampleConfig (fun s => s)
        { id := 0, command := ofString "slow | short", style := Style.promise }
        (State.init sampleConfig)).2.2.1 missingArgument (by decide))⟩

/-- C15 as stated fails: in the mode `repl`, whose command has a validate hook that throws,
the text `anything` is given to the validate hook and the action is not invoked. -/
theorem mode_text_stopped_by_validate :
    activeMode (run exampleConfig [Event.exec (ofString "repl") true]) =
        some (ofString "repl") ∧
      (run exampleConfig [Event.exec (ofString "repl") true,
        Event.exec (ofString "anything") true]).outputs =
        [Output.fnCalled 0 Fn.init Args.parsed,
          Output.emitted Emitted.client_command_executed 0,
          Output.callerCallback 0 [],
          Output.doneCalled 0 0,
          Output.validateCalled
            { id := 1, command := ofString "anything", style := Style.callback }
            (Args.raw (ofString "anything")) (ValidateHook.throws (Val.obj 7)),
          Output.stackLogged 1,
          Output.emitted Emitted.client_command_error 1,
          Output.callerCallback 1 [Val.obj 7, Val.undefined],
          Output.doneCalled 1 0] := by
  decide

/-- C15 (amended): while the session is in a mode `m` whose name resolves to the command
`c`: a text that trims to `exit` clears `_mode` and the mode delimiter (`fullDelimiter()` is
the base delimiter again), calls no hook and completes the caller without error.  Any other
text `t` goes to the command raw.  With `execSync` the action is called with `t` and the
request completes with what it returns or throws.  With `exec`, when `c` has no validate
hook, or the hook returns `true` or `undefined`, the hook (if any) is called with `t` and
next the action is called with `t`; when the hook throws `e`, the hook is called with `t`,
the request completes with the error `e`, and the queue handler `k` takes over before the
done hooks: the action is not called. -/
theorem mode_redirect (cfg : Config) (k : State → State) (item : Item) (st : State)
    (m name : JSString) (c : CommandObject) (pipes : List CommandObject) (hk : Grows k)
    (hmode : activeMode st = some m)
    (hparse : cfg.parseCommand m = ParseOutcome.ok name c false pipes) :
    (trim item.command = ofString "exit" →
      _exec cfg k item st = continueWith k item { st with
        _mode := none
        _modeDelimiter := none
        _command := none
        outputs := st.outputs ++ [Output.emitted Emitted.mode_exit item.id,
          completionOutput cfg item Val.undefined Val.undefined none] } ∧
      fullDelimiter { st with _mode := none, _modeDelimiter := none } = st._delimiter) ∧
      (trim item.command ≠ ofString "exit" →
        (∀ f, item.style = Style.sync f →
          _exec cfg k item st = { st with
            _command := none
            outputs := st.outputs ++
              [Output.fnCalled item.id Fn.action (Args.raw item.command),
                match c._fn.sync with
                | SyncResult.returns v => completionOutput cfg item Val.undefined v none
                | SyncResult.throws e => completionOutput cfg item e Val.undefined none] }) ∧
        ((∀ f, item.style ≠ Style.sync f) →
          (c._validate = none ∨ c._validate = some (ValidateHook.returns (Val.bool true)) ∨
              c._validate = some (ValidateHook.returns Val.undefined) →
            _exec cfg k item st =
              callFn cfg k item.id c._fn Fn.action (Args.raw item.command) { st with
                _registeredCommands := 1
                _completedCommands := 0
                cancelCommands := some { wrapper := item, chain := c :: pipes }
                _commandSetCallback := some { wrapper := item, chain := c :: pipes }
                response :=
                  (Function.update st.response item.id
                    { error := Val.undefined, data := Val.undefined, args := none })
                outputs := st.outputs ++
                  (match c._validate with
                    | some hook => [Output.validateCalled item (Args.raw item.command) hook]
                    | none => []) } ∧
            st.outputs ++
                (match c._validate with
                  | some hook => [Output.validateCalled item (Args.raw item.command) hook]
                  | none => []) ++
                [Output.fnCalled item.id Fn.action (Args.raw item.command)] <+:
              (_exec cfg k item st).outputs) ∧
          (∀ e, c._validate = some (ValidateHook.throws e) →
            _exec cfg k item st =
              { k (validateThrowState cfg { wrapper := item, chain := c :: pipes } e
                  (Args.raw item.command) st) with
                outputs :=
                  ((k (validateThrowState cfg { wrapper := item, chain := c :: pipes } e
                    (Args.raw item.command) st)).outputs ++
                    hookCalls (Output.doneCalled item.id) (fun c => c._done) (c :: pipes) 0)
                _commandSetCallback := none }))) := by
  have hsome : (activeMode st).isSome = true := by rw [hmode]; rfl
  have hnone : ¬ (c._mode = true ∧ activeMode st = none) := by
    rw [hmode]
    simp
  constructor
  · intro hexit
    refine ⟨?_, ?_⟩
    · simp only [_exec, hmode, hparse, hnone, hsome, hexit, if_true, if_false, callback_eq,
        _exitMode, State.out, List.append_assoc, List.singleton_append]
      split <;> first | rfl | simp_all
    · simp [fullDelimiter]
  · intro hexit
    have hexec : _exec cfg k item st =
        invoke cfg k item c pipes c._validate c._fn Fn.action (Args.raw item.command) st := by
      simp only [_exec, hmode, hparse, hnone, hsome, hexit, if_true, if_false]
      split <;> simp_all
    rw [hexec]
    refine ⟨?_, ?_⟩
    · intro f hf
      unfold invoke
      rw [hf]
      simp only []
      cases c._fn.sync with
      | returns v =>
        simp only []
        rw [callback_eq]
        unfold continueWith
        rw [hf]
        simp only [State.out, List.append_assoc, List.singleton_append]
      | throws e =>
        simp only []
        rw [callback_eq]
        unfold continueWith
        rw [hf]
        simp only [State.out, List.append_assoc, List.singleton_append]
    · intro hasync
      have hinv : ∀ v, invoke cfg k item c pipes v c._fn Fn.action (Args.raw item.command) st =
          execCommandSet cfg k { wrapper := item, chain := c :: pipes } v c._fn
            Fn.action (Args.raw item.command) st := by
        intro v
        unfold invoke
        cases hs : item.style with
        | sync f => exact absurd hs (hasync f)
        | callback => rfl
        | promise => rfl
      rw [hinv]
      refine ⟨?_, ?_⟩
      · intro hpass
        have heq : execCommandSet cfg k { wrapper := item, chain := c :: pipes } c._validate
            c._fn Fn.action (Args.raw item.command) st =
            callFn cfg k item.id c._fn Fn.action (Args.raw item.command) { st with
              _registeredCommands := 1
              _completedCommands := 0
              cancelCommands := some { wrapper := item, chain := c :: pipes }
              _commandSetCallback := some { wrapper := item, chain := c :: pipes }
              response :=
                (Function.update st.response item.id
                  { error := Val.undefined, data := Val.undefined, args := none })
              outputs := st.outputs ++
                (match c._validate with
                  | some hook => [Output.validateCalled item (Args.raw item.command) hook]
                  | none => []) } := by
          rcases hpass with hv | hv | hv
          · rw [hv]
            unfold execCommandSet
            simp only [List.append_nil]
          · rw [hv]
            unfold execCommandSet
            simp [State.out]
          · rw [hv]
            unfold execCommandSet
            simp [State.out]
        rw [heq]
        refine ⟨rfl, ?_⟩
        exact callFn_grows cfg hk _ _ _ _ _ _ (List.prefix_refl _)
      · intro e he
        rw [he, execCommandSet_throws]
        have hcw : continueWith k item = k := by
          unfold continueWith
          cases hs : item.style with
          | sync f => exact absurd hs (hasync f)
          | callback => rfl
          | promise => rfl
        simp only [hcw]

/-- Witness for C15 (amended): in the mode `repl`, `exit` leaves the mode; in the mode
`shell`, whose command has no validate hook, the text `anything` is given raw to the action,
by `exec` and by `execSync`; in the mode `repl`, whose validate hook throws the object 7,
the text is given to the hook and the request completes with that error. -/
theorem mode_redirect_witness :
    (_exec exampleConfig (fun s => s) exitItem replState =
        continueWith (fun s => s) exitItem { replState with
          _mode := none
          _modeDelimiter := none
          _command := none
          outputs := replState.outputs ++ [Output.emitted Emitted.mode_exit exitItem.id,
            completionOutput exampleConfig exitItem Val.undefined Val.undefined none] } ∧
      fullDelimiter { replState with _mode := none, _modeDelimiter := none } =
        replState._delimiter) ∧
      shellState.outputs ++ [Output.fnCalled 1 Fn.action (Args.raw (ofString "anything"))] <+:
        (_exec sampleConfig (fun s => s) (secondItem "anything" Style.callback)
          shellState).outputs ∧
      (_exec sampleConfig (fun s => s) (secondItem "anything" (Style.sync false))
          shellState).outputs =
        shellState.outputs ++ [Output.fnCalled 1 Fn.action (Args.raw (ofString "anything")),
          Output.returned 1 Val.undefined] ∧
      (_exec exampleConfig (fun s => s) (secondItem "anything" Style.callback)
          replState).outputs =
        replState.outputs ++
          [Output.validateCalled (secondItem "anything" Style.callback)
              (Args.raw (ofString "anything")) (ValidateHook.throws (Val.obj 7)),
            Output.stackLogged 1,
            Output.emitted Emitted.client_command_error 1,
            Output.callerCallback 1 [Val.obj 7, Val.undefined],
            Output.doneCalled 1 0] :=
  ⟨(mode_redirect exampleConfig (fun s => s) exitItem replState (ofString "repl")
      (ofString "repl") guardedMode [] (fun _ _ h => h) (by decide) (by decide)).1 (by decide),
    ((((mode_redirect sampleConfig (fun s => s) (secondItem "anything" Style.callback)
      shellState (ofString "shell") (ofString "shell") openMode [] (fun _ _ h => h)
      (by decide) (by decide)).2 (by decide)).2 (by decide)).1 (Or.inl rfl)).2,
    congrArg State.outputs
      (((mode_redirect sampleConfig (fun s => s) (secondItem "anything" (Style.sync false))
        shellState (ofString "shell") (ofString "shell") openMode [] (fun _ _ h => h)
        (by decide) (by decide)).2 (by decide)).1 false rfl),
    congrArg State.outputs
      ((((mode_redirect exampleConfig (fun s => s) (secondItem "anything" Style.callback)
        replState (ofString "repl") (ofString "repl") guardedMode [] (fun _ _ h => h)
        (by decide) (by decide)).2 (by decide)).2 (by decide)).2 (Val.obj 7) rfl)⟩

/-- C6: in every run of the engine, when the validate hook of a request is called and
throws `e`, no function of that request (action, init or help) is ever called, and for a
request issued with a callback the only completion delivered to the caller, in the whole
run, is one call of the callback with `e` as its first argument. -/
theorem validate_throw_short_circuits (cfg : Config) (events : List Event) (item : Item)
    (a : Args) (e : Val)
    (h : Output.validateCalled item a (ValidateHook.throws e) ∈ (run cfg events).outputs) :
    (∀ w b, Output.fnCalled item.id w b ∉ (run cfg events).outputs) ∧
      (item.style = Style.callback →
        (run cfg events).outputs.filter (Output.delivers item.id) =
          [Output.callerCallback item.id [e, Val.undefined]]) := by
  obtain ⟨hy, _⟩ := foldl_step_hyg cfg events (State.init cfg) (init_hyg cfg).1 (init_hyg cfg).2
  obtain ⟨h1, h2⟩ := hy.1.vt item a e h
  refine ⟨h2, ?_⟩
  intro hs
  have hc : completionOutput cfg item e Val.undefined none =
      Output.callerCallback item.id [e, Val.undefined] := by
    unfold completionOutput
    rw [hs]
  rw [hc] at h1
  exact filter_eq_singleton_of_length_le_one _ _ _ h1 (by simp [Output.delivers])
    (hy.1.once item.id)

/-- Witness for C6: `exec('guarded', cb)` followed by `exec('slow', cb)`; the validate hook
of `guarded` throws the object 7. -/
theorem validate_throw_short_circuits_witness :
    (∀ w b, Output.fnCalled 0 w b ∉
        (run exampleConfig [Event.exec (ofString "guarded") true,
          Event.exec (ofString "slow") true]).outputs) ∧
      (Style.callback = Style.callback →
        (run exampleConfig [Event.exec (ofString "guarded") true,
            Event.exec (ofString "slow") true]).outputs.filter (Output.delivers 0) =
          [Output.callerCallback 0 [Val.obj 7, Val.undefined]]) :=
  validate_throw_short_circuits exampleConfig
    [Event.exec (ofString "guarded") true, Event.exec (ofString "slow") true]
    { id := 0, command := ofString "guarded", style := Style.callback } Args.parsed (Val.obj 7)
    (by decide)


/-! ## Claims about argument slots -/

theorem argCompare_le_iff (a b : ArgSpec) : argCompare a b ≤ 0 ↔ argRank a ≤ argRank b := by
  unfold argCompare argRank
  cases a.required <;> cases a.variadic <;> cases b.required <;> cases b.variadic <;> decide

theorem orderedInsert_append_of_not {α : Type} (r : α → α → Prop) [DecidableRel r] (a : α)
    (l1 l2 : List α) (h : ∀ b ∈ l1, ¬ r a b) :
    (l1 ++ l2).orderedInsert r a = l1 ++ l2.orderedInsert r a := by
  induction l1 with
  | nil => rfl
  | cons b l ih =>
    simp only [List.cons_append, List.orderedInsert]
    rw [if_neg (h b (List.mem_cons_self _ _))]
    exact congrArg (List.cons b) (ih (fun c hc => h c (List.mem_cons_of_mem _ hc)))

theorem orderedInsert_of_all {α : Type} (r : α → α → Prop) [DecidableRel r] (a : α)
    (l : List α) (h : ∀ b ∈ l, r a b) : l.orderedInsert r a = a :: l := by
  cases l with
  | nil => rfl
  | cons b l =>
    simp only [List.orderedInsert]
    rw [if_pos (h b (List.mem_cons_self _ _))]

theorem mem_stableOrder {specs : List ArgSpec} {a : ArgSpec} :
    a ∈ stableOrder specs ↔ a ∈ specs := by
  unfold stableOrder
  simp only [List.mem_append, List.mem_filter]
  cases a.required <;> cases a.variadic <;> simp

theorem orderedInsert_stableOrder (a : ArgSpec) (l : List ArgSpec) :
    (stableOrder l).orderedInsert (fun a b => argCompare a b ≤ 0) a = stableOrder (a :: l) := by
  have hrank : ∀ (p : ArgSpec → Bool) (b : ArgSpec), b ∈ l.filter p → p b = true :=
    fun p b hb => (List.mem_filter.mp hb).2
  have key : ∀ b : ArgSpec, (argCompare a b ≤ 0) = (argRank a ≤ argRank b) :=
    fun b => propext (argCompare_le_iff a b)
  unfold stableOrder
  rcases hr : a.required with _ | _ <;> rcases hv : a.variadic with _ | _
  · simp only [List.filter_cons, hr, hv, Bool.false_and, Bool.not_false, Bool.and_true,
      Bool.and_false, Bool.not_true, Bool.and_self, if_true, if_false, Bool.false_eq_true]
    rw [List.append_assoc (l.filter _ ++ l.filter _), orderedInsert_append_of_not,
      orderedInsert_of_all]
    · simp only [List.append_assoc, List.cons_append]
    all_goals
      intro b hb
      rw [key]
      simp only [List.mem_append, List.mem_filter, Bool.and_eq_true, Bool.not_eq_true'] at hb
      unfold argRank
      rcases b with ⟨br, bn, bv⟩
      cases br <;> cases bv <;> simp_all
  · simp only [List.filter_cons, hr, hv, Bool.false_and, Bool.not_false, Bool.and_true,
      Bool.and_false, Bool.not_true, Bool.and_self, if_true, if_false, Bool.false_eq_true]
    rw [orderedInsert_append_of_not, orderedInsert_of_all]
    all_goals
      intro b hb
      rw [key]
      simp only [List.mem_append, List.mem_filter, Bool.and_eq_true, Bool.not_eq_true'] at hb
      unfold argRank
      rcases b with ⟨br, bn, bv⟩
      cases br <;> cases bv <;> simp_all
  · simp only [List.filter_cons, hr, hv, Bool.false_and, Bool.not_false, Bool.and_true,
      Bool.and_false, Bool.not_true, Bool.and_self, if_true, if_false, Bool.false_eq_true,
      Bool.true_and]
    rw [orderedInsert_of_all]
    · simp only [List.append_assoc, List.cons_append]
    all_goals
      intro b hb
      rw [key]
      simp only [List.mem_append, List.mem_filter, Bool.and_eq_true, Bool.not_eq_true'] at hb
      unfold argRank
      rcases b with ⟨br, bn, bv⟩
      cases br <;> cases bv <;> simp_all
  · simp only [List.filter_cons, hr, hv, Bool.false_and, Bool.not_false, Bool.and_true,
      Bool.and_false, Bool.not_true, Bool.and_self, if_true, if_false, Bool.false_eq_true,
      Bool.true_and]
    rw [List.append_assoc (l.filter _), List.append_assoc (l.filter _),
      orderedInsert_append_of_not, orderedInsert_of_all]
    · simp only [List.append_assoc, List.cons_append]
    all_goals
      intro b hb
      rw [key]
      simp only [List.mem_append, List.mem_filter, Bool.and_eq_true, Bool.not_eq_true'] at hb
      unfold argRank
      rcases b with ⟨br, bn, bv⟩
      cases br <;> cases bv <;> simp_all

theorem insertionSort_eq_stableOrder (l : List ArgSpec) :
    l.insertionSort (fun a b => argCompare a b ≤ 0) = stableOrder l := by
  induction l with
  | nil => rfl
  | cons a l ih => rw [List.insertionSort, ih, orderedInsert_stableOrder]

theorem stableOrder_short (l : List ArgSpec) (h : ¬ l.length > 1) : stableOrder l = l := by
  match l, h with
  | [], _ => rfl
  | [a], _ =>
    unfold stableOrder
    rcases hr : a.required with _ | _ <;> rcases hv : a.variadic with _ | _ <;>
      simp [List.filter_cons, hr, hv]
  | _ :: _ :: _, h => simp at h

theorem parseExpectedArgs_eq (args : List JSString) :
    parseExpectedArgs args =
      stableOrder (declaredSpecs args) := by
  unfold parseExpectedArgs declaredSpecs
  simp only []
  split_ifs with h
  · exact insertionSort_eq_stableOrder _
  · exact (stableOrder_short _ h).symm


theorem argRank_of_mem_filter (l : List ArgSpec) (r v : Bool) (a : ArgSpec)
    (h : a ∈ l.filter (fun a => (a.required == r) && (a.variadic == v))) :
    argRank a = (if r then 0 else 2) + (if v then 1 else 0) := by
  have h2 := (List.mem_filter.mp h).2
  simp only [Bool.and_eq_true, beq_iff_eq] at h2
  unfold argRank
  rw [h2.1, h2.2]

theorem stableOrder_eq (l : List ArgSpec) :
    stableOrder l =
      l.filter (fun a => (a.required == true) && (a.variadic == false)) ++
        l.filter (fun a => (a.required == true) && (a.variadic == true)) ++
        l.filter (fun a => (a.required == false) && (a.variadic == false)) ++
        l.filter (fun a => (a.required == false) && (a.variadic == true)) := by
  have e0 : (fun a : ArgSpec => a.required && !a.variadic) =
      fun a => (a.required == true) && (a.variadic == false) := by
    funext a
    cases a.required <;> cases a.variadic <;> rfl
  have e1 : (fun a : ArgSpec => a.required && a.variadic) =
      fun a => (a.required == true) && (a.variadic == true) := by
    funext a
    cases a.required <;> cases a.variadic <;> rfl
  have e2 : (fun a : ArgSpec => !a.required && !a.variadic) =
      fun a => (a.required == false) && (a.variadic == false) := by
    funext a
    cases a.required <;> cases a.variadic <;> rfl
  have e3 : (fun a : ArgSpec => !a.required && a.variadic) =
      fun a => (a.required == false) && (a.variadic == true) := by
    funext a
    cases a.required <;> cases a.variadic <;> rfl
  unfold stableOrder
  rw [e0, e1, e2, e3]

theorem stableOrder_pairwise (l : List ArgSpec) :
    (stableOrder l).Pairwise (fun a b => argRank a ≤ argRank b) := by
  have hp : ∀ (r v : Bool),
      (l.filter (fun a => (a.required == r) && (a.variadic == v))).Pairwise
        (fun a b => argRank a ≤ argRank b) := by
    intro r v
    apply List.pairwise_of_forall_mem_list
    intro a ha b hb
    rw [argRank_of_mem_filter l r v a ha, argRank_of_mem_filter l r v b hb]
  rw [stableOrder_eq]
  simp only [List.pairwise_append]
  refine ⟨⟨⟨hp _ _, hp _ _, ?_⟩, hp _ _, ?_⟩, hp _ _, ?_⟩
  · intro a ha b hb
    rw [argRank_of_mem_filter l _ _ a ha, argRank_of_mem_filter l _ _ b hb]
    decide
  · intro a ha b hb
    rw [argRank_of_mem_filter l _ _ b hb]
    rcases List.mem_append.mp ha with h | h <;> rw [argRank_of_mem_filter l _ _ a h] <;> decide
  · intro a ha b hb
    rw [argRank_of_mem_filter l _ _ b hb]
    rcases List.mem_append.mp ha with h | h
    · rcases List.mem_append.mp h with h | h <;> rw [argRank_of_mem_filter l _ _ a h] <;>
        decide
    · rw [argRank_of_mem_filter l _ _ a h]
      decide

/-- C21: the argument specs stored by a registration are the declared specs (one per token
with a non-empty name) stably reordered: the required non-variadic slots, the required
variadic ones, the optional non-variadic ones and the optional variadic ones, each group in
the order of declaration; so every required slot precedes every optional one and, with equal
requiredness, non-variadic slots precede variadic ones.  In particular
`[opt] <req> [variadic...]` and `<req> [opt] [variadic...]` register the same list. -/
theorem args_are_stably_sorted (name : JSString) (opts : CommandOpts) :
    (newCommand name opts)._args = stableOrder (declaredSpecs (argTokens name)) ∧
      (newCommand name opts)._args.Pairwise (fun a b =>
        (b.required = true → a.required = true) ∧
          (a.required = b.required → a.variadic = true → b.variadic = true)) ∧
      (newCommand (ofString "cmd [opt] <req> [variadic...]") opts)._args =
        (newCommand (ofString "cmd <req> [opt] [variadic...]") opts)._args := by
  refine ⟨parseExpectedArgs_eq _, ?_, ?_⟩
  · show (parseExpectedArgs (argTokens name)).Pairwise _
    rw [parseExpectedArgs_eq]
    refine (stableOrder_pairwise _).imp ?_
    intro a b
    unfold argRank
    rcases a with ⟨ar, an, av⟩
    rcases b with ⟨br, bn, bv⟩
    cases ar <;> cases av <;> cases br <;> cases bv <;> simp
  · show parseExpectedArgs (argTokens (ofString "cmd [opt] <req> [variadic...]")) =
      parseExpectedArgs (argTokens (ofString "cmd <req> [opt] [variadic...]"))
    decide

theorem stableOrder_perm (l : List ArgSpec) : (stableOrder l).Perm l := by
  rw [← insertionSort_eq_stableOrder]
  exact List.perm_insertionSort _ l

/-- C22 as stated fails: `command()` accepts a template with two variadic tokens and
registers two variadic slots, and it registers a required variadic slot before an optional
slot, so that the variadic slot is not the last one. -/
theorem two_variadic_slots_are_registered :
    (newCommand (ofString "foo [a...] [b...]") noOpts)._args =
        [{ required := false, name := ofString "a", variadic := true },
          { required := false, name := ofString "b", variadic := true }] ∧
      (newCommand (ofString "foo <a...> [b]") noOpts)._args =
        [{ required := true, name := ofString "a", variadic := true },
          { required := false, name := ofString "b", variadic := false }] := by
  decide

/-- C22 (amended): when the template declares at most one variadic token, the registered
list has at most one variadic slot, and that slot is the last element of the list if it is
optional or if every registered slot is required. -/
theorem single_variadic_slot_is_last (name : JSString) (opts : CommandOpts)
    (h : ((declaredSpecs (argTokens name)).filter (fun a => a.variadic)).length ≤ 1) :
    ((newCommand name opts)._args.filter (fun a => a.variadic)).length ≤ 1 ∧
      ∀ v ∈ (newCommand name opts)._args, v.variadic = true →
        (v.required = false ∨ ∀ a ∈ (newCommand name opts)._args, a.required = true) →
          (newCommand name opts)._args.getLast? = some v := by
  have hargs : (newCommand name opts)._args = stableOrder (declaredSpecs (argTokens name)) :=
    parseExpectedArgs_eq _
  rw [hargs]
  generalize declaredSpecs (argTokens name) = specs at h
  have hsub : ∀ p : ArgSpec → Bool, (∀ a, p a = true → a.variadic = true) →
      (specs.filter p).length ≤ 1 := by
    intro p hp
    refine Nat.le_trans (List.Sublist.length_le ?_) h
    exact List.monotone_filter_right specs hp
  refine ⟨?_, ?_⟩
  · rw [((stableOrder_perm specs).filter _).length_eq]
    exact h
  · intro v hv hvar hcase
    have hv2 : v ∈ specs := mem_stableOrder.mp hv
    rcases hcase with hopt | hall
    · have h3 : specs.filter (fun a => !a.required && a.variadic) = [v] :=
        filter_eq_singleton_of_length_le_one _ specs v hv2 (by simp [hopt, hvar])
          (hsub _ (by intro a ha; simp only [Bool.and_eq_true] at ha; exact ha.2))
      unfold stableOrder
      rw [h3]
      simp
    · have hall2 : ∀ a ∈ specs, a.required = true :=
        fun a ha => hall a (mem_stableOrder.mpr ha)
      have h1 : specs.filter (fun a => a.required && a.variadic) = [v] :=
        filter_eq_singleton_of_length_le_one _ specs v hv2 (by simp [hall2 v hv2, hvar])
          (hsub _ (by intro a ha; simp only [Bool.and_eq_true] at ha; exact ha.2))
      have h2 : specs.filter (fun a => !a.required && !a.variadic) = [] := by
        rw [List.filter_eq_nil_iff]
        intro a ha
        simp [hall2 a ha]
      have h3 : specs.filter (fun a => !a.required && a.variadic) = [] := by
        rw [List.filter_eq_nil_iff]
        intro a ha
        simp [hall2 a ha]
      unfold stableOrder
      rw [h1, h2, h3]
      simp

/-- Witness for C22 (amended): `cmd <req> [opt] [variadic...]`. -/
theorem single_variadic_slot_is_last_witness :
    ((newCommand (ofString "cmd <req> [opt] [variadic...]") noOpts)._args.filter
        (fun a => a.variadic)).length ≤ 1 ∧
      ∀ v ∈ (newCommand (ofString "cmd <req> [opt] [variadic...]") noOpts)._args,
        v.variadic = true →
        (v.required = false ∨
          ∀ a ∈ (newCommand (ofString "cmd <req> [opt] [variadic...]") noOpts)._args,
            a.required = true) →
          (newCommand (ofString "cmd <req> [opt] [variadic...]") noOpts)._args.getLast? =
            some v :=
  single_variadic_slot_is_last (ofString "cmd <req> [opt] [variadic...]") noOpts (by decide)

theorem argTokensFrom_some_cons (close : Nat) (acc : JSString) (c : Nat) (cs : JSString) :
    argTokensFrom (some (close, acc)) (c :: cs) =
      if c = close then (acc ++ [c]) :: argTokensFrom none cs
      else argTokensFrom (some (close, acc ++ [c])) cs := by
  rw [argTokensFrom]

theorem argTokensFrom_none_cons (c : Nat) (cs : JSString) :
    argTokensFrom none (c :: cs) =
      if c = 91 ∧ 93 ∈ cs then argTokensFrom (some (93, [c])) cs
      else if c = 60 ∧ 62 ∈ cs then argTokensFrom (some (62, [c])) cs
      else argTokensFrom none cs := by
  rw [argTokensFrom]

theorem argTokensFrom_inside (close : Nat) (text : JSString) :
    ∀ (acc rest : JSString), close ∉ text →
      argTokensFrom (some (close, acc)) (text ++ close :: rest) =
        (acc ++ text ++ [close]) :: argTokensFrom none rest := by
  induction text with
  | nil =>
    intro acc rest _
    rw [List.nil_append, argTokensFrom_some_cons, if_pos rfl, List.append_nil]
  | cons c cs ih =>
    intro acc rest h
    have hc : c ≠ close := fun e => h (e ▸ List.mem_cons_self _ _)
    have hcs : close ∉ cs := fun e => h (List.mem_cons_of_mem _ e)
    rw [List.cons_append, argTokensFrom_some_cons, if_neg hc, ih (acc ++ [c]) rest hcs]
    simp

theorem argTokensFrom_skip (sep rest : JSString) (h : noOpening sep) :
    argTokensFrom none (sep ++ rest) = argTokensFrom none rest := by
  induction sep with
  | nil => rfl
  | cons c cs ih =>
    have h60 : c ≠ 60 := fun e => h.1 (e ▸ List.mem_cons_self _ _)
    have h91 : c ≠ 91 := fun e => h.2 (e ▸ List.mem_cons_self _ _)
    rw [List.cons_append, argTokensFrom_none_cons, if_neg (fun e => h91 e.1),
      if_neg (fun e => h60 e.1)]
    exact ih ⟨fun e => h.1 (List.mem_cons_of_mem _ e), fun e => h.2 (List.mem_cons_of_mem _ e)⟩

theorem argTokensFrom_token (s : Slot) (rest : JSString) (h : s.close ∉ s.text) :
    argTokensFrom none (s.token ++ rest) = s.token :: argTokensFrom none rest := by
  unfold Slot.token
  unfold Slot.close at h
  cases hr : s.required with
  | false =>
    simp only [hr, Bool.false_eq_true, if_false] at h ⊢
    have e : [91] ++ s.text ++ [93] ++ rest = 91 :: (s.text ++ 93 :: rest) := by simp
    rw [e, argTokensFrom_none_cons, if_pos ⟨rfl, by simp⟩, argTokensFrom_inside 93 s.text _ _ h]
  | true =>
    simp only [hr, if_true] at h ⊢
    have e : [60] ++ s.text ++ [62] ++ rest = 60 :: (s.text ++ 62 :: rest) := by simp
    rw [e, argTokensFrom_none_cons, if_neg (by simp), if_pos ⟨rfl, by simp⟩,
      argTokensFrom_inside 62 s.text _ _ h]

theorem argTokensFrom_slots (slots : List (Slot × JSString))
    (hs : ∀ p ∈ slots, p.1.close ∉ p.1.text ∧ noOpening p.2) :
    argTokensFrom none (slots.map (fun p => p.1.token ++ p.2)).flatten =
      slots.map (fun p => p.1.token) := by
  induction slots with
  | nil => rfl
  | cons p ps ih =>
    simp only [List.map_cons, List.flatten_cons, List.append_assoc]
    rw [argTokensFrom_token p.1 _ (hs p (List.mem_cons_self _ _)).1,
      argTokensFrom_skip p.2 _ (hs p (List.mem_cons_self _ _)).2,
      ih (fun q hq => hs q (List.mem_cons_of_mem _ hq))]

theorem argTokens_template (literal : JSString) (slots : List (Slot × JSString))
    (hl : noOpening literal) (hs : ∀ p ∈ slots, p.1.close ∉ p.1.text ∧ noOpening p.2) :
    argTokens (template literal slots) = slots.map (fun p => p.1.token) := by
  unfold argTokens template
  rw [argTokensFrom_skip literal _ hl, argTokensFrom_slots slots hs]

theorem takeWhile_literal (literal rest : JSString) (hl : noOpening literal)
    (hr : rest = [] ∨ ∃ c cs, rest = c :: cs ∧ (c = 60 ∨ c = 91)) :
    (literal ++ rest).takeWhile (fun c => c != 91 && c != 60) = literal := by
  induction literal with
  | nil =>
    rcases hr with h | ⟨c, cs, h, hc⟩
    · rw [h]; rfl
    · rw [h]
      rcases hc with hc | hc <;> (rw [hc]; rfl)
  | cons c cs ih =>
    have h60 : c ≠ 60 := fun e => hl.1 (e ▸ List.mem_cons_self _ _)
    have h91 : c ≠ 91 := fun e => hl.2 (e ▸ List.mem_cons_self _ _)
    have hp : (c != 91 && c != 60) = true := by simp [h60, h91]
    rw [List.cons_append, List.takeWhile_cons, hp, if_pos rfl,
      ih ⟨fun e => hl.1 (List.mem_cons_of_mem _ e), fun e => hl.2 (List.mem_cons_of_mem _ e)⟩]

theorem commandName_template (literal : JSString) (slots : List (Slot × JSString))
    (hl : noOpening literal) : commandName (template literal slots) = trim literal := by
  unfold commandName template
  rw [takeWhile_literal literal _ hl]
  cases slots with
  | nil => exact Or.inl rfl
  | cons p ps =>
    right
    simp only [List.map_cons, List.flatten_cons, Slot.token]
    cases p.1.required
    · exact ⟨91, _, rfl, Or.inr rfl⟩
    · exact ⟨60, _, rfl, Or.inl rfl⟩


theorem argDetails_token (s : Slot) : argDetails s.token = s.spec := by
  have hinner : ∀ a b : Nat, ((([a] ++ s.text ++ [b]).drop 1).dropLast) = s.text := by
    intro a b
    simp
  unfold argDetails Slot.spec Slot.isVariadic Slot.token
  cases hr : s.required with
  | false =>
    simp only [Bool.false_eq_true, if_false, hinner]
    have hh : ([91] ++ s.text ++ [93]).head? = some 91 := rfl
    simp only [hh]
    by_cases hv : s.text.length > 3 ∧ s.text.drop (s.text.length - 3) = [46, 46, 46]
    · simp [hv.1, hv.2]
    · rw [if_neg hv]
      rcases not_and_or.mp hv with h | h <;> simp [h]
  | true =>
    simp only [if_true, hinner]
    have hh : ([60] ++ s.text ++ [62]).head? = some 60 := rfl
    simp only [hh]
    by_cases hv : s.text.length > 3 ∧ s.text.drop (s.text.length - 3) = [46, 46, 46]
    · simp [hv.1, hv.2]
    · rw [if_neg hv]
      rcases not_and_or.mp hv with h | h <;> simp [h]

theorem spec_name_ne_nil (s : Slot) (h : s.text ≠ []) : s.spec.name.isEmpty = false := by
  unfold Slot.spec Slot.isVariadic
  by_cases hv : s.text.length > 3
  · by_cases hd : s.text.drop (s.text.length - 3) = [46, 46, 46]
    · simp only [hv, hd, decide_True, beq_self_eq_true, Bool.and_self, if_true]
      rw [List.isEmpty_eq_false]
      intro e
      have := congrArg List.length e
      simp at this
      omega
    · have : (s.text.drop (s.text.length - 3) == [46, 46, 46]) = false := by simpa using hd
      simp [this, h]
  · simp [hv, h]

theorem declaredSpecs_tokens (slots : List (Slot × JSString))
    (hs : ∀ p ∈ slots, p.1.text ≠ []) :
    declaredSpecs (slots.map (fun p => p.1.token)) = slots.map (fun p => p.1.spec) := by
  unfold declaredSpecs
  rw [List.map_map, List.filter_eq_self.mpr]
  · apply List.map_congr_left
    intro p _
    exact argDetails_token p.1
  · intro a ha
    obtain ⟨p, hp, rfl⟩ := List.mem_map.mp ha
    simp only [Function.comp, argDetails_token, spec_name_ne_nil p.1 (hs p hp), Bool.not_false]

/-- C23 as stated fails at the token `[...]`: its name ends in `...`, but the slot is
registered as not variadic and keeps the name `...`; and a token with an empty name, `[]` or
`<>`, registers no slot at all. -/
theorem dots_token_is_not_variadic :
    (newCommand (ofString "foo [...]") noOpts)._args =
        [{ required := false, name := ofString "...", variadic := false }] ∧
      (newCommand (ofString "foo [] <>") noOpts)._args = [] := by
  decide

/-- C23 (amended): for a template made of a literal part without `<` and `[` followed by
tokens `<n>` and `[n]` with non-empty `n` (without the closing character), separated by
text without `<` and `[`: the registered command's `_name` is the literal part, trimmed; the
tokens found are exactly the declared ones; and the argument specs are one spec per token
(reordered as C21 says), with name `n`, required exactly for `<...>` tokens, and variadic
exactly when `n` is longer than `...` and ends in `...`, the `...` then being removed from
the name. -/
theorem template_registers_name_and_slots (literal : JSString)
    (slots : List (Slot × JSString)) (opts : CommandOpts) (hl : noOpening literal)
    (hs : ∀ p ∈ slots, p.1.text ≠ [] ∧ p.1.close ∉ p.1.text ∧ noOpening p.2) :
    (newCommand (template literal slots) opts)._name = trim literal ∧
      argTokens (template literal slots) = slots.map (fun p => p.1.token) ∧
      (newCommand (template literal slots) opts)._args =
        stableOrder (slots.map (fun p => p.1.spec)) ∧
      ((newCommand (template literal slots) opts)._args).Perm
        (slots.map (fun p => p.1.spec)) := by
  have ht := argTokens_template literal slots hl (fun p hp => (hs p hp).2)
  have ha : (newCommand (template literal slots) opts)._args =
      stableOrder (slots.map (fun p => p.1.spec)) := by
    show parseExpectedArgs (argTokens (template literal slots)) = _
    rw [parseExpectedArgs_eq, ht, declaredSpecs_tokens slots (fun p hp => (hs p hp).1)]
  refine ⟨commandName_template literal slots hl, ht, ha, ?_⟩
  rw [ha]
  exact stableOrder_perm _

/-- Witness for C23 (amended): `deep command <a> [b...]`. -/
theorem template_registers_name_and_slots_witness :
    (newCommand (template (ofString "deep command ")
        [({ required := true, text := ofString "a" }, ofString " "),
          ({ required := false, text := ofString "b..." }, [])]) noOpts)._name =
        trim (ofString "deep command ") ∧
      argTokens (template (ofString "deep command ")
        [({ required := true, text := ofString "a" }, ofString " "),
          ({ required := false, text := ofString "b..." }, [])]) =
        ([({ required := true, text := ofString "a" }, ofString " "),
          ({ required := false, text := ofString "b..." }, [])] :
            List (Slot × JSString)).map (fun p => p.1.token) ∧
      (newCommand (template (ofString "deep command ")
        [({ required := true, text := ofString "a" }, ofString " "),
          ({ required := false, text := ofString "b..." }, [])]) noOpts)._args =
        stableOrder (([({ required := true, text := ofString "a" }, ofString " "),
          ({ required := false, text := ofString "b..." }, [])] :
            List (Slot × JSString)).map (fun p => p.1.spec)) ∧
      ((newCommand (template (ofString "deep command ")
        [({ required := true, text := ofString "a" }, ofString " "),
          ({ required := false, text := ofString "b..." }, [])]) noOpts)._args).Perm
        (([({ required := true, text := ofString "a" }, ofString " "),
          ({ required := false, text := ofString "b..." }, [])] :
            List (Slot × JSString)).map (fun p => p.1.spec)) :=
  template_registers_name_and_slots (ofString "deep command ")
    [({ required := true, text := ofString "a" }, ofString " "),
      ({ required := false, text := ofString "b..." }, [])] noOpts (by decide) (by decide)


/-! ## The validate hook, tab handling and pipe splitting -/

/-- C24 fails on the code: the validate hook of `checked` returns `false` without throwing;
`execCommandSet` then completes the request with the error `false || null` and the action
is never called, the caller is called back with `(null, undefined)`. -/
theorem validate_returning_false_skips_action :
    (run checkedConfig [Event.exec (ofString "checked") true]).outputs =
      [Output.validateCalled
          { id := 0, command := ofString "checked", style := Style.callback }
          Args.parsed (ValidateHook.returns (Val.bool false)),
        Output.emitted Emitted.client_command_executed 0,
        Output.callerCallback 0 [Val.null, Val.undefined],
        Output.doneCalled 0 0] := by
  decide

/-- A tab that yields a list while the counter is positive hands the list, if it is not
empty, to the callback of `autocomplete.exec`, and counts on. -/
theorem pressKeys_list_tabs (l : List JSString) (hl : l ≠ []) (f : Bool) (n ctr : Nat)
    (hctr : 0 < ctr) :
    pressKeys ctr (List.replicate n (Key.tab (MatchResult.list l) f)) =
      (ctr + n, List.replicate n
        { callbackArgs := some [MatchResult.undefined, MatchResult.list l]
          resolved := some MatchResult.undefined }) := by
  induction n generalizing ctr with
  | zero => rfl
  | succ n ih =>
    have hlen : l.length ≠ 0 := fun h => hl (List.length_eq_zero.mp h)
    have h1 : getKeypressResult ctr (Key.tab (MatchResult.list l) f) =
        (ctr + 1, { callbackArgs := some [MatchResult.undefined, MatchResult.list l]
                    resolved := some MatchResult.undefined }) := by
      simp only [getKeypressResult, getAutocomplete, execEnd, handleTabCounts]
      rw [if_pos (by omega), if_neg hlen]
      rfl
    rw [List.replicate_succ, pressKeys, h1]
    simp only []
    rw [ih (ctr + 1) (by omega)]
    simp only [List.replicate_succ]
    congr 1
    omega

/-- C25 fails on the code: in a fresh session the first tab that yields the list `hello`,
`help` returns nothing: `autocomplete.exec` calls back with `(undefined, undefined)` and the
promise of `getKeypressResult` resolves with `undefined`; it is for the second consecutive
tab yielding the same list that `autocomplete.exec` calls back with the list. -/
theorem first_list_tab_returns_nothing :
    pressKeys 0
        [Key.tab (MatchResult.list [ofString "hello", ofString "help"]) false,
          Key.tab (MatchResult.list [ofString "hello", ofString "help"]) false] =
      (2, [{ callbackArgs := some [MatchResult.undefined, MatchResult.undefined]
             resolved := some MatchResult.undefined },
        { callbackArgs := some [MatchResult.undefined,
            MatchResult.list [ofString "hello", ofString "help"]]
          resolved := some MatchResult.undefined }]) := by
  decide

/-- C25, amended: any key other than tab resets the tab counter to zero, whatever it was,
and `autocomplete.exec` is not called for it; and in a run of consecutive tabs after it
(the counter is zero) in which every tab yields the same non-empty list, the result that
`autocomplete.exec` hands to its callback, the second argument, is nothing for the first
tab and the list for every later tab. -/
theorem list_is_shown_from_second_tab (ctr n : Nat) (key : Key) (l : List JSString)
    (f : Bool) (hkey : ∀ r g, key ≠ Key.tab r g) (hl : l ≠ []) :
    (getKeypressResult ctr key).1 = 0 ∧
      (getKeypressResult ctr key).2.callbackArgs = none ∧
      (pressKeys ctr (key :: List.replicate (n + 1) (Key.tab (MatchResult.list l) f))).1 =
        n + 1 ∧
      (pressKeys ctr (key :: List.replicate (n + 1)
          (Key.tab (MatchResult.list l) f))).2.map KeyResult.callbackArgs =
        none :: some [MatchResult.undefined, MatchResult.undefined] ::
          List.replicate n (some [MatchResult.undefined, MatchResult.list l]) := by
  have h0 : (getKeypressResult ctr key).1 = 0 ∧
      (getKeypressResult ctr key).2.callbackArgs = none := by
    cases key with
    | tab r g => exact absurd rfl (hkey r g)
    | up => exact ⟨rfl, rfl⟩
    | down => exact ⟨rfl, rfl⟩
    | other => exact ⟨rfl, rfl⟩
  have h1 : getKeypressResult 0 (Key.tab (MatchResult.list l) f) =
      (1, { callbackArgs := some [MatchResult.undefined, MatchResult.undefined]
            resolved := some MatchResult.undefined }) := by
    simp [getKeypressResult, getAutocomplete, execEnd, handleTabCounts]
  have h2 : pressKeys ctr (key :: List.replicate (n + 1) (Key.tab (MatchResult.list l) f)) =
      (1 + n, (getKeypressResult ctr key).2 ::
        { callbackArgs := some [MatchResult.undefined, MatchResult.undefined]
          resolved := some MatchResult.undefined } ::
        List.replicate n
          { callbackArgs := some [MatchResult.undefined, MatchResult.list l]
            resolved := some MatchResult.undefined }) := by
    rw [pressKeys, h0.1, List.replicate_succ, pressKeys, h1]
    simp only []
    rw [pressKeys_list_tabs l hl f n 1 (by omega)]
  refine ⟨h0.1, h0.2, ?_, ?_⟩
  · rw [h2]
    simp only []
    omega
  · rw [h2]
    simp only [List.map_cons, List.map_replicate, h0.2]

/-- Witness for C25, amended: a key that is no tab, then three tabs on the candidates
`hello`, `help`. -/
theorem list_is_shown_from_second_tab_witness :
    (getKeypressResult 5 Key.other).1 = 0 ∧
      (getKeypressResult 5 Key.other).2.callbackArgs = none ∧
      (pressKeys 5 (Key.other :: List.replicate (2 + 1)
          (Key.tab (MatchResult.list [ofString "hello", ofString "help"]) false))).1 = 2 + 1 ∧
      (pressKeys 5 (Key.other :: List.replicate (2 + 1)
          (Key.tab (MatchResult.list [ofString "hello", ofString "help"]) false))).2.map
          KeyResult.callbackArgs =
        none :: some [MatchResult.undefined, MatchResult.undefined] ::
          List.replicate 2 (some [MatchResult.undefined,
            MatchResult.list [ofString "hello", ofString "help"]]) :=
  list_is_shown_from_second_tab 5 2 Key.other [ofString "hello", ofString "help"] false
    (by intro r g h; cases h) (by decide)

/-- Inside a quoted run every code unit up to the closing quote is appended to the
segment unchanged. -/
theorem splitPipesFrom_inside (q : Nat) (inner : JSString) (hq : q ∉ inner)
    (acc rest : JSString) :
    splitPipesFrom (some q) acc (inner ++ q :: rest) = splitPipesFrom none (acc ++ inner) rest := by
  induction inner generalizing acc with
  | nil =>
    rw [List.nil_append, splitPipesFrom, if_pos rfl, List.append_nil]
  | cons c cs ih =>
    have hc : c ≠ q := fun h => hq (by rw [h]; exact List.mem_cons_self _ _)
    have hcs : q ∉ cs := fun h => hq (List.mem_cons_of_mem _ h)
    rw [List.cons_append, splitPipesFrom, if_neg hc, ih hcs]
    rw [List.append_assoc]
    rfl

theorem render_cons (p : Piece) (ps : List Piece) : render (p :: ps) = p.render ++ render ps := by
  simp [render]

/-- A quote character is no pipe. -/
theorem isQuote_ne_pipe {q : Nat} (h : isQuote q = true) : q ≠ 124 := by
  intro h1
  rw [h1] at h
  exact absurd h (by decide)

/-- The pipe splitting of a line read as well-formed pieces gives the stages of the
pieces. -/
theorem splitPipesFrom_render (ps : List Piece) :
    ∀ acc, wellFormed ps = true → splitPipesFrom none acc (render ps) = stagesFrom acc ps := by
  induction ps with
  | nil =>
    intro acc _
    rfl
  | cons p ps ih =>
    intro acc hwf
    cases p with
    | char c =>
      simp only [wellFormed, Bool.and_eq_true, bne_iff_ne, ne_eq, Bool.or_eq_true,
        Bool.not_eq_true', List.contains_eq_any_beq, List.any_eq_false, beq_iff_eq] at hwf
      obtain ⟨⟨hc, hun⟩, hrest⟩ := hwf
      have hno : ¬ (isQuote c = true ∧ c ∈ render ps) := by
        rintro ⟨h1, h2⟩
        rcases hun with h | h
        · rw [h] at h1; cases h1
        · exact h c h2 rfl
      rw [render_cons]
      show splitPipesFrom none acc (c :: render ps) = _
      rw [splitPipesFrom, if_neg hc, if_neg hno, stagesFrom]
      exact ih _ hrest
    | pipe =>
      simp only [wellFormed] at hwf
      rw [render_cons]
      show splitPipesFrom none acc (124 :: render ps) = _
      rw [splitPipesFrom, if_pos rfl, stagesFrom, ih _ hwf]
    | quoted q inner =>
      simp only [wellFormed, Bool.and_eq_true, Bool.not_eq_true', List.contains_eq_any_beq,
        List.any_eq_false, beq_iff_eq] at hwf
      obtain ⟨⟨hq, hin⟩, hrest⟩ := hwf
      have hnot : q ∉ inner := fun h => hin q h rfl
      rw [render_cons]
      show splitPipesFrom none acc (q :: (inner ++ [q]) ++ render ps) = _
      have hshape : q :: (inner ++ [q]) ++ render ps = q :: (inner ++ q :: render ps) := by
        simp
      have hmem : q ∈ inner ++ q :: render ps :=
        List.mem_append_right _ (List.mem_cons_self _ _)
      rw [hshape, splitPipesFrom, if_neg (isQuote_ne_pipe hq), if_pos ⟨hq, hmem⟩,
        splitPipesFrom_inside q inner hnot, stagesFrom]
      exact ih _ hrest

/-- A code unit that occurs in a string has a first occurrence. -/
theorem exists_first_occurrence (c : Nat) (cs : JSString) (h : c ∈ cs) :
    ∃ inner rest, cs = inner ++ c :: rest ∧ c ∉ inner := by
  induction cs with
  | nil => cases h
  | cons d ds ih =>
    by_cases hd : d = c
    · exact ⟨[], ds, by rw [hd]; rfl, List.not_mem_nil _⟩
    · have hmem : c ∈ ds := by
        rcases List.mem_cons.mp h with h1 | h1
        · exact absurd h1.symm hd
        · exact h1
      obtain ⟨inner, rest, heq, hnot⟩ := ih hmem
      refine ⟨d :: inner, rest, by rw [heq]; rfl, ?_⟩
      intro hc
      rcases List.mem_cons.mp hc with h1 | h1
      · exact hd h1.symm
      · exact hnot h1

/-- Every raw line can be read as well-formed pieces. -/
theorem exists_pieces (n : Nat) :
    ∀ line : JSString, line.length ≤ n → ∃ ps, wellFormed ps = true ∧ render ps = line := by
  induction n with
  | zero =>
    intro line h
    have : line = [] := List.length_eq_zero.mp (Nat.le_zero.mp h)
    exact ⟨[], rfl, by rw [this]; rfl⟩
  | succ n ih =>
    intro line h
    cases line with
    | nil => exact ⟨[], rfl, rfl⟩
    | cons c cs =>
      have hlen : cs.length ≤ n := by
        simp only [List.length_cons] at h
        omega
      by_cases hc : c = 124
      · obtain ⟨ps, hwf, hr⟩ := ih cs hlen
        refine ⟨Piece.pipe :: ps, by simpa [wellFormed] using hwf, ?_⟩
        rw [render_cons, hr, hc]
        rfl
      · by_cases hq : isQuote c = true ∧ c ∈ cs
        · obtain ⟨inner, rest, heq, hnot⟩ := exists_first_occurrence c cs hq.2
          have hrl : rest.length ≤ n := by
            have := congrArg List.length heq
            simp only [List.length_append, List.length_cons] at this
            omega
          obtain ⟨ps, hwf, hr⟩ := ih rest hrl
          refine ⟨Piece.quoted c inner :: ps, ?_, ?_⟩
          · simp only [wellFormed, Bool.and_eq_true, Bool.not_eq_true',
              List.contains_eq_any_beq, List.any_eq_false, beq_iff_eq]
            exact ⟨⟨hq.1, fun x hx hxc => hnot (by rw [hxc]; exact hx)⟩, hwf⟩
          · rw [render_cons, hr, heq]
            simp [Piece.render]
        · obtain ⟨ps, hwf, hr⟩ := ih cs hlen
          refine ⟨Piece.char c :: ps, ?_, ?_⟩
          · simp only [wellFormed, Bool.and_eq_true, bne_iff_ne, ne_eq, Bool.or_eq_true,
              Bool.not_eq_true', List.contains_eq_any_beq, List.any_eq_false, beq_iff_eq]
            refine ⟨⟨hc, ?_⟩, hwf⟩
            by_cases hqc : isQuote c = true
            · right
              intro x hx hxc
              rw [hr] at hx
              exact hq ⟨hqc, by rw [hxc]; exact hx⟩
            · left
              simpa using hqc
          · rw [render_cons, hr]
            rfl

/-- C26 (against the pipe splitting modelled from section 4.2): every raw line reads as
pieces, each a code unit outside quotes that is no pipe (a quote character among them only
if it does not occur again), a pipe outside quotes, or a run between a quote character and
its next occurrence; and for every such reading the stages of the line are those of the
pieces: a new stage starts at each pipe outside quotes and nowhere else, a quoted run goes
into its stage without the two quotes and otherwise verbatim, pipes included, and every
other code unit goes into its stage unchanged. -/
theorem pipes_split_outside_quotes :
    (∀ line : JSString, ∃ ps, wellFormed ps = true ∧ render ps = line) ∧
      (∀ ps, wellFormed ps = true → splitPipes (render ps) = stages ps) :=
  ⟨fun line => exists_pieces line.length line (Nat.le_refl _),
    fun ps hwf => splitPipesFrom_render ps [] hwf⟩

/-- Witness for C26: the line `say "a|b" | reverse` has exactly two stages, `say a|b` and
`reverse` with the blanks around the pipe; the pipe between the quotes is kept. -/
theorem pipes_split_outside_quotes_witness :
    render sayReverse = ofString "say \"a|b\" | reverse" ∧
      splitPipes (ofString "say \"a|b\" | reverse") =
        [ofString "say a|b ", ofString " reverse"] :=
  ⟨by decide, pipes_split_outside_quotes.2 sayReverse (by decide)⟩

/-- C27 fails on the code: the context `he` has no leading white space and matching it
against `help`, `exit` yields `'help '`, but `getMatch` returns `' help '`, with one space
put in front. -/
theorem getMatch_adds_a_space :
    autocomplete.match_ id (ofString "he") [ofString "help", ofString "exit"] true =
        MatchResult.str (ofString "help ") ∧
      getMatch id (ofString "he") [ofString "help", ofString "exit"] true =
        MatchResult.str (ofString " help ") := by
  decide

/-- C28 fails on the code: the text `lp` right of the cursor has no white space, and the
suffix is `p`, a part of the partial word; so it is for the line `help` with the cursor
after `he`. -/
theorem suffix_keeps_partial_word :
    getSuffix (ofString "lp") = ofString "p" ∧
      (parseInput (ofString "help") 2).suffix = ofString "p" := by
  decide

/-- C29 fails on the code: `getMatchObject` throws a TypeError for every input, whatever
the commands, since it calls `' '.repeaet`; so it does for the line `foo ba` with the
command `foo` registered. -/
theorem getMatchObject_always_throws :
    (∀ input commands registry, ∃ e, getMatchObject input commands registry = Except.error e) ∧
      resolveContext (command initialCommands (ofString "foo") noOpts) (ofString "foo ba") 6 =
        Except.error (JSError.typeError "repeaet is not a function") := by
  refine ⟨?_, rfl⟩
  intro input commands registry
  unfold getMatchObject
  cases input.context with
  | none => exact ⟨_, rfl⟩
  | some ctx => exact ⟨_, rfl⟩

/-- C30 fails on the code: with request 1 queued behind request 0, after the action of
request 0 has completed request 1 is the current command and active, its action has been
called and nothing has been delivered to it, and `_commandSetCallback` is `undefined`; when
its action completes later, nothing is delivered to its caller. -/
theorem active_request_without_callback :
    (run exampleConfig [Event.exec (ofString "slow") true, Event.exec (ofString "slow") true,
        Event.actionCallback 0 []])._command =
        some { id := 1, command := ofString "slow", style := Style.callback } ∧
      active (run exampleConfig [Event.exec (ofString "slow") true,
        Event.exec (ofString "slow") true, Event.actionCallback 0 []]).outputs 1 ∧
      (run exampleConfig [Event.exec (ofString "slow") true, Event.exec (ofString "slow") true,
        Event.actionCallback 0 []])._commandSetCallback = none ∧
      ∀ o ∈ (run exampleConfig [Event.exec (ofString "slow") true,
        Event.exec (ofString "slow") true, Event.actionCallback 0 [],
        Event.actionCallback 1 []]).outputs, o.delivers 1 = false := by
  decide
end Vorpal
